import Mathlib

/-!
# Verification of the Clausewitz-script tokenizer / parser / stringifier

A shallow embedding of the pipeline implemented in `src/index.ts`:
lexical analysis (`Tokenizer`), recursive-descent parsing (`Parser`),
the `ClausewitzDocument` path accessor, and the `stringify` renderer.

Modelling conventions:
* the input string is processed as its list of characters; positions are
  1-based line/column counters exactly as in the source;
* JavaScript numbers produced by `parseFloat` on the tokenizer's numeric
  literals are modelled as exact decimals: an integer mantissa together
  with a power-of-ten denominator exponent, kept normalized (no trailing
  decimal zeros), which matches JavaScript value equality and `String()`
  rendering on such literals;
* thrown exceptions are modelled by `Except`; the `catch` blocks of
  `Tokenizer.tokenize` and `Parser.parse` become the wrapping of the
  structured error into the result records, which mirror the TypeScript
  result objects field by field (optional fields become `Option`);
* the in-place mutations of `ClausewitzDocument` become pure functions
  returning the new document together with the TypeScript return value.
-/

/-! ## Character classes (Tokenizer.isDigit / isAlpha / isIdentifierStart /
isIdentifierChar and skipWhitespace's whitespace test) -/

def isDigitCh (c : Char) : Bool := '0' ≤ c && c ≤ '9'

def isAlphaCh (c : Char) : Bool := ('a' ≤ c && c ≤ 'z') || ('A' ≤ c && c ≤ 'Z')

def isIdentStartCh (c : Char) : Bool := isAlphaCh c || c = '_' || c = '@'

def isIdentCh (c : Char) : Bool :=
  isAlphaCh c || isDigitCh c || c = '_' || c = ':' || c = '.' || c = '[' || c = ']' || c = '@'

def isWsCh (c : Char) : Bool := c = ' ' || c = '\t' || c = '\r' || c = '\n'

/-- The whitespace characters removed by JavaScript `String.prototype.trim`
(the ones relevant to this code base; a superset of `isWsCh`). -/
def isJsTrimCh (c : Char) : Bool :=
  isWsCh c || c = '\x0b' || c = '\x0c' || c = '\u00A0' || c = '\uFEFF'

/-! ## Tokens -/

inductive TokenType where
  | Identifier | String | Number | Boolean
  | Equals | LeftBrace | RightBrace
  | LessThan | GreaterThan | LessThanOrEqual | GreaterThanOrEqual | NotEqual
  | Comment | EOF
deriving DecidableEq, Repr

structure Token where
  type : TokenType
  value : String
  line : Nat
  column : Nat
deriving DecidableEq, Repr

/-- The structured content of the `Error` messages thrown by the tokenizer.
The positions stored here are the ones interpolated into the message text. -/
inductive TokErrKind where
  | unterminatedString (line column : Nat)
  | unexpectedChar (c : Char) (line column : Nat)
deriving DecidableEq, Repr

/-- The message text of a thrown tokenizer error, as built in the source. -/
def TokErrKind.msg : TokErrKind → String
  | .unterminatedString l c =>
      "Unterminated string starting at line " ++ toString l ++ ", column " ++ toString c
  | .unexpectedChar ch l c =>
      "Unexpected character '" ++ String.mk [ch] ++ "' at line " ++ toString l ++
        ", column " ++ toString c

/-- A thrown tokenizer error together with the `this.line` / `this.column`
value at the moment of the throw (the values the `catch` block reports). -/
structure TokErr where
  kind : TokErrKind
  line : Nat
  column : Nat
deriving DecidableEq, Repr

/-- Mirror of the TypeScript `TokenizerResult` object. -/
structure TokenizerResult where
  success : Bool
  tokens : Option (List Token)
  error : Option String
  errorLine : Option Nat
  errorColumn : Option Nat
deriving DecidableEq, Repr

/-! ## Position tracking (Tokenizer.advance) -/

/-- One `advance()` step of the line/column counters. -/
def stepPos (p : Nat × Nat) (c : Char) : Nat × Nat :=
  if c = '\n' then (p.1 + 1, 1) else (p.1, p.2 + 1)

/-- Line/column after consuming a list of characters. -/
def advancePos (cs : List Char) (l c : Nat) : Nat × Nat :=
  cs.foldl stepPos (l, c)

/-! ## The scanners -/

/-- `skipWhitespace`: drop leading whitespace, tracking position. -/
def skipWs : List Char → Nat → Nat → List Char × Nat × Nat
  | [], l, c => ([], l, c)
  | ch :: rest, l, c =>
      if isWsCh ch then
        if ch = '\n' then skipWs rest (l + 1) 1 else skipWs rest l (c + 1)
      else (ch :: rest, l, c)

/-- Body of `scanComment` after the `#`: text up to (excluding) the next
newline, and the remaining characters. -/
def commentBody : List Char → List Char × List Char
  | [] => ([], [])
  | ch :: rest =>
      if ch = '\n' then ([], ch :: rest)
      else
        let (v, r) := commentBody rest
        (ch :: v, r)

/-- JavaScript `String.prototype.trim` on a character list. -/
def jsTrim (cs : List Char) : List Char :=
  ((cs.dropWhile isJsTrimCh).reverse.dropWhile isJsTrimCh).reverse

/-- The loop of `scanString`, entered after the opening quote, threading the
line/column counters. Returns the scanned value, the characters after the
closing quote, and the position after the closing quote; `none` when the
input ends before a closing quote (the unterminated-string throw). -/
def scanStringBody : List Char → Nat → Nat → Option (List Char × List Char × Nat × Nat)
  | [], _, _ => none
  | '"' :: rest, l, c => some ([], rest, l, c + 1)
  | '\n' :: rest, l, _ =>
      (scanStringBody rest (l + 1) 1).map fun (v, r, l', c') => ('\n' :: v, r, l', c')
  | '\\' :: '"' :: rest, l, c =>
      (scanStringBody rest l (c + 2)).map fun (v, r, l', c') => ('"' :: v, r, l', c')
  | ch :: rest, l, c =>
      (scanStringBody rest l (c + 1)).map fun (v, r, l', c') => (ch :: v, r, l', c')

/-- A maximal run of digits and the rest of the input. -/
def scanDigits (cs : List Char) : List Char × List Char :=
  (cs.takeWhile isDigitCh, cs.dropWhile isDigitCh)

/-- The optional decimal part of `scanNumber`: a `.` is consumed only when
followed by a digit, else it is left for a later token. -/
def scanFrac (cs : List Char) : List Char × List Char :=
  match cs with
  | '.' :: d :: rest =>
      if isDigitCh d then
        let (fp, r) := scanDigits (d :: rest)
        ('.' :: fp, r)
      else ([], cs)
  | _ => ([], cs)

/-- The optional leading minus sign of `scanNumber`. -/
def scanSign : List Char → List Char × List Char
  | '-' :: rest => (['-'], rest)
  | cs => ([], cs)

/-- `scanNumber`: the consumed literal text and the remaining characters.
Only called when the head is a digit, or a `-` followed by a digit. -/
def scanNumberText (cs : List Char) : List Char × List Char :=
  let (sgn, cs1) := scanSign cs
  let (ip, cs2) := scanDigits cs1
  let (fp, cs3) := scanFrac cs2
  (sgn ++ ip ++ fp, cs3)

/-- `scanToken`: dispatch on the first character (never called at end of
input or on whitespace). Returns the token and the rest of the input with
the updated position, or the thrown error. -/
def scanToken (cs : List Char) (l c : Nat) : Except TokErr (Token × List Char × Nat × Nat) :=
  match cs with
  | [] => .error ⟨.unexpectedChar '\x00' l c, l, c⟩
  | ch :: rest =>
      if ch = '#' then
        let (v, r) := commentBody rest
        .ok (⟨.Comment, ⟨jsTrim v⟩, l, c⟩, r, l, c + 1 + v.length)
      else if ch = '"' then
        match scanStringBody rest l (c + 1) with
        | some (v, r, l', c') => .ok (⟨.String, ⟨v⟩, l, c⟩, r, l', c')
        | none =>
            let p := advancePos rest l (c + 1)
            .error ⟨.unterminatedString l c, p.1, p.2⟩
      else if isDigitCh ch || (ch = '-' && (match rest with
              | d :: _ => isDigitCh d
              | [] => false)) then
        let (txt, r) := scanNumberText (ch :: rest)
        .ok (⟨.Number, ⟨txt⟩, l, c⟩, r, l, c + txt.length)
      else if ch = '=' then .ok (⟨.Equals, "=", l, c⟩, rest, l, c + 1)
      else if ch = '{' then .ok (⟨.LeftBrace, "\x7b", l, c⟩, rest, l, c + 1)
      else if ch = '}' then .ok (⟨.RightBrace, "\x7d", l, c⟩, rest, l, c + 1)
      else if ch = '<' then
        match rest with
        | '=' :: r2 => .ok (⟨.LessThanOrEqual, "<=", l, c⟩, r2, l, c + 2)
        | '>' :: r2 => .ok (⟨.NotEqual, "<>", l, c⟩, r2, l, c + 2)
        | _ => .ok (⟨.LessThan, "<", l, c⟩, rest, l, c + 1)
      else if ch = '>' then
        match rest with
        | '=' :: r2 => .ok (⟨.GreaterThanOrEqual, ">=", l, c⟩, r2, l, c + 2)
        | _ => .ok (⟨.GreaterThan, ">", l, c⟩, rest, l, c + 1)
      else if ch = '!' && (match rest with
              | '=' :: _ => true
              | _ => false) then
        .ok (⟨.NotEqual, "!=", l, c⟩, rest.tail, l, c + 2)
      else if isIdentStartCh ch then
        let w := (ch :: rest).takeWhile isIdentCh
        let r := (ch :: rest).dropWhile isIdentCh
        if w = "yes".data || w = "no".data then
          .ok (⟨.Boolean, ⟨w⟩, l, c⟩, r, l, c + w.length)
        else
          .ok (⟨.Identifier, ⟨w⟩, l, c⟩, r, l, c + w.length)
      else .error ⟨.unexpectedChar ch l c, l, c⟩

/-! ## Consumption lemmas, and the tokenizer main loop -/

theorem commentBody_append (cs : List Char) :
    (commentBody cs).1 ++ (commentBody cs).2 = cs := by
  induction cs with
  | nil => rfl
  | cons ch rest ih =>
      by_cases h : ch = '\n' <;> simp [commentBody, h, ih]

theorem scanStringBody_length {cs : List Char} {l c : Nat} {v r : List Char} {l' c' : Nat}
    (h : scanStringBody cs l c = some (v, r, l', c')) : r.length < cs.length := by
  induction cs, l, c using scanStringBody.induct generalizing v r l' c' with
  | case1 => simp [scanStringBody] at h
  | case2 rest l c =>
      simp only [scanStringBody, Option.some.injEq] at h
      cases h
      simp
  | case3 rest l c ih =>
      simp only [scanStringBody, Option.map_eq_some'] at h
      obtain ⟨⟨v0, r0, l0, c0⟩, h0, h1⟩ := h
      cases h1
      have := ih h0
      simp only [List.length_cons]
      omega
  | case4 rest l c ih =>
      simp only [scanStringBody, Option.map_eq_some'] at h
      obtain ⟨⟨v0, r0, l0, c0⟩, h0, h1⟩ := h
      cases h1
      have := ih h0
      simp only [List.length_cons]
      omega
  | case5 ch rest l c hne1 hne2 hne3 ih =>
      simp only [scanStringBody, Option.map_eq_some'] at h
      obtain ⟨⟨v0, r0, l0, c0⟩, h0, h1⟩ := h
      cases h1
      have := ih h0
      simp only [List.length_cons]
      omega

theorem scanDigits_append (cs : List Char) :
    (scanDigits cs).1 ++ (scanDigits cs).2 = cs := by
  simp [scanDigits]

theorem scanFrac_append (cs : List Char) :
    (scanFrac cs).1 ++ (scanFrac cs).2 = cs := by
  unfold scanFrac
  split
  · next d rest =>
      by_cases hd : isDigitCh d
      · have := scanDigits_append (d :: rest)
        simp only [scanDigits] at this ⊢
        simp [hd, this]
      · simp [hd]
  · simp

theorem scanSign_append (cs : List Char) :
    (scanSign cs).1 ++ (scanSign cs).2 = cs := by
  unfold scanSign
  split
  · simp
  · simp

theorem scanNumberText_append (cs : List Char) :
    (scanNumberText cs).1 ++ (scanNumberText cs).2 = cs := by
  unfold scanNumberText
  rcases hs : scanSign cs with ⟨sgn, cs1⟩
  rcases hd : scanDigits cs1 with ⟨ip, cs2⟩
  rcases hf : scanFrac cs2 with ⟨fp, cs3⟩
  have h1 := scanSign_append cs
  have h2 := scanDigits_append cs1
  have h3 := scanFrac_append cs2
  rw [hs] at h1
  rw [hd] at h2
  rw [hf] at h3
  simp only [] at h1 h2 h3
  simp only [hs, hd, hf]
  simp only [List.append_assoc]
  rw [h3, h2, h1]

theorem isIdentStartCh_isIdentCh {c : Char} (h : isIdentStartCh c = true) :
    isIdentCh c = true := by
  simp only [isIdentStartCh, Bool.or_eq_true] at h
  simp only [isIdentCh, Bool.or_eq_true]
  tauto

theorem isDigitCh_ne_minus {c : Char} (h : isDigitCh c = true) : c ≠ '-' := by
  rintro rfl
  simp [isDigitCh] at h

theorem scanSign_not_minus {cs : List Char} (h : cs.head? ≠ some '-') :
    scanSign cs = ([], cs) := by
  unfold scanSign
  split
  · simp at h
  · rfl

theorem scanNumberText_ne_nil {ch : Char} {rest : List Char}
    (h : isDigitCh ch = true ∨ ch = '-') :
    (scanNumberText (ch :: rest)).1 ≠ [] := by
  rcases h with h | rfl
  · have hne : ch ≠ '-' := isDigitCh_ne_minus h
    unfold scanNumberText
    rw [scanSign_not_minus (by simp [hne])]
    simp only [scanDigits]
    rw [List.takeWhile_cons_of_pos h]
    simp
  · unfold scanNumberText
    rw [show scanSign ('-' :: rest) = (['-'], rest) from rfl]
    simp


theorem dropWhile_length_le (p : Char → Bool) (l : List Char) :
    (l.dropWhile p).length ≤ l.length :=
  (List.dropWhile_sublist (p := p) (l := l)).length_le

theorem scanToken_length {cs : List Char} {l c : Nat} {t : Token} {r : List Char} {l' c' : Nat}
    (h : scanToken cs l c = .ok (t, r, l', c')) : r.length < cs.length := by
  match cs with
  | [] => simp [scanToken] at h
  | ch :: rest =>
      unfold scanToken at h
      by_cases h1 : ch = '#'
      · rcases hcb : commentBody rest with ⟨v, r0⟩
        simp only [h1, if_true, hcb] at h
        cases h
        have hap := commentBody_append rest
        rw [hcb] at hap
        simp only [] at hap
        have : r.length ≤ rest.length := by
          rw [← hap]; simp
        simp only [List.length_cons]
        omega
      · simp only [h1, if_false] at h
        by_cases h2 : ch = '"'
        · simp only [h2, if_true] at h
          rcases hsb : scanStringBody rest l (c + 1) with _ | ⟨v, r0, l0, c0⟩ <;>
            simp only [hsb] at h
          · cases h
          · cases h
            have := scanStringBody_length hsb
            simp only [List.length_cons]
            omega
        · simp only [h2, if_false] at h
          split at h
          · rename_i h3
            rcases hnt : scanNumberText (ch :: rest) with ⟨txt, r0⟩
            simp only [hnt] at h
            cases h
            have happ := scanNumberText_append (ch :: rest)
            rw [hnt] at happ
            simp only [] at happ
            have hne : txt ≠ [] := by
              have h4 : isDigitCh ch = true ∨ ch = '-' := by
                rcases Bool.or_eq_true _ _ |>.mp h3 with h4 | h4
                · exact .inl h4
                · exact .inr (by
                    rcases Bool.and_eq_true _ _ |>.mp h4 with ⟨h5, _⟩
                    simpa using h5)
              have := @scanNumberText_ne_nil ch rest h4
              rw [hnt] at this
              simpa using this
            have hlen : txt.length + r.length = rest.length + 1 := by
              have := congrArg List.length happ
              simpa using this
            have : 1 ≤ txt.length := by
              cases txt with
              | nil => exact absurd rfl hne
              | cons a b => simp
            simp only [List.length_cons]
            omega
          · rename_i h3
            by_cases h4 : ch = '=' <;> simp only [h4, if_true, if_false] at h
            · cases h; simp
            by_cases h5 : ch = '{' <;> simp only [h5, if_true, if_false] at h
            · cases h; simp
            by_cases h6 : ch = '}' <;> simp only [h6, if_true, if_false] at h
            · cases h; simp
            by_cases h7 : ch = '<' <;> simp only [h7, if_true, if_false] at h
            · split at h <;> (cases h; simp <;> omega)
            by_cases h8 : ch = '>' <;> simp only [h8, if_true, if_false] at h
            · split at h <;> (cases h; simp <;> omega)
            split at h
            · cases h
              simp only [List.length_cons, List.length_tail]
              omega
            · by_cases h10 : isIdentStartCh ch = true
              · rw [if_pos h10] at h
                have hdw : List.dropWhile isIdentCh (ch :: rest) = List.dropWhile isIdentCh rest :=
                  List.dropWhile_cons_of_pos (isIdentStartCh_isIdentCh h10)
                have hle := dropWhile_length_le isIdentCh rest
                split at h <;> (cases h; rw [hdw]; simp only [List.length_cons]; omega)
              · rw [if_neg h10] at h
                cases h

theorem skipWs_length {cs : List Char} {l c : Nat} :
    (skipWs cs l c).1.length ≤ cs.length := by
  induction cs generalizing l c with
  | nil => simp [skipWs]
  | cons ch rest ih =>
      unfold skipWs
      by_cases hw : isWsCh ch = true
      · by_cases hn : ch = '\n' <;>
          simp only [hw, hn, if_true, if_false, List.length_cons] <;>
          exact le_trans ih (by omega)
      · simp [hw]

/-- The `tokenize()` main loop: skip whitespace, scan one token, repeat; on
normal exit append the EOF token at the current position. The `fuel`
argument only drives the recursion; `tokenize` supplies more than the
input length, which never runs out (each step consumes a character). -/
def tokenizeLoop : Nat → List Char → Nat → Nat → Except TokErr (List Token)
  | 0, _, l, c => .error ⟨.unexpectedChar '\x00' l c, l, c⟩
  | fuel + 1, cs, l, c =>
      match skipWs cs l c with
      | (cs1, l1, c1) =>
          match cs1 with
          | [] => .ok [⟨.EOF, "", l1, c1⟩]
          | ch :: rest =>
              match scanToken (ch :: rest) l1 c1 with
              | .error e => .error e
              | .ok (t, cs2, l2, c2) =>
                  match tokenizeLoop fuel cs2 l2 c2 with
                  | .error e => .error e
                  | .ok ts => .ok (t :: ts)

/-- Is the input rejected by the empty / all-whitespace pre-check
(`!input || input.trim().length === 0`)? -/
def emptyOrWsInput (input : String) : Bool :=
  input.data.isEmpty || (jsTrim input.data).isEmpty

/-- The `tokenize` convenience function (the public tokenizer entry point). -/
def tokenize (input : String) : TokenizerResult :=
  if emptyOrWsInput input then
    ⟨false, none, some "Input cannot be empty", none, none⟩
  else
    match tokenizeLoop (input.data.length + 1) input.data 1 1 with
    | .ok ts => ⟨true, some ts, none, none, none⟩
    | .error e => ⟨false, none, some e.kind.msg, some e.line, some e.column⟩

/-- `tokenizeWithoutComments`: tokenize, then filter Comment tokens. -/
def tokenizeWithoutComments (input : String) : TokenizerResult :=
  let r := tokenize input
  if r.success then
    match r.tokens with
    | some ts => { r with tokens := some (ts.filter (fun t => t.type ≠ TokenType.Comment)) }
    | none => r
  else r

/-! ## Decimal numbers: the model of JavaScript `parseFloat` / `parseInt`
on the tokenizer's numeric literal texts, and of decimal rendering -/

/-- The decimal digit character for `d % 10`. -/
def digitChar (d : Nat) : Char :=
  match d with
  | 0 => '0' | 1 => '1' | 2 => '2' | 3 => '3' | 4 => '4'
  | 5 => '5' | 6 => '6' | 7 => '7' | 8 => '8' | _ => '9'

/-- The numeric value of a decimal digit character. -/
def charDigit (c : Char) : Nat := c.toNat - 48

/-- Decimal digit string of a natural number (no leading zeros). -/
def natToDigitsAux : Nat → Nat → List Char
  | 0, _ => []
  | fuel + 1, n =>
      if n < 10 then [digitChar n]
      else natToDigitsAux fuel (n / 10) ++ [digitChar (n % 10)]

/-- Decimal digit string of a natural number (no leading zeros); the fuel
of the auxiliary loop is always sufficient. -/
def natToDigits (n : Nat) : List Char := natToDigitsAux (n + 1) n

/-- Value of a decimal digit string (the accumulator loop). -/
def digitsToNat (ds : List Char) : Nat :=
  ds.foldl (fun a c => a * 10 + charDigit c) 0

/-- Model of `parseFloat` on a numeric literal text: the exact decimal value
as mantissa and fractional length, read off the literal. -/
def parseFloatDec (s : String) : Int × Nat :=
  let (sgn, cs1) := scanSign s.data
  let (ip, cs2) := scanDigits cs1
  let fp :=
    match cs2 with
    | '.' :: rest => rest.takeWhile isDigitCh
    | _ => []
  let raw : Int := (digitsToNat ip * 10 ^ fp.length + digitsToNat fp : Nat)
  (if sgn.isEmpty then raw else -raw, fp.length)

/-- Model of `parseInt(text, 10)` on a numeric literal text: the leading
integer part (parsing stops at the `.`). -/
def parseIntM (s : String) : Int :=
  let (sgn, cs1) := scanSign s.data
  let ip := cs1.takeWhile isDigitCh
  if sgn.isEmpty then (digitsToNat ip : Int) else -(digitsToNat ip : Int)

/-- Normalization of an exact decimal: strip trailing fractional zeros.
Two JavaScript numbers obtained from decimal literals are equal exactly when
their normalized pairs are equal. -/
def normPairAux (m : Int) : Nat → Int × Nat
  | 0 => (m, 0)
  | e + 1 => if m % 10 = 0 then normPairAux (m / 10) e else (m, e + 1)

def normPair (p : Int × Nat) : Int × Nat := normPairAux p.1 p.2

/-! ## The binary64 double model: `parseFloat`/`parseInt` round their exact
decimal arguments to the nearest double (ties to even), and `String()`
renders the shortest decimal that reads back to the same double -/

/-- A JavaScript number as produced by `parseFloat`/`parseInt`: a finite
binary64 double, represented by its exact (normalized) decimal value
`m / 10^e`, or an infinity. -/
inductive Dbl where
  | fin (m : Int) (e : Nat)
  | inf (neg : Bool)
deriving DecidableEq, Repr

/-- Length of `n` written in base `b` (fuel-based):
`b^(nsize b n - 1) ≤ n < b^(nsize b n)` for `n ≥ 1`. -/
def nsizeAux (b : Nat) : Nat → Nat → Nat
  | 0, _ => 0
  | f + 1, n => if n = 0 then 0 else nsizeAux b f (n / b) + 1

def nsize (b n : Nat) : Nat := nsizeAux b (n + 1) n

/-- `b^k * D ≤ M` for a signed exponent `k`. -/
def lepow (b : Nat) (k : Int) (D M : Nat) : Bool :=
  if 0 ≤ k then decide (b ^ k.toNat * D ≤ M) else decide (D ≤ b ^ (-k).toNat * M)

/-- The base-`b` exponent of `M / D` (both ≥ 1): the `e` with
`b^e ≤ M/D < b^(e+1)`. -/
def scaleExpMD (b : Nat) (M D : Nat) : Int :=
  let e0 : Int := (nsize b M : Int) - (nsize b D : Int) - 1
  if lepow b (e0 + 1) D M then e0 + 1 else e0

/-- `A / B` rounded to the nearest integer, ties to even (`B ≥ 1`). -/
def rdiv (A B : Nat) : Nat :=
  let q := A / B
  let r := A % B
  if 2 * r < B then q
  else if B < 2 * r then q + 1
  else if q % 2 = 0 then q else q + 1

/-- The normalized decimal pair of the dyadic value `M · 2^t`. -/
def dyadicPair (M : Int) (t : Int) : Int × Nat :=
  if 0 ≤ t then (M * 2 ^ t.toNat, 0)
  else normPair (M * 5 ^ (-t).toNat, (-t).toNat)

/-- The rounding granularity exponent for the magnitude `A / D`: the ulp of
the binade holding the value is `2^t`, with the fixed subnormal granularity
`2^-1074` below the normal range. -/
def roundT (A D : Nat) : Int :=
  if scaleExpMD 2 A D < -1022 then -1074 else scaleExpMD 2 A D - 52

/-- The rounded significand: `A / D / 2^t`, rounded to the nearest integer
with ties to even. -/
def roundM (A D : Nat) : Nat :=
  if 0 ≤ roundT A D then rdiv A (D * 2 ^ (roundT A D).toNat)
  else rdiv (A * 2 ^ (-roundT A D).toNat) D

/-- Rounding of the exact decimal `M / 10^E` to the nearest IEEE-754
binary64 double — round-to-nearest, ties-to-even, with gradual underflow
and overflow to an infinity — returned as the double's exact value
(a normalized decimal pair): the ECMAScript number conversion `𝔽(r)`. -/
def roundDbl (M : Int) (E : Nat) : Dbl :=
  if M = 0 then .fin 0 0
  else
    let A := M.natAbs
    let D := 10 ^ E
    if 0 ≤ roundT A D ∧ 2 ^ 1024 ≤ roundM A D * 2 ^ (roundT A D).toNat then
      .inf (decide (M < 0))
    else
      let p := dyadicPair (if M < 0 then -(roundM A D : Int) else (roundM A D : Int))
        (roundT A D)
      .fin p.1 p.2

/-- `⌊(A/D) / 10^p⌋`. -/
def floorScaled (A D : Nat) (p : Int) : Nat :=
  if 0 ≤ p then A / (D * 10 ^ p.toNat) else A * 10 ^ (-p).toNat / D

/-- The value `± s · 10^p` as a decimal pair. -/
def candPair (neg : Bool) (s : Nat) (p : Int) : Int × Nat :=
  if 0 ≤ p then ((if neg then -(s : Int) else (s : Int)) * 10 ^ p.toNat, 0)
  else ((if neg then -(s : Int) else (s : Int)), (-p).toNat)

/-- Does the decimal `± s · 10^p`, read back as a double, round to exactly
the double `m / 10^e`?  (The defining property of the digit strings
`Number::toString` may print.) -/
def candOK (neg : Bool) (s : Nat) (p : Int) (m : Int) (e : Nat) : Bool :=
  roundDbl (candPair neg s p).1 (candPair neg s p).2 == .fin m e

/-- `|s·10^p − A/10^e|` scaled by `10^e · 10^(max 0 (−p))` to a natural
number (used only to compare two candidates at equal `p` and `e`). -/
def candDist (s : Nat) (p : Int) (A : Nat) (e : Nat) : Nat :=
  if 0 ≤ p then (s * 10 ^ (p.toNat + e) - A) + (A - s * 10 ^ (p.toNat + e))
  else (s * 10 ^ e - A * 10 ^ (-p).toNat) + (A * 10 ^ (-p).toNat - s * 10 ^ e)

/-- `Number::toString`'s digit search, at digit count `k`: the two nearest
`k`-digit decimals of the double `m / 10^e` (floor and ceiling of the value
at scale `10^(d10+1-k)`); if either reads back to the double, the closer
one is chosen (on a tie, the one with even digits); otherwise the search
continues at `k + 1`. -/
def shortestAux (m : Int) (e : Nat) (d10 : Int) : Nat → Nat → Option (Nat × Int)
  | 0, _ => none
  | f + 1, k =>
      let p := d10 + 1 - (k : Int)
      let s1 := floorScaled m.natAbs (10 ^ e) p
      let ok1 := candOK (decide (m < 0)) s1 p m e
      let ok2 := candOK (decide (m < 0)) (s1 + 1) p m e
      if ok1 && ok2 then
        let d1 := candDist s1 p m.natAbs e
        let d2 := candDist (s1 + 1) p m.natAbs e
        some (if d1 < d2 then (s1, p)
              else if d2 < d1 then (s1 + 1, p)
              else if s1 % 2 = 0 then (s1, p) else (s1 + 1, p))
      else if ok1 then some (s1, p)
      else if ok2 then some (s1 + 1, p)
      else shortestAux m e d10 f (k + 1)

/-- Strip trailing zero digits, moving them into the scale. -/
def stripZeroAux : Nat → Nat → Int → Nat × Int
  | 0, s, p => (s, p)
  | f + 1, s, p => if s % 10 = 0 ∧ s ≠ 0 then stripZeroAux f (s / 10) (p + 1) else (s, p)

def stripZero (s : Nat) (p : Int) : Nat × Int := stripZeroAux s s p

/-- The digits and scale `Number::toString` prints for the nonzero finite
double `m / 10^e`: the shortest digit string whose value reads back (as a
double) to exactly `m / 10^e`, choosing the closer of the two nearest
candidates (ties to even), trailing zeros stripped.  The fuel covers every
length up to the value's exact decimal expansion, which always reads back
exactly, so for genuine doubles the fallback (that exact expansion) is
never reached. -/
def jsDigits (m : Int) (e : Nat) : Nat × Int :=
  let d10 := scaleExpMD 10 m.natAbs (10 ^ e)
  match shortestAux m e d10 (nsize 10 m.natAbs + e + 2) 1 with
  | some (s, p) => stripZero s p
  | none => stripZero m.natAbs (-(e : Int))

/-- `String()` (`Number::toString`, radix 10) of the finite double
`m / 10^e`: positional notation when the decimal position `n` lies in
`(-6, 21]`, exponential notation otherwise. -/
def jsNumChars (m : Int) (e : Nat) : List Char :=
  if m = 0 then ['0']
  else
    let sp := jsDigits m e
    let ds := natToDigits sp.1
    let k : Int := ds.length
    let n : Int := sp.2 + k
    (if m < 0 then ['-'] else []) ++
    (if k ≤ n ∧ n ≤ 21 then ds ++ List.replicate (n - k).toNat '0'
     else if 0 < n ∧ n ≤ 21 then ds.take n.toNat ++ '.' :: ds.drop n.toNat
     else if -5 ≤ n ∧ n ≤ 0 then '0' :: '.' :: (List.replicate (-n).toNat '0' ++ ds)
     else
       (ds.take 1 ++ (if ds.length ≤ 1 then [] else '.' :: ds.drop 1)) ++
         'e' :: (if n - 1 < 0 then '-' :: natToDigits (1 - n).toNat
                 else '+' :: natToDigits (n - 1).toNat))

/-- Positional test: does `String()` print this double without exponential
notation (so that the printed text is a lexable numeric literal)? -/
def posRender (m : Int) (e : Nat) : Bool :=
  if m = 0 then true
  else
    let sp := jsDigits m e
    let n : Int := sp.2 + (natToDigits sp.1).length
    decide (-5 ≤ n ∧ n ≤ 21)

/-! ## Size and exponent lemmas -/

theorem nsizeAux_congr {b : Nat} (hb : 2 ≤ b) :
    ∀ (f g n : Nat), n < f → n < g → nsizeAux b f n = nsizeAux b g n := by
  intro f
  induction f with
  | zero => intro g n h; omega
  | succ f ih =>
      intro g n hf hg
      cases g with
      | zero => omega
      | succ g =>
          show (if n = 0 then 0 else nsizeAux b f (n / b) + 1)
            = (if n = 0 then 0 else nsizeAux b g (n / b) + 1)
          by_cases hn : n = 0
          · simp [hn]
          · rw [if_neg hn, if_neg hn, ih g (n / b) (by
              have := Nat.div_lt_self (by omega : 0 < n) (by omega : 1 < b)
              omega) (by
              have := Nat.div_lt_self (by omega : 0 < n) (by omega : 1 < b)
              omega)]

theorem nsize_succ {b : Nat} (hb : 2 ≤ b) {n : Nat} (hn : 1 ≤ n) :
    nsize b n = nsize b (n / b) + 1 := by
  show nsizeAux b (n + 1) n = nsizeAux b (n / b + 1) (n / b) + 1
  rw [show nsizeAux b (n + 1) n = nsizeAux b n (n / b) + 1 by
    show (if n = 0 then 0 else nsizeAux b n (n / b) + 1) = _
    rw [if_neg (by omega)]]
  congr 1
  exact nsizeAux_congr hb n (n / b + 1) (n / b)
    (Nat.div_lt_self (by omega) (by omega)) (by omega)

theorem nsize_pos {b : Nat} {n : Nat} (hn : 1 ≤ n) : 1 ≤ nsize b n := by
  show 1 ≤ nsizeAux b (n + 1) n
  show 1 ≤ (if n = 0 then 0 else nsizeAux b n (n / b) + 1)
  rw [if_neg (by omega)]
  omega

theorem nsize_spec {b : Nat} (hb : 2 ≤ b) :
    ∀ {n : Nat}, 1 ≤ n → b ^ (nsize b n - 1) ≤ n ∧ n < b ^ nsize b n := by
  intro n
  induction n using Nat.strong_induction_on with
  | _ n ih =>
      intro hn
      by_cases hsmall : n < b
      · have h1 : n / b = 0 := Nat.div_eq_of_lt hsmall
        rw [nsize_succ hb hn, h1]
        show b ^ (nsize b 0 + 1 - 1) ≤ n ∧ n < b ^ (nsize b 0 + 1)
        rw [show nsize b 0 = 0 from rfl]
        constructor
        · simpa using hn
        · simpa using hsmall
      · have hq : 1 ≤ n / b := Nat.one_le_div_iff (by omega) |>.mpr (by omega)
        have hlt : n / b < n := Nat.div_lt_self (by omega) (by omega)
        obtain ⟨ih1, ih2⟩ := ih (n / b) hlt hq
        have hs1 : 1 ≤ nsize b (n / b) := nsize_pos hq
        rw [nsize_succ hb hn]
        constructor
        · have : b ^ (nsize b (n / b) + 1 - 1) = b * b ^ (nsize b (n / b) - 1) := by
            rw [show nsize b (n / b) + 1 - 1 = (nsize b (n / b) - 1) + 1 by omega]
            rw [pow_succ]
            ring
          rw [this]
          calc b * b ^ (nsize b (n / b) - 1) ≤ b * (n / b) :=
                Nat.mul_le_mul_left b ih1
            _ ≤ n := by
                rw [Nat.mul_comm]
                exact Nat.div_mul_le_self n b
        · have h2 : n < b * (n / b + 1) := by
            rw [Nat.mul_succ]
            calc n = b * (n / b) + n % b := (Nat.div_add_mod n b).symm
              _ < b * (n / b) + b := Nat.add_lt_add_left (Nat.mod_lt n (by omega)) _
          calc n < b * (n / b + 1) := h2
            _ ≤ b * b ^ nsize b (n / b) := Nat.mul_le_mul_left b (by omega)
            _ = b ^ (nsize b (n / b) + 1) := by rw [pow_succ]; ring

/-- Move a `lepow` fact to a common nonnegative shift `j`:
`b^k · D ≤ M` iff `b^(k+j) · D ≤ b^j · M`. -/
theorem lepow_iff_mul {b : Nat} (hb : 1 ≤ b) (k : Int) (D M : Nat) (j : Nat)
    (hj : 0 ≤ k + j) :
    lepow b k D M = true ↔ b ^ (k + j).toNat * D ≤ b ^ j * M := by
  unfold lepow
  by_cases hk : 0 ≤ k
  · rw [if_pos hk]
    simp only [decide_eq_true_eq]
    have hkj : (k + j).toNat = k.toNat + j := by omega
    rw [hkj, pow_add]
    constructor
    · intro h
      calc b ^ k.toNat * b ^ j * D = b ^ j * (b ^ k.toNat * D) := by ring
        _ ≤ b ^ j * M := Nat.mul_le_mul_left _ h
    · intro h
      have hbj : 0 < b ^ j := Nat.pos_pow_of_pos j (by omega)
      have : b ^ j * (b ^ k.toNat * D) ≤ b ^ j * M := by
        calc b ^ j * (b ^ k.toNat * D) = b ^ k.toNat * b ^ j * D := by ring
          _ ≤ b ^ j * M := h
      exact Nat.le_of_mul_le_mul_left this hbj
  · rw [if_neg hk]
    simp only [decide_eq_true_eq]
    have hj2 : b ^ j = b ^ (-k).toNat * b ^ (k + j).toNat := by
      rw [← pow_add]
      congr 1
      omega
    constructor
    · intro h
      calc b ^ (k + j).toNat * D ≤ b ^ (k + j).toNat * (b ^ (-k).toNat * M) :=
            Nat.mul_le_mul_left _ h
        _ = b ^ j * M := by rw [hj2]; ring
    · intro h
      have hbkj : 0 < b ^ (k + j).toNat := Nat.pos_pow_of_pos _ (by omega)
      have : b ^ (k + j).toNat * D ≤ b ^ (k + j).toNat * (b ^ (-k).toNat * M) := by
        calc b ^ (k + j).toNat * D ≤ b ^ j * M := h
          _ = b ^ (k + j).toNat * (b ^ (-k).toNat * M) := by rw [hj2]; ring
      exact Nat.le_of_mul_le_mul_left this hbkj

theorem lepow_mono {b : Nat} (hb : 1 ≤ b) {k k' : Int} (hkk : k' ≤ k) {D M : Nat}
    (h : lepow b k D M = true) : lepow b k' D M = true := by
  have hj : ∃ j : Nat, 0 ≤ k' + j := ⟨(-k').toNat, by omega⟩
  obtain ⟨j, hj⟩ := hj
  rw [lepow_iff_mul hb k D M j (by omega)] at h
  rw [lepow_iff_mul hb k' D M j hj]
  calc b ^ (k' + j).toNat * D ≤ b ^ (k + j).toNat * D := by
        apply Nat.mul_le_mul_right
        exact Nat.pow_le_pow_right (by omega) (by omega)
    _ ≤ b ^ j * M := h

theorem scaleExpMD_spec {b : Nat} (hb : 2 ≤ b) {M D : Nat} (hM : 1 ≤ M) (hD : 1 ≤ D) :
    lepow b (scaleExpMD b M D) D M = true ∧
    lepow b (scaleExpMD b M D + 1) D M = false := by
  obtain ⟨hM1, hM2⟩ := nsize_spec hb hM
  obtain ⟨hD1, hD2⟩ := nsize_spec hb hD
  have hMs := nsize_pos (b := b) hM
  have hDs := nsize_pos (b := b) hD
  set bM := nsize b M
  set bD := nsize b D
  set e0 : Int := (bM : Int) - (bD : Int) - 1 with he0
  -- base fact 1: lepow b e0 D M
  have base1 : lepow b e0 D M = true := by
    rw [lepow_iff_mul (by omega) e0 D M bD (by omega)]
    have h1 : (e0 + bD).toNat = bM - 1 := by omega
    rw [h1]
    calc b ^ (bM - 1) * D ≤ b ^ (bM - 1) * b ^ bD := Nat.mul_le_mul_left _ (by omega)
      _ = b ^ (bM - 1 + bD) := by rw [pow_add]
      _ = b ^ (bD + (bM - 1)) := by ring_nf
      _ ≤ b ^ bD * M := by rw [pow_add]; exact Nat.mul_le_mul_left _ hM1
  -- base fact 2: ¬ lepow b (e0+2) D M
  have base2 : lepow b (e0 + 2) D M = false := by
    by_contra hc
    have hc2 : lepow b (e0 + 2) D M = true := by
      cases h : lepow b (e0 + 2) D M
      · exact absurd h hc
      · rfl
    rw [lepow_iff_mul (by omega) _ D M bD (by omega)] at hc2
    have h1 : (e0 + 2 + bD).toNat = bM + 1 := by omega
    rw [h1] at hc2
    have hDlow : b ^ (bD - 1) ≤ D := hD1
    have : b ^ (bM + 1) * b ^ (bD - 1) ≤ b ^ bD * M := by
      calc b ^ (bM + 1) * b ^ (bD - 1) ≤ b ^ (bM + 1) * D := Nat.mul_le_mul_left _ hDlow
        _ ≤ b ^ bD * M := hc2
    rw [← pow_add] at this
    have h2 : bM + 1 + (bD - 1) = bD + bM := by omega
    rw [h2, pow_add] at this
    have h3 : M < b ^ bM := hM2
    have hbpos : 0 < b ^ bD := Nat.pos_pow_of_pos _ (by omega)
    have := Nat.le_of_mul_le_mul_left this hbpos
    omega
  unfold scaleExpMD
  simp only []
  by_cases hcase : lepow b (e0 + 1) D M = true
  · rw [← he0, if_pos hcase]
    refine ⟨hcase, ?_⟩
    rw [show e0 + 1 + 1 = e0 + 2 by ring]
    exact base2
  · rw [← he0, if_neg hcase]
    refine ⟨base1, ?_⟩
    cases h : lepow b (e0 + 1) D M
    · rfl
    · exact absurd h hcase

theorem scaleExpMD_eq {b : Nat} (hb : 2 ≤ b) {M D : Nat} (hM : 1 ≤ M) (hD : 1 ≤ D)
    {e : Int} (h1 : lepow b e D M = true) (h2 : lepow b (e + 1) D M = false) :
    scaleExpMD b M D = e := by
  obtain ⟨s1, s2⟩ := scaleExpMD_spec hb hM hD
  set se := scaleExpMD b M D
  by_contra hne
  rcases lt_or_gt_of_ne hne with hlt | hgt
  · -- se < e: then se + 1 ≤ e, lepow (se+1) from lepow e
    have := lepow_mono (by omega) (show se + 1 ≤ e by omega) h1
    rw [this] at s2
    cases s2
  · -- se > e: e + 1 ≤ se
    have := lepow_mono (by omega) (show e + 1 ≤ se by omega) s1
    rw [this] at h2
    cases h2

/-! ## rdiv lemmas -/

theorem rdiv_exact {A B : Nat} (hB : 0 < B) (h : B ∣ A) : rdiv A B = A / B := by
  unfold rdiv
  have hr : A % B = 0 := by
    obtain ⟨c, rfl⟩ := h
    exact Nat.mul_mod_right B c
  rw [hr]
  rw [if_pos (by omega)]

theorem rdiv_le (A B : Nat) : 2 * rdiv A B * B ≤ 2 * A + B := by
  unfold rdiv
  have hdm := Nat.div_add_mod A B
  set q := A / B
  set r := A % B
  by_cases h1 : 2 * r < B
  · rw [if_pos h1]
    nlinarith [Nat.zero_le r]
  · rw [if_neg h1]
    by_cases h2 : B < 2 * r
    · rw [if_pos h2]
      nlinarith
    · rw [if_neg h2]
      by_cases h3 : q % 2 = 0
      · rw [if_pos h3]
        nlinarith
      · rw [if_neg h3]
        nlinarith

theorem rdiv_ge (A B : Nat) (hB : 0 < B) : 2 * A ≤ 2 * rdiv A B * B + B := by
  unfold rdiv
  have hdm := Nat.div_add_mod A B
  have hrlt : A % B < B := Nat.mod_lt A hB
  set q := A / B
  set r := A % B
  by_cases h1 : 2 * r < B
  · rw [if_pos h1]
    nlinarith
  · rw [if_neg h1]
    by_cases h2 : B < 2 * r
    · rw [if_pos h2]
      nlinarith
    · rw [if_neg h2]
      by_cases h3 : q % 2 = 0
      · rw [if_pos h3]
        nlinarith
      · rw [if_neg h3]
        nlinarith

theorem rdiv_mul_left {c : Nat} (hc : 0 < c) (A B : Nat) :
    rdiv (c * A) (c * B) = rdiv A B := by
  unfold rdiv
  rw [Nat.mul_div_mul_left A B hc, Nat.mul_mod_mul_left]
  have h1 : (2 * (c * (A % B)) < c * B) ↔ (2 * (A % B) < B) := by
    constructor
    · intro h
      have : c * (2 * (A % B)) < c * B := by
        calc c * (2 * (A % B)) = 2 * (c * (A % B)) := by ring
          _ < c * B := h
      exact Nat.lt_of_mul_lt_mul_left this
    · intro h
      calc 2 * (c * (A % B)) = c * (2 * (A % B)) := by ring
        _ < c * B := mul_lt_mul_of_pos_left h hc
  have h2 : (c * B < 2 * (c * (A % B))) ↔ (B < 2 * (A % B)) := by
    constructor
    · intro h
      have : c * B < c * (2 * (A % B)) := by
        calc c * B < 2 * (c * (A % B)) := h
          _ = c * (2 * (A % B)) := by ring
      exact Nat.lt_of_mul_lt_mul_left this
    · intro h
      calc c * B < c * (2 * (A % B)) := mul_lt_mul_of_pos_left h hc
        _ = 2 * (c * (A % B)) := by ring
  by_cases hx : 2 * (A % B) < B
  · rw [if_pos (h1.mpr hx), if_pos hx]
  · rw [if_neg (fun hcc => hx (h1.mp hcc)), if_neg hx]
    by_cases hy : B < 2 * (A % B)
    · rw [if_pos (h2.mpr hy), if_pos hy]
    · rw [if_neg (fun hcc => hy (h2.mp hcc)), if_neg hy]

theorem rdiv_one (A : Nat) : rdiv A 1 = A := by
  unfold rdiv
  rw [Nat.mod_one, Nat.div_one]
  rw [if_pos (by omega)]

theorem rdiv_le_of {A B c : Nat} (hB : 0 < B) (h : A < c * B) : rdiv A B ≤ c := by
  have h1 := rdiv_le A B
  have h2 : 2 * rdiv A B * B < (2 * c + 1) * B := by nlinarith
  have h3 : 2 * rdiv A B < 2 * c + 1 := Nat.lt_of_mul_lt_mul_right h2
  omega

theorem rdiv_ge_of {A B c : Nat} (hB : 0 < B) (h : c * B ≤ A) : c ≤ rdiv A B := by
  have h1 := rdiv_ge A B hB
  have h2 : 2 * c * B ≤ (2 * rdiv A B + 1) * B := by nlinarith
  have h3 : 2 * c ≤ 2 * rdiv A B + 1 := Nat.le_of_mul_le_mul_right h2 hB
  omega

theorem lepow_mul_left {b : Nat} (hb : 1 ≤ b) {c : Nat} (hc : 0 < c) (k : Int) (D M : Nat) :
    lepow b k (c * D) (c * M) = lepow b k D M := by
  unfold lepow
  by_cases hk : 0 ≤ k
  · rw [if_pos hk, if_pos hk]
    congr 1
    apply propext
    constructor
    · intro h
      have : c * (b ^ k.toNat * D) ≤ c * M := by
        calc c * (b ^ k.toNat * D) = b ^ k.toNat * (c * D) := by ring
          _ ≤ c * M := h
      exact Nat.le_of_mul_le_mul_left this hc
    · intro h
      calc b ^ k.toNat * (c * D) = c * (b ^ k.toNat * D) := by ring
        _ ≤ c * M := Nat.mul_le_mul_left c h
  · rw [if_neg hk, if_neg hk]
    congr 1
    apply propext
    constructor
    · intro h
      have : c * D ≤ c * (b ^ (-k).toNat * M) := by
        calc c * D ≤ b ^ (-k).toNat * (c * M) := h
          _ = c * (b ^ (-k).toNat * M) := by ring
      exact Nat.le_of_mul_le_mul_left this hc
    · intro h
      calc c * D ≤ c * (b ^ (-k).toNat * M) := Nat.mul_le_mul_left c h
        _ = b ^ (-k).toNat * (c * M) := by ring

theorem scaleExpMD_mul_left {b : Nat} (hb : 2 ≤ b) {c : Nat} (hc : 0 < c)
    {M D : Nat} (hM : 1 ≤ M) (hD : 1 ≤ D) :
    scaleExpMD b (c * M) (c * D) = scaleExpMD b M D := by
  obtain ⟨s1, s2⟩ := scaleExpMD_spec hb hM hD
  apply scaleExpMD_eq hb (by nlinarith) (by nlinarith)
  · rw [lepow_mul_left (by omega) hc]
    exact s1
  · rw [lepow_mul_left (by omega) hc]
    exact s2

/-! ## normPair structure lemmas -/

theorem normPairAux_zero : ∀ e, normPairAux 0 e = (0, 0)
  | 0 => rfl
  | e + 1 => by
      unfold normPairAux
      rw [if_pos (by decide)]
      rw [show (0 : Int) / 10 = 0 by decide]
      exact normPairAux_zero e

theorem normPairAux_div : ∀ (e : Nat) (m : Int), ∃ j, j ≤ e ∧
    (normPairAux m e).1 * 10 ^ j = m ∧ (normPairAux m e).2 + j = e
  | 0, m => ⟨0, Nat.le_refl 0, by simp [normPairAux], by simp [normPairAux]⟩
  | e + 1, m => by
      unfold normPairAux
      by_cases h : m % 10 = 0
      · rw [if_pos h]
        obtain ⟨j, hj, hval, he⟩ := normPairAux_div e (m / 10)
        refine ⟨j + 1, by omega, ?_, by omega⟩
        rw [pow_succ, ← mul_assoc, hval]
        exact Int.ediv_mul_cancel (Int.dvd_of_emod_eq_zero h)
      · rw [if_neg h]
        exact ⟨0, by omega, by simp, by simp⟩

theorem normPairAux_norm : ∀ (e : Nat) (m : Int),
    (normPairAux m e).2 = 0 ∨ ¬ (normPairAux m e).1 % 10 = 0
  | 0, m => .inl rfl
  | e + 1, m => by
      unfold normPairAux
      by_cases h : m % 10 = 0
      · rw [if_pos h]
        exact normPairAux_norm e (m / 10)
      · rw [if_neg h]
        exact .inr h

theorem norm_unique_le {m1 m2 : Int} {e1 e2 : Nat} (hle : e1 ≤ e2)
    (h2 : e2 = 0 ∨ ¬ m2 % 10 = 0)
    (hv : m1 * 10 ^ e2 = m2 * 10 ^ e1) : m1 = m2 ∧ e1 = e2 := by
  have hsplit : (10 : Int) ^ e2 = 10 ^ (e2 - e1) * 10 ^ e1 := by
    rw [← pow_add]
    congr 1
    omega
  rw [hsplit, ← mul_assoc] at hv
  have hm2 : m1 * 10 ^ (e2 - e1) = m2 :=
    mul_right_cancel₀ (pow_ne_zero e1 (by norm_num : (10 : Int) ≠ 0)) hv
  by_cases heq : e1 = e2
  · subst heq
    simp only [Nat.sub_self, pow_zero, mul_one] at hm2
    exact ⟨hm2, rfl⟩
  · have hgt : e1 < e2 := by omega
    obtain ⟨d, hd⟩ : ∃ d, e2 - e1 = d + 1 := ⟨e2 - e1 - 1, by omega⟩
    rw [hd] at hm2
    have hdvd : (10 : Int) ∣ m2 := by
      refine ⟨m1 * 10 ^ d, ?_⟩
      rw [← hm2, pow_succ]
      ring
    have hmod : m2 % 10 = 0 := Int.emod_eq_zero_of_dvd hdvd
    rcases h2 with h0 | hne
    · omega
    · exact absurd hmod hne

theorem norm_unique {m1 m2 : Int} {e1 e2 : Nat}
    (h1 : e1 = 0 ∨ ¬ m1 % 10 = 0) (h2 : e2 = 0 ∨ ¬ m2 % 10 = 0)
    (hv : m1 * 10 ^ e2 = m2 * 10 ^ e1) : m1 = m2 ∧ e1 = e2 := by
  rcases Nat.le_total e1 e2 with hle | hle
  · exact norm_unique_le hle h2 hv
  · obtain ⟨ha, hb⟩ := norm_unique_le hle h1 hv.symm
    exact ⟨ha.symm, hb.symm⟩

/-! ## dyadicPair structure lemmas -/

theorem dyadicPair_of_nonneg {t : Int} (ht : 0 ≤ t) (M : Int) :
    dyadicPair M t = (M * 2 ^ t.toNat, 0) := by
  unfold dyadicPair
  rw [if_pos ht]

theorem dyadicPair_norm (M t : Int) :
    (dyadicPair M t).2 = 0 ∨ ¬ (dyadicPair M t).1 % 10 = 0 := by
  unfold dyadicPair
  by_cases ht : 0 ≤ t
  · rw [if_pos ht]
    exact .inl rfl
  · rw [if_neg ht]
    exact normPairAux_norm _ _

theorem dyadicPair_neg_rel {t : Int} (ht : t < 0) (M : Int) :
    (dyadicPair M t).1 * 2 ^ (-t).toNat = M * 10 ^ (dyadicPair M t).2 ∧
    (dyadicPair M t).2 ≤ (-t).toNat := by
  unfold dyadicPair
  rw [if_neg (by omega)]
  obtain ⟨j, hj, hval, he⟩ := normPairAux_div (-t).toNat (M * 5 ^ (-t).toNat)
  set k := (-t).toNat with hk
  set mo := (normPairAux (M * 5 ^ k) k).1 with hmo
  set eo := (normPairAux (M * 5 ^ k) k).2 with heo
  show mo * 2 ^ k = M * 10 ^ eo ∧ eo ≤ k
  refine ⟨?_, by omega⟩
  have h1 : mo * 2 ^ k * 10 ^ j = M * 10 ^ eo * 10 ^ j := by
    calc mo * 2 ^ k * 10 ^ j = mo * 10 ^ j * 2 ^ k := by ring
      _ = M * 5 ^ k * 2 ^ k := by rw [hval]
      _ = M * 10 ^ k := by
          rw [show (10 : Int) ^ k = 5 ^ k * 2 ^ k by rw [← mul_pow]; norm_num]
          ring
      _ = M * 10 ^ (eo + j) := by rw [he]
      _ = M * 10 ^ eo * 10 ^ j := by rw [pow_add]; ring
  exact mul_right_cancel₀ (pow_ne_zero j (by norm_num : (10 : Int) ≠ 0)) h1

/-! ## Rounding is the identity on representable values -/

theorem pow_le_pow_iff_exp {x y : Nat} (h : (2:Nat) ^ x ≤ 2 ^ y) : x ≤ y := by
  by_contra hc
  have : (2:Nat) ^ y < 2 ^ x := Nat.pow_lt_pow_right (by omega) (by omega)
  omega

/-- The binary exponent of the value `A' / 10^e = mm · 2^t`. -/
theorem scaleExp2_of_dyadic {A' : Nat} {e : Nat} {mm : Nat} {t : Int} {b : Nat}
    (hb : b = nsize 2 mm) (h1 : 1 ≤ mm) (ht : -1074 ≤ t)
    (hrel : (0 ≤ t ∧ A' = mm * 2 ^ t.toNat ∧ e = 0) ∨
            (t < 0 ∧ A' * 2 ^ (-t).toNat = mm * 10 ^ e)) :
    scaleExpMD 2 A' (10 ^ e) = t + b - 1 := by
  obtain ⟨hs1, hs2⟩ := nsize_spec (le_refl 2) h1
  rw [← hb] at hs1 hs2
  have hbpos : 1 ≤ b := by rw [hb]; exact nsize_pos h1
  have hA1 : 1 ≤ A' := by
    rcases hrel with ⟨ht0, hA, he0⟩ | ⟨ht0, hA⟩
    · rw [hA]
      have : 0 < 2 ^ t.toNat := Nat.pos_pow_of_pos _ (by omega)
      nlinarith
    · by_contra hc
      have hA0 : A' = 0 := by omega
      rw [hA0] at hA
      simp at hA
      have : 0 < (10:Nat) ^ e := Nat.pos_pow_of_pos _ (by omega)
      omega
  apply scaleExpMD_eq (le_refl 2) hA1 (Nat.pos_pow_of_pos _ (by omega))
  · -- lepow 2 (t + b - 1) (10^e) A' = true
    rw [lepow_iff_mul (by omega) _ _ _ 1200 (by omega)]
    rcases hrel with ⟨ht0, hA, he0⟩ | ⟨ht0, hA⟩
    · subst he0
      rw [pow_zero, mul_one, hA]
      calc 2 ^ (t + ↑b - 1 + ((1200:Nat):Int)).toNat
          = 2 ^ (b - 1) * 2 ^ (t.toNat + 1200) := by
            rw [← pow_add]
            congr 1
            omega
        _ ≤ mm * 2 ^ (t.toNat + 1200) := Nat.mul_le_mul_right _ hs1
        _ = 2 ^ 1200 * (mm * 2 ^ t.toNat) := by rw [pow_add]; ring
    · set k := (-t).toNat with hk
      have hmul : (2 ^ (t + ↑b - 1 + ((1200:Nat):Int)).toNat * 10 ^ e) * 2 ^ k
          ≤ (2 ^ 1200 * A') * 2 ^ k := by
        calc (2 ^ (t + ↑b - 1 + ((1200:Nat):Int)).toNat * 10 ^ e) * 2 ^ k
            = 2 ^ ((t + ↑b - 1 + ((1200:Nat):Int)).toNat + k) * 10 ^ e := by
              rw [pow_add]; ring
          _ = 2 ^ (b - 1) * (2 ^ 1200 * 10 ^ e) := by
              rw [show (t + ↑b - 1 + ((1200:Nat):Int)).toNat + k = (b - 1) + 1200 by omega]
              rw [pow_add]; ring
          _ ≤ mm * (2 ^ 1200 * 10 ^ e) := Nat.mul_le_mul_right _ hs1
          _ = 2 ^ 1200 * (mm * 10 ^ e) := by ring
          _ = 2 ^ 1200 * (A' * 2 ^ k) := by rw [hA]
          _ = (2 ^ 1200 * A') * 2 ^ k := by ring
      exact Nat.le_of_mul_le_mul_right hmul (Nat.pos_pow_of_pos _ (by omega))
  · -- lepow 2 (t + b) (10^e) A' = false
    have hgoal : ¬ (lepow 2 (t + ↑b - 1 + 1) (10 ^ e) A' = true) := by
      rw [lepow_iff_mul (by omega) _ _ _ 1200 (by omega)]
      intro hcon
      rcases hrel with ⟨ht0, hA, he0⟩ | ⟨ht0, hA⟩
      · subst he0
        rw [pow_zero, mul_one, hA] at hcon
        rw [show (2:Nat) ^ (t + ↑b - 1 + 1 + ((1200:Nat):Int)).toNat
            = 2 ^ b * 2 ^ (t.toNat + 1200) by rw [← pow_add]; congr 1; omega] at hcon
        rw [show (2:Nat) ^ 1200 * (mm * 2 ^ t.toNat) = mm * 2 ^ (t.toNat + 1200) by
          rw [pow_add]; ring] at hcon
        have := Nat.le_of_mul_le_mul_right hcon
          (Nat.pos_pow_of_pos (t.toNat + 1200) (by omega))
        omega
      · set k := (-t).toNat with hk
        have hx : (2 ^ (t + ↑b - 1 + 1 + ((1200:Nat):Int)).toNat * 10 ^ e) * 2 ^ k
            ≤ (2 ^ 1200 * A') * 2 ^ k := Nat.mul_le_mul_right _ hcon
        have h1x : (2 ^ (t + ↑b - 1 + 1 + ((1200:Nat):Int)).toNat * 10 ^ e) * 2 ^ k
            = (2 ^ 1200 * 10 ^ e) * 2 ^ b := by
          calc (2 ^ (t + ↑b - 1 + 1 + ((1200:Nat):Int)).toNat * 10 ^ e) * 2 ^ k
              = 2 ^ ((t + ↑b - 1 + 1 + ((1200:Nat):Int)).toNat + k) * 10 ^ e := by
                rw [pow_add]; ring
            _ = (2 ^ 1200 * 10 ^ e) * 2 ^ b := by
                rw [show (t + ↑b - 1 + 1 + ((1200:Nat):Int)).toNat + k = b + 1200 by omega]
                rw [pow_add]; ring
        have h2x : (2 ^ 1200 * A') * 2 ^ k = (2 ^ 1200 * 10 ^ e) * mm := by
          calc (2 ^ 1200 * A') * 2 ^ k = 2 ^ 1200 * (A' * 2 ^ k) := by ring
            _ = 2 ^ 1200 * (mm * 10 ^ e) := by rw [hA]
            _ = (2 ^ 1200 * 10 ^ e) * mm := by ring
        rw [h1x, h2x] at hx
        have := Nat.le_of_mul_le_mul_left
          (by calc (2 ^ 1200 * 10 ^ e) * 2 ^ b ≤ (2 ^ 1200 * 10 ^ e) * mm := hx
                _ = (2 ^ 1200 * 10 ^ e) * mm := rfl)
          (show 0 < 2 ^ 1200 * 10 ^ e by positivity)
        omega
    cases hc : lepow 2 (t + ↑b - 1 + 1) (10 ^ e) A'
    · rfl
    · exact absurd hc hgoal

theorem pow_lt_exp {x y : Nat} (h : (2:Nat) ^ x < 2 ^ y) : x < y := by
  by_contra hc
  have : (2:Nat) ^ y ≤ 2 ^ x := Nat.pow_le_pow_right (by omega) (by omega)
  omega

theorem roundDbl_of_ne (M : Int) (E : Nat) (hM : M ≠ 0) :
    roundDbl M E =
      (if 0 ≤ roundT M.natAbs (10 ^ E) ∧
          2 ^ 1024 ≤ roundM M.natAbs (10 ^ E) * 2 ^ (roundT M.natAbs (10 ^ E)).toNat then
        .inf (decide (M < 0))
      else
        .fin (dyadicPair (if M < 0 then -(roundM M.natAbs (10 ^ E) : Int)
                          else (roundM M.natAbs (10 ^ E) : Int)) (roundT M.natAbs (10 ^ E))).1
             (dyadicPair (if M < 0 then -(roundM M.natAbs (10 ^ E) : Int)
                          else (roundM M.natAbs (10 ^ E) : Int)) (roundT M.natAbs (10 ^ E))).2) := by
  unfold roundDbl
  rw [if_neg hM]

theorem roundDbl_rep (S : Int) (mm : Nat) (t : Int) (hS : S.natAbs = mm)
    (h1 : 1 ≤ mm) (h2 : mm ≤ 2 ^ 53) (h3 : -1074 ≤ t)
    (h4 : mm < 2 ^ 52 → t = -1074)
    (h5 : ¬ (0 ≤ t ∧ 2 ^ 1024 ≤ mm * 2 ^ t.toNat)) :
    roundDbl (dyadicPair S t).1 (dyadicPair S t).2
      = .fin (dyadicPair S t).1 (dyadicPair S t).2 := by
  have hSne : S ≠ 0 := by
    intro h
    rw [h] at hS
    simp at hS
    omega
  set m := (dyadicPair S t).1 with hm
  set e := (dyadicPair S t).2 with he
  have hrel0 : (0 ≤ t ∧ m = S * 2 ^ t.toNat ∧ e = 0) ∨
      (t < 0 ∧ m * 2 ^ (-t).toNat = S * 10 ^ e ∧ e ≤ (-t).toNat) := by
    by_cases ht : 0 ≤ t
    · left
      refine ⟨ht, ?_, ?_⟩
      · rw [hm, dyadicPair_of_nonneg ht]
      · rw [he, dyadicPair_of_nonneg ht]
    · right
      obtain ⟨ha, hb⟩ := @dyadicPair_neg_rel t (by omega) S
      exact ⟨by omega, ha, hb⟩
  have hmne : m ≠ 0 := by
    rcases hrel0 with ⟨ht0, hv, he0⟩ | ⟨ht0, hv, hle⟩
    · rw [hv]
      intro hc
      rcases mul_eq_zero.mp hc with h | h
      · exact hSne h
      · exact absurd h (by positivity)
    · intro hc
      rw [hc, zero_mul] at hv
      rcases (mul_eq_zero.mp hv.symm) with h | h
      · exact hSne h
      · exact absurd h (by positivity)
  have hsign : (m < 0 ↔ S < 0) := by
    rcases hrel0 with ⟨ht0, hv, he0⟩ | ⟨ht0, hv, hle⟩
    · rw [hv]
      have hp := pow_pos (show (0:Int) < 2 by norm_num) t.toNat
      constructor
      · intro hc
        by_contra hS0
        push_neg at hS0
        nlinarith
      · intro hc
        nlinarith
    · have h10 := pow_pos (show (0:Int) < 10 by norm_num) e
      have h2k := pow_pos (show (0:Int) < 2 by norm_num) (-t).toNat
      constructor
      · intro hc
        by_contra hS0
        push_neg at hS0
        nlinarith
      · intro hc
        by_contra hm0
        push_neg at hm0
        nlinarith
  have castAbs2 : ∀ j : Nat, ((2:Int) ^ j).natAbs = 2 ^ j := by
    intro j
    rw [show ((2:Int) ^ j) = ((2 ^ j : Nat) : Int) by push_cast; ring]
    exact Int.natAbs_ofNat _
  have castAbs10 : ∀ j : Nat, ((10:Int) ^ j).natAbs = 10 ^ j := by
    intro j
    rw [show ((10:Int) ^ j) = ((10 ^ j : Nat) : Int) by push_cast; ring]
    exact Int.natAbs_ofNat _
  have hA : (0 ≤ t → m.natAbs = mm * 2 ^ t.toNat) ∧
            (t < 0 → m.natAbs * 2 ^ (-t).toNat = mm * 10 ^ e) := by
    constructor
    · intro ht0
      rcases hrel0 with ⟨_, hv, _⟩ | ⟨htneg, _, _⟩
      · rw [hv, Int.natAbs_mul, hS, castAbs2]
      · omega
    · intro htneg
      rcases hrel0 with ⟨ht0, _, _⟩ | ⟨_, hv, _⟩
      · omega
      · have hcong := congrArg Int.natAbs hv
        rw [Int.natAbs_mul, Int.natAbs_mul, hS, castAbs2, castAbs10] at hcong
        exact hcong
  set b := nsize 2 mm with hbdef
  have heb : scaleExpMD 2 m.natAbs (10 ^ e) = t + b - 1 := by
    apply scaleExp2_of_dyadic hbdef h1 h3
    rcases hrel0 with ⟨ht0, hv, he0⟩ | ⟨ht0, hv, _⟩
    · exact .inl ⟨ht0, hA.1 ht0, he0⟩
    · exact .inr ⟨ht0, hA.2 ht0⟩
  obtain ⟨hbs1, hbs2⟩ := nsize_spec (le_refl 2) h1
  rw [← hbdef] at hbs1 hbs2
  have hbpos : 1 ≤ b := by rw [hbdef]; exact nsize_pos h1
  have hb54 : mm = 2 ^ 53 → b = 54 := by
    intro hc
    have hu : b - 1 ≤ 53 := pow_le_pow_iff_exp (by omega)
    have hl : 53 < b := pow_lt_exp (by omega)
    omega
  have hb53 : 2 ^ 52 ≤ mm → mm ≠ 2 ^ 53 → b = 53 := by
    intro hge hne
    have hmlt : mm < 2 ^ 53 := by omega
    have hu : b - 1 < 53 := pow_lt_exp (by omega)
    have hl : 52 < b := pow_lt_exp (by omega)
    omega
  have hb52 : mm < 2 ^ 52 → b ≤ 52 := by
    intro hlt
    have hu : b - 1 < 52 := pow_lt_exp (by omega)
    omega
  -- the granularity of the second round
  have hT : roundT m.natAbs (10 ^ e) = (if mm = 2 ^ 53 then t + 1 else t) := by
    unfold roundT
    rw [heb]
    by_cases hcB : mm = 2 ^ 53
    · rw [if_pos hcB]
      have hb' : b = 54 := hb54 hcB
      rw [if_neg (by omega)]
      omega
    · rw [if_neg hcB]
      by_cases hcS : mm < 2 ^ 52
      · have ht74 : t = -1074 := h4 hcS
        have hble : b ≤ 52 := hb52 hcS
        rw [if_pos (by omega)]
        omega
      · have hb' : b = 53 := hb53 (by omega) hcB
        rw [if_neg (by omega)]
        omega
  -- the significand of the second round
  have hM' : roundM m.natAbs (10 ^ e) = (if mm = 2 ^ 53 then 2 ^ 52 else mm) := by
    unfold roundM
    rw [hT]
    by_cases hcB : mm = 2 ^ 53
    · rw [if_pos hcB, if_pos hcB]
      rcases hrel0 with ⟨ht0, hv, he0⟩ | ⟨htneg, hv, hle⟩
      · -- t ≥ 0, e = 0, A' = 2^53 * 2^t
        rw [if_pos (by omega : (0:Int) ≤ t + 1), he0]
        have hAv : m.natAbs = 2 ^ 53 * 2 ^ t.toNat := by rw [hA.1 ht0, hcB]
        rw [hAv, pow_zero]
        rw [show ((t:Int) + 1).toNat = t.toNat + 1 by omega]
        rw [show (2:Nat) ^ 53 * 2 ^ t.toNat = 2 ^ (t.toNat + 1) * 2 ^ 52 by
          rw [← pow_add, ← pow_add]; congr 1; omega]
        rw [one_mul]
        rw [show (2:Nat) ^ (t.toNat + 1) * 2 ^ 52 = 2 ^ (t.toNat + 1) * 2 ^ 52 from rfl]
        rw [show rdiv (2 ^ (t.toNat + 1) * 2 ^ 52) (2 ^ (t.toNat + 1))
            = rdiv (2 ^ (t.toNat + 1) * 2 ^ 52) (2 ^ (t.toNat + 1) * 1) by rw [mul_one]]
        rw [rdiv_mul_left (Nat.pos_pow_of_pos _ (by omega)), rdiv_one]
      · -- t < 0
        have hAk : m.natAbs * 2 ^ (-t).toNat = 2 ^ 53 * 10 ^ e := by
          rw [hA.2 htneg, hcB]
        by_cases ht1 : 0 ≤ t + 1
        · -- t = -1
          have htm1 : t = -1 := by omega
          rw [if_pos ht1]
          rw [show ((t:Int) + 1).toNat = 0 by omega, pow_zero, mul_one]
          have hk1 : (-t).toNat = 1 := by omega
          rw [hk1, pow_one] at hAk
          have hAv : m.natAbs = 2 ^ 52 * 10 ^ e := by omega
          rw [hAv]
          rw [show (2:Nat) ^ 52 * 10 ^ e = 10 ^ e * 2 ^ 52 by ring]
          rw [show rdiv (10 ^ e * 2 ^ 52) (10 ^ e)
              = rdiv (10 ^ e * 2 ^ 52) (10 ^ e * 1) by rw [mul_one]]
          rw [rdiv_mul_left (Nat.pos_pow_of_pos _ (by omega)), rdiv_one]
        · -- t ≤ -2
          rw [if_neg ht1]
          have hk2 : 2 ≤ (-t).toNat := by omega
          have hksplit : (-t).toNat = (-(t + 1)).toNat + 1 := by omega
          have hAk2 : m.natAbs * 2 ^ (-(t + 1)).toNat * 2 = 2 ^ 52 * 10 ^ e * 2 := by
            calc m.natAbs * 2 ^ (-(t + 1)).toNat * 2
                = m.natAbs * 2 ^ ((-(t + 1)).toNat + 1) := by rw [pow_succ]; ring
              _ = m.natAbs * 2 ^ (-t).toNat := by rw [← hksplit]
              _ = 2 ^ 53 * 10 ^ e := hAk
              _ = 2 ^ 52 * 10 ^ e * 2 := by ring
          have hAv : m.natAbs * 2 ^ (-(t + 1)).toNat = 2 ^ 52 * 10 ^ e :=
            Nat.eq_of_mul_eq_mul_right (by omega) hAk2
          rw [hAv]
          rw [show (2:Nat) ^ 52 * 10 ^ e = 10 ^ e * 2 ^ 52 by ring]
          rw [show rdiv (10 ^ e * 2 ^ 52) (10 ^ e)
              = rdiv (10 ^ e * 2 ^ 52) (10 ^ e * 1) by rw [mul_one]]
          rw [rdiv_mul_left (Nat.pos_pow_of_pos _ (by omega)), rdiv_one]
    · rw [if_neg hcB, if_neg hcB]
      rcases hrel0 with ⟨ht0, hv, he0⟩ | ⟨htneg, hv, hle⟩
      · rw [if_pos ht0, he0, pow_zero, one_mul]
        rw [hA.1 ht0]
        rw [show (mm:Nat) * 2 ^ t.toNat = 2 ^ t.toNat * mm by ring]
        rw [show rdiv (2 ^ t.toNat * mm) (2 ^ t.toNat)
            = rdiv (2 ^ t.toNat * mm) (2 ^ t.toNat * 1) by rw [mul_one]]
        rw [rdiv_mul_left (Nat.pos_pow_of_pos _ (by omega)), rdiv_one]
      · rw [if_neg (by omega)]
        rw [hA.2 htneg]
        rw [show (mm:Nat) * 10 ^ e = 10 ^ e * mm by ring]
        rw [show rdiv (10 ^ e * mm) (10 ^ e)
            = rdiv (10 ^ e * mm) (10 ^ e * 1) by rw [mul_one]]
        rw [rdiv_mul_left (Nat.pos_pow_of_pos _ (by omega)), rdiv_one]
  -- assemble
  rw [roundDbl_of_ne m e hmne]
  rw [hT, hM']
  have hOVF : ¬ (0 ≤ (if mm = 2 ^ 53 then t + 1 else t) ∧
      2 ^ 1024 ≤ (if mm = 2 ^ 53 then 2 ^ 52 else mm) *
        2 ^ (if mm = 2 ^ 53 then t + 1 else t).toNat) := by
    by_cases hcB : mm = 2 ^ 53
    · simp only [if_pos hcB]
      rintro ⟨hta, htb⟩
      by_cases ht0 : 0 ≤ t
      · apply h5
        refine ⟨ht0, ?_⟩
        calc (2:Nat) ^ 1024 ≤ 2 ^ 52 * 2 ^ (t + 1).toNat := htb
          _ = 2 ^ 53 * 2 ^ t.toNat := by
              rw [← pow_add, ← pow_add]
              congr 1
              omega
          _ = mm * 2 ^ t.toNat := by rw [hcB]
      · have htm1 : t = -1 := by omega
        rw [show ((t:Int) + 1).toNat = 0 by omega, pow_zero, mul_one] at htb
        omega
    · simp only [if_neg hcB]
      exact h5
  rw [if_neg hOVF]
  -- the sign of the output
  by_cases hcB : mm = 2 ^ 53
  · -- boundary: value re-expressed at granularity t+1
    simp only [if_pos hcB]
    have hS2 : (if m < 0 then -((2 ^ 52 : Nat) : Int) else ((2 ^ 52 : Nat) : Int))
        * 2 = S := by
      by_cases hneg : m < 0
      · rw [if_pos hneg]
        have hSneg : S < 0 := hsign.mp hneg
        have : S = -(2 ^ 53 : Int) := by
          rw [hcB] at hS
          omega
        rw [this]
        norm_num
      · rw [if_neg hneg]
        have hSpos : ¬ S < 0 := fun hc => hneg (hsign.mpr hc)
        have : S = (2 ^ 53 : Int) := by
          rw [hcB] at hS
          omega
        rw [this]
        norm_num
    set S2 : Int := (if m < 0 then -((2 ^ 52 : Nat) : Int) else ((2 ^ 52 : Nat) : Int)) with hS2def
    -- show the output pair equals (m, e) by normalized uniqueness
    have hpair : dyadicPair S2 (t + 1) = (m, e) := by
      by_cases ht0 : 0 ≤ t
      · rw [dyadicPair_of_nonneg (by omega : (0:Int) ≤ t + 1)]
        rcases hrel0 with ⟨_, hv, he0⟩ | ⟨htneg, _, _⟩
        · rw [he0]
          have : S2 * 2 ^ ((t:Int) + 1).toNat = S * 2 ^ t.toNat := by
            rw [show ((t:Int) + 1).toNat = t.toNat + 1 by omega, pow_succ]
            calc S2 * (2 ^ t.toNat * 2) = (S2 * 2) * 2 ^ t.toNat := by ring
              _ = S * 2 ^ t.toNat := by rw [hS2]
          rw [this, ← hv]
        · omega
      · -- t < 0
        rcases hrel0 with ⟨ht0', _, _⟩ | ⟨htneg, hv, hle⟩
        · omega
        · have hnorm1 : (dyadicPair S2 (t + 1)).2 = 0 ∨
              ¬ (dyadicPair S2 (t + 1)).1 % 10 = 0 := dyadicPair_norm _ _
          have hnorm2 : e = 0 ∨ ¬ m % 10 = 0 := by
            rw [hm, he]
            exact dyadicPair_norm _ _
          -- cross-multiplied value equality
          have hcross : (dyadicPair S2 (t + 1)).1 * 10 ^ e
              = m * 10 ^ (dyadicPair S2 (t + 1)).2 := by
            by_cases ht1 : 0 ≤ t + 1
            · -- t = -1
              have htm1 : t = -1 := by omega
              rw [dyadicPair_of_nonneg ht1]
              simp only []
              rw [show ((t:Int) + 1).toNat = 0 by omega]
              simp only [pow_zero, mul_one]
              -- goal : S2 * 10^e = m;  from m * 2 = S * 10^e = S2*2*10^e
              have hk1 : (-t).toNat = 1 := by omega
              rw [hk1, pow_one] at hv
              have hx2 : m * 2 = S2 * 10 ^ e * 2 := by
                rw [hv, ← hS2]
                ring
              have hx3 := mul_right_cancel₀ (show (2:Int) ≠ 0 by norm_num) hx2
              exact hx3.symm
            · obtain ⟨hv2, hle2⟩ := @dyadicPair_neg_rel (t + 1) (by omega) S2
              -- m * 2^k = S*10^e = S2*2*10^e ; m2 * 2^(k-1) = S2 * 10^e2
              set m2 := (dyadicPair S2 (t + 1)).1
              set e2 := (dyadicPair S2 (t + 1)).2
              have hksplit : (-t).toNat = (-(t + 1)).toNat + 1 := by omega
              have hv3 : m * 2 ^ (-(t + 1)).toNat * 2 = S2 * 10 ^ e * 2 := by
                calc m * 2 ^ (-(t + 1)).toNat * 2 = m * 2 ^ ((-(t + 1)).toNat + 1) := by
                      rw [pow_succ]; ring
                  _ = m * 2 ^ (-t).toNat := by rw [← hksplit]
                  _ = S * 10 ^ e := hv
                  _ = S2 * 10 ^ e * 2 := by rw [← hS2]; ring
              have hv4 : m * 2 ^ (-(t + 1)).toNat = S2 * 10 ^ e :=
                mul_right_cancel₀ (show (2:Int) ≠ 0 by norm_num) hv3
              -- cross-multiply:  m2 * 2^(k-1) * 10^e = S2*10^e2*10^e = m*2^(k-1)*10^e2
              have hcross2 : m2 * 10 ^ e * 2 ^ (-(t + 1)).toNat
                  = m * 10 ^ e2 * 2 ^ (-(t + 1)).toNat := by
                calc m2 * 10 ^ e * 2 ^ (-(t + 1)).toNat
                    = (m2 * 2 ^ (-(t + 1)).toNat) * 10 ^ e := by ring
                  _ = (S2 * 10 ^ e2) * 10 ^ e := by rw [hv2]
                  _ = (S2 * 10 ^ e) * 10 ^ e2 := by ring
                  _ = (m * 2 ^ (-(t + 1)).toNat) * 10 ^ e2 := by rw [← hv4]
                  _ = m * 10 ^ e2 * 2 ^ (-(t + 1)).toNat := by ring
              exact mul_right_cancel₀ (pow_ne_zero _ (by norm_num : (2:Int) ≠ 0)) hcross2
          obtain ⟨hmeq, heeq⟩ := norm_unique hnorm1 hnorm2 hcross
          rcases hpp : dyadicPair S2 (t + 1) with ⟨x, y⟩
          rw [hpp] at hmeq heeq
          simp only [] at hmeq heeq
          rw [hmeq, heeq]
    rw [hpair]
  · simp only [if_neg hcB]
    have hS2 : (if m < 0 then -(mm : Int) else (mm : Int)) = S := by
      by_cases hneg : m < 0
      · rw [if_pos hneg]
        have hSneg : S < 0 := hsign.mp hneg
        omega
      · rw [if_neg hneg]
        have hSpos : ¬ S < 0 := fun hc => hneg (hsign.mpr hc)
        omega
    rw [hS2, ← hm, ← he]

/-! ## First-round bounds on the significand, and the fixed-point theorem -/

theorem lepow_true_nonneg {b : Nat} {k : Int} (hk : 0 ≤ k) {D M : Nat}
    (h : lepow b k D M = true) : b ^ k.toNat * D ≤ M := by
  unfold lepow at h
  rw [if_pos hk] at h
  exact of_decide_eq_true h

theorem lepow_true_neg {b : Nat} {k : Int} (hk : k < 0) {D M : Nat}
    (h : lepow b k D M = true) : D ≤ b ^ (-k).toNat * M := by
  unfold lepow at h
  rw [if_neg (by omega)] at h
  exact of_decide_eq_true h

theorem lepow_false_nonneg {b : Nat} {k : Int} (hk : 0 ≤ k) {D M : Nat}
    (h : lepow b k D M = false) : M < b ^ k.toNat * D := by
  unfold lepow at h
  rw [if_pos hk] at h
  have := of_decide_eq_false h
  omega

theorem lepow_false_neg {b : Nat} {k : Int} (hk : k < 0) {D M : Nat}
    (h : lepow b k D M = false) : b ^ (-k).toNat * M < D := by
  unfold lepow at h
  rw [if_neg (by omega)] at h
  have := of_decide_eq_false h
  omega

theorem roundM_le {A D : Nat} (hA : 1 ≤ A) (hD : 1 ≤ D) : roundM A D ≤ 2 ^ 53 := by
  obtain ⟨s1, s2⟩ := scaleExpMD_spec (le_refl 2) hA hD
  set eb := scaleExpMD 2 A D with hebd
  have hDpos : 0 < D := hD
  unfold roundM roundT
  rw [← hebd]
  by_cases hsub : eb < -1022
  · rw [if_pos hsub, if_neg (by omega : ¬ (0:Int) ≤ -1074)]
    rw [show (-(-1074:Int)).toNat = 1074 by rfl]
    apply rdiv_le_of hDpos
    have hf : 2 ^ (-(eb + 1)).toNat * A < D := lepow_false_neg (by omega) s2
    by_cases hdeep : eb < -1075
    · have h1 : A * 2 ^ 1074 ≤ A * 2 ^ (-(eb + 1)).toNat :=
        Nat.mul_le_mul_left A (Nat.pow_le_pow_right (by omega) (by omega))
      have h2 : A * 2 ^ (-(eb + 1)).toNat < D := by
        calc A * 2 ^ (-(eb + 1)).toNat = 2 ^ (-(eb + 1)).toNat * A := by ring
          _ < D := hf
      have h3 : D ≤ 2 ^ 53 * D := Nat.le_mul_of_pos_left D (Nat.pos_pow_of_pos 53 (by omega))
      omega
    · have hsplit : (1074 : Nat) = (-(eb + 1)).toNat + (1075 + eb).toNat := by omega
      calc A * 2 ^ 1074 = (2 ^ (-(eb + 1)).toNat * A) * 2 ^ (1075 + eb).toNat := by
            rw [hsplit, pow_add]
            ring
        _ < D * 2 ^ (1075 + eb).toNat :=
            (Nat.mul_lt_mul_right (Nat.pos_pow_of_pos _ (by omega))).mpr hf
        _ ≤ D * 2 ^ 52 := Nat.mul_le_mul_left D (Nat.pow_le_pow_right (by omega) (by omega))
        _ ≤ 2 ^ 53 * D := by
            rw [Nat.mul_comm]
            exact Nat.mul_le_mul_right D (by norm_num : (2:Nat) ^ 52 ≤ 2 ^ 53)
  · rw [if_neg hsub]
    by_cases hpos : (0:Int) ≤ eb - 52
    · rw [if_pos hpos]
      apply rdiv_le_of (by positivity)
      have hf : A < 2 ^ (eb + 1).toNat * D := lepow_false_nonneg (by omega) s2
      calc A < 2 ^ (eb + 1).toNat * D := hf
        _ = 2 ^ 53 * (D * 2 ^ (eb - 52).toNat) := by
            rw [show (eb + 1).toNat = 53 + (eb - 52).toNat by omega, pow_add]
            ring
    · rw [if_neg hpos]
      apply rdiv_le_of hDpos
      by_cases hk1 : 0 ≤ eb + 1
      · have hf : A < 2 ^ (eb + 1).toNat * D := lepow_false_nonneg (by omega) s2
        calc A * 2 ^ (-(eb - 52)).toNat
            < (2 ^ (eb + 1).toNat * D) * 2 ^ (-(eb - 52)).toNat :=
              (Nat.mul_lt_mul_right (Nat.pos_pow_of_pos _ (by omega))).mpr hf
          _ = 2 ^ 53 * D := by
              rw [show (2:Nat) ^ (eb + 1).toNat * D * 2 ^ (-(eb - 52)).toNat
                  = 2 ^ ((eb + 1).toNat + (-(eb - 52)).toNat) * D by rw [pow_add]; ring]
              congr 2
              omega
      · have hf : 2 ^ (-(eb + 1)).toNat * A < D := lepow_false_neg (by omega) s2
        calc A * 2 ^ (-(eb - 52)).toNat
            = (2 ^ (-(eb + 1)).toNat * A) * 2 ^ 53 := by
              rw [show (-(eb - 52)).toNat = (-(eb + 1)).toNat + 53 by omega, pow_add]
              ring
          _ < D * 2 ^ 53 := (Nat.mul_lt_mul_right (by positivity)).mpr hf
          _ = 2 ^ 53 * D := by ring

theorem roundM_ge {A D : Nat} (hA : 1 ≤ A) (hD : 1 ≤ D)
    (hn : ¬ scaleExpMD 2 A D < -1022) : 2 ^ 52 ≤ roundM A D := by
  obtain ⟨s1, s2⟩ := scaleExpMD_spec (le_refl 2) hA hD
  set eb := scaleExpMD 2 A D with hebd
  have hDpos : 0 < D := hD
  unfold roundM roundT
  rw [← hebd]
  rw [if_neg hn]
  by_cases hpos : (0:Int) ≤ eb - 52
  · rw [if_pos hpos]
    apply rdiv_ge_of (by positivity)
    have ht : 2 ^ eb.toNat * D ≤ A := lepow_true_nonneg (by omega) s1
    calc 2 ^ 52 * (D * 2 ^ (eb - 52).toNat) = 2 ^ eb.toNat * D := by
          rw [show eb.toNat = 52 + (eb - 52).toNat by omega, pow_add]
          ring
      _ ≤ A := ht
  · rw [if_neg hpos]
    apply rdiv_ge_of hDpos
    by_cases hk1 : 0 ≤ eb
    · have ht : 2 ^ eb.toNat * D ≤ A := lepow_true_nonneg (by omega) s1
      calc 2 ^ 52 * D = (2 ^ eb.toNat * D) * 2 ^ (-(eb - 52)).toNat := by
            rw [show (52:Nat) = eb.toNat + (-(eb - 52)).toNat by omega, pow_add]
            ring
        _ ≤ A * 2 ^ (-(eb - 52)).toNat :=
            Nat.mul_le_mul_right _ ht
    · have ht : D ≤ 2 ^ (-eb).toNat * A := lepow_true_neg (by omega) s1
      calc 2 ^ 52 * D ≤ 2 ^ 52 * (2 ^ (-eb).toNat * A) := Nat.mul_le_mul_left _ ht
        _ = A * 2 ^ (-(eb - 52)).toNat := by
            rw [show (-(eb - 52)).toNat = 52 + (-eb).toNat by omega, pow_add]
            ring

theorem roundT_ge {A D : Nat} : -1074 ≤ roundT A D := by
  unfold roundT
  split
  · omega
  · omega

theorem dyadicPair_zero (t : Int) : dyadicPair 0 t = (0, 0) := by
  unfold dyadicPair
  split
  · simp
  · show normPair ((0 : Int) * 5 ^ (-t).toNat, (-t).toNat) = (0, 0)
    rw [zero_mul]
    exact normPairAux_zero _

theorem roundDbl_zero_z : roundDbl 0 0 = .fin 0 0 := by
  unfold roundDbl
  rw [if_pos rfl]

theorem roundDbl_fix {M : Int} {E : Nat} {m : Int} {e : Nat}
    (h : roundDbl M E = .fin m e) : roundDbl m e = .fin m e := by
  by_cases hM : M = 0
  · subst hM
    rw [show roundDbl 0 E = .fin 0 0 from by unfold roundDbl; rw [if_pos rfl]] at h
    injection h with h1 h2
    subst h1
    subst h2
    exact roundDbl_zero_z
  · rw [roundDbl_of_ne M E hM] at h
    by_cases hovf : 0 ≤ roundT M.natAbs (10 ^ E) ∧
        2 ^ 1024 ≤ roundM M.natAbs (10 ^ E) * 2 ^ (roundT M.natAbs (10 ^ E)).toNat
    · rw [if_pos hovf] at h
      cases h
    · rw [if_neg hovf] at h
      set A := M.natAbs with hAd
      set D := (10:Nat) ^ E with hDd
      set mm := roundM A D with hmmd
      set t := roundT A D with htd
      set S : Int := (if M < 0 then -(mm : Int) else (mm : Int)) with hSd
      injection h with h1 h2
      subst h1
      subst h2
      by_cases hmm0 : mm = 0
      · have hS0 : S = 0 := by
          rw [hSd, hmm0]
          split <;> simp
        rw [hS0, dyadicPair_zero]
        exact roundDbl_zero_z
      · apply roundDbl_rep S mm t
        · rw [hSd]
          split
          · rw [Int.natAbs_neg]
            exact Int.natAbs_ofNat mm
          · exact Int.natAbs_ofNat mm
        · omega
        · rw [hmmd]
          exact roundM_le (by rw [hAd]; omega) (by rw [hDd]; exact Nat.pos_pow_of_pos _ (by omega))
        · rw [htd]
          exact roundT_ge
        · intro hlt
          rw [htd]
          unfold roundT
          by_cases hsub : scaleExpMD 2 A D < -1022
          · rw [if_pos hsub]
          · exfalso
            have := roundM_ge (by rw [hAd]; omega) (by rw [hDd]; exact Nat.pos_pow_of_pos _ (by omega)) hsub
            rw [← hmmd] at this
            omega
        · exact hovf

/-! ## Output shape of roundDbl -/

theorem roundDbl_zeroE (E : Nat) : roundDbl 0 E = .fin 0 0 := by
  unfold roundDbl
  rw [if_pos rfl]

theorem roundDbl_fin_norm {M : Int} {E : Nat} {m : Int} {e : Nat}
    (h : roundDbl M E = .fin m e) : e = 0 ∨ ¬ m % 10 = 0 := by
  by_cases hM : M = 0
  · subst hM
    rw [roundDbl_zeroE] at h
    injection h with h1 h2
    exact .inl h2.symm
  · rw [roundDbl_of_ne M E hM] at h
    by_cases hovf : 0 ≤ roundT M.natAbs (10 ^ E) ∧
        2 ^ 1024 ≤ roundM M.natAbs (10 ^ E) * 2 ^ (roundT M.natAbs (10 ^ E)).toNat
    · rw [if_pos hovf] at h
      cases h
    · rw [if_neg hovf] at h
      injection h with h1 h2
      rw [← h1, ← h2]
      exact dyadicPair_norm _ _

theorem roundDbl_int_e0 {M : Int} {m : Int} {e : Nat}
    (h : roundDbl M 0 = .fin m e) : e = 0 := by
  by_cases hM : M = 0
  · subst hM
    rw [roundDbl_zero_z] at h
    injection h with h1 h2
    exact h2.symm
  · rw [roundDbl_of_ne M 0 hM] at h
    by_cases hovf : 0 ≤ roundT M.natAbs (10 ^ 0) ∧
        2 ^ 1024 ≤ roundM M.natAbs (10 ^ 0) * 2 ^ (roundT M.natAbs (10 ^ 0)).toNat
    · rw [if_pos hovf] at h
      cases h
    · rw [if_neg hovf] at h
      injection h with h1 h2
      set t := roundT M.natAbs (10 ^ 0) with htd
      by_cases ht : 0 ≤ t
      · rw [← h2, dyadicPair_of_nonneg ht]
      · -- t < 0 : the rounded value of an integer is an integer, so e = 0
        set mm := roundM M.natAbs (10 ^ 0) with hmmd
        set S : Int := (if M < 0 then -(mm : Int) else (mm : Int)) with hSd
        obtain ⟨hrel, hle⟩ := @dyadicPair_neg_rel t (by omega) S
        -- mm = M.natAbs * 2^(-t).toNat  (rdiv by 1)
        have hmmv : mm = M.natAbs * 2 ^ (-t).toNat := by
          rw [hmmd]
          unfold roundM
          rw [← htd, if_neg ht]
          rw [show (10:Nat) ^ 0 = 1 from rfl, rdiv_one]
        have hSv : S * 10 ^ (dyadicPair S t).2
            = (if M < 0 then -(M.natAbs : Int) else (M.natAbs : Int))
              * 2 ^ (-t).toNat * 10 ^ (dyadicPair S t).2 := by
          rw [hSd, hmmv]
          split <;> push_cast <;> ring
    -- from hrel : (dyadicPair S t).1 * 2^k = S * 10^e2
        rw [hSv] at hrel
        have hcancel : (dyadicPair S t).1
            = (if M < 0 then -(M.natAbs : Int) else (M.natAbs : Int))
              * 10 ^ (dyadicPair S t).2 := by
          have h2k : ((2:Int) ^ (-t).toNat) ≠ 0 := pow_ne_zero _ (by norm_num)
          apply mul_right_cancel₀ h2k
          calc (dyadicPair S t).1 * 2 ^ (-t).toNat
              = (if M < 0 then -(M.natAbs : Int) else (M.natAbs : Int))
                * 2 ^ (-t).toNat * 10 ^ (dyadicPair S t).2 := hrel
            _ = (if M < 0 then -(M.natAbs : Int) else (M.natAbs : Int))
                * 10 ^ (dyadicPair S t).2 * 2 ^ (-t).toNat := by ring
        rcases dyadicPair_norm S t with h0 | hnz
        · rw [← h2]
          exact h0
        · -- e2 ≥ 1 would make the mantissa divisible by 10
          by_cases he2 : (dyadicPair S t).2 = 0
          · rw [← h2]
            exact he2
          · exfalso
            apply hnz
            obtain ⟨d, hd⟩ : ∃ d, (dyadicPair S t).2 = d + 1 :=
              ⟨(dyadicPair S t).2 - 1, by omega⟩
            rw [hd, pow_succ] at hcancel
            apply Int.emod_eq_zero_of_dvd
            exact ⟨(if M < 0 then -(M.natAbs : Int) else (M.natAbs : Int)) * 10 ^ d,
              by rw [hcancel]; ring⟩

theorem roundDbl_div10 {M : Int} (hmod : M % 10 = 0) (hM : M ≠ 0) (E : Nat) :
    roundDbl M (E + 1) = roundDbl (M / 10) E := by
  have h10 : (10:Int) ∣ M := Int.dvd_of_emod_eq_zero hmod
  have hfac : M = 10 * (M / 10) := (Int.mul_ediv_cancel' h10).symm
  have hM2 : M / 10 ≠ 0 := by
    intro hc
    rw [hc, mul_zero] at hfac
    exact hM hfac
  rw [roundDbl_of_ne M (E + 1) hM, roundDbl_of_ne (M / 10) E hM2]
  have habs : M.natAbs = 10 * (M / 10).natAbs := by
    conv_lhs => rw [hfac]
    rw [Int.natAbs_mul]
    norm_num
  have hpow : (10:Nat) ^ (E + 1) = 10 * 10 ^ E := by
    rw [pow_succ]
    ring
  have hA2 : 1 ≤ (M / 10).natAbs := by omega
  have hD2 : 1 ≤ (10:Nat) ^ E := Nat.pos_pow_of_pos _ (by omega)
  have hse : scaleExpMD 2 M.natAbs (10 ^ (E + 1)) = scaleExpMD 2 (M / 10).natAbs (10 ^ E) := by
    rw [habs, hpow]
    exact scaleExpMD_mul_left (le_refl 2) (by omega) hA2 hD2
  have hT : roundT M.natAbs (10 ^ (E + 1)) = roundT (M / 10).natAbs (10 ^ E) := by
    unfold roundT
    rw [hse]
  have hMq : roundM M.natAbs (10 ^ (E + 1)) = roundM (M / 10).natAbs (10 ^ E) := by
    unfold roundM
    rw [hT]
    by_cases ht : 0 ≤ roundT (M / 10).natAbs (10 ^ E)
    · rw [if_pos ht, if_pos ht]
      rw [habs, hpow]
      rw [show 10 * 10 ^ E * 2 ^ (roundT (M / 10).natAbs (10 ^ E)).toNat
          = 10 * (10 ^ E * 2 ^ (roundT (M / 10).natAbs (10 ^ E)).toNat) by ring]
      exact rdiv_mul_left (by omega) _ _
    · rw [if_neg ht, if_neg ht]
      rw [habs, hpow]
      rw [show 10 * (M / 10).natAbs * 2 ^ (-roundT (M / 10).natAbs (10 ^ E)).toNat
          = 10 * ((M / 10).natAbs * 2 ^ (-roundT (M / 10).natAbs (10 ^ E)).toNat) by ring]
      exact rdiv_mul_left (by omega) _ _
  have hiff : M < 0 ↔ M / 10 < 0 := by
    constructor
    · intro h
      omega
    · intro h
      omega
  rw [hT, hMq]
  have h1 : decide (M < 0) = decide (M / 10 < 0) := by
    rw [decide_eq_decide]
    exact hiff
  have h2 : (if M < 0 then -((roundM (M / 10).natAbs (10 ^ E) : Nat) : Int)
        else ((roundM (M / 10).natAbs (10 ^ E) : Nat) : Int))
      = (if M / 10 < 0 then -((roundM (M / 10).natAbs (10 ^ E) : Nat) : Int)
        else ((roundM (M / 10).natAbs (10 ^ E) : Nat) : Int)) :=
    if_congr hiff rfl rfl
  rw [h1, h2]

/-! ## candOK lemmas -/

theorem candOK_eq {neg : Bool} {s : Nat} {p : Int} {m : Int} {e : Nat}
    (h : candOK neg s p m e = true) :
    roundDbl (candPair neg s p).1 (candPair neg s p).2 = .fin m e := by
  unfold candOK at h
  exact of_decide_eq_true h

theorem candOK_s_pos {neg : Bool} {s : Nat} {p : Int} {m : Int} {e : Nat}
    (hm : m ≠ 0) (h : candOK neg s p m e = true) : 1 ≤ s := by
  by_contra hc
  have hs0 : s = 0 := by omega
  subst hs0
  have hc1 : (candPair neg 0 p).1 = 0 := by
    unfold candPair
    by_cases hp : 0 ≤ p
    · rw [if_pos hp]
      cases neg <;> simp
    · rw [if_neg hp]
      cases neg <;> simp
  have hz : roundDbl (candPair neg 0 p).1 (candPair neg 0 p).2 = .fin 0 0 := by
    rw [hc1]
    unfold roundDbl
    rw [if_pos rfl]
  rw [candOK_eq h] at hz
  injection hz with h1 h2
  exact hm h1

theorem candOK_div10 {s : Nat} (hdvd : 10 ∣ s) (hs : s ≠ 0) (neg : Bool) (p : Int)
    (mq : Int) (eq : Nat) :
    candOK neg (s / 10) (p + 1) mq eq = candOK neg s p mq eq := by
  obtain ⟨c, rfl⟩ := hdvd
  have hc : 10 * c / 10 = c := Nat.mul_div_cancel_left c (by omega)
  have hcne : c ≠ 0 := by omega
  have key : roundDbl (candPair neg (10 * c / 10) (p + 1)).1 (candPair neg (10 * c / 10) (p + 1)).2
      = roundDbl (candPair neg (10 * c) p).1 (candPair neg (10 * c) p).2 := by
    rw [hc]
    by_cases hp : 0 ≤ p
    · -- identical decimal pairs
      unfold candPair
      rw [if_pos hp, if_pos (by omega : (0:Int) ≤ p + 1)]
      have hcomp : (if neg then -(c : Int) else (c : Int)) * 10 ^ ((p : Int) + 1).toNat
          = (if neg then -((10 * c : Nat) : Int) else ((10 * c : Nat) : Int)) * 10 ^ p.toNat := by
        rw [show ((p : Int) + 1).toNat = p.toNat + 1 by omega, pow_succ]
        cases neg
        · rw [if_neg (by decide : ¬ (false = true)), if_neg (by decide : ¬ (false = true))]
          push_cast
          ring
        · rw [if_pos rfl, if_pos rfl]
          push_cast
          ring
      rw [hcomp]
    · -- move one factor of ten between mantissa and scale
      have hMne : (if neg then -((10 * c : Nat) : Int) else ((10 * c : Nat) : Int)) ≠ 0 := by
        cases neg
        · rw [if_neg (by decide : ¬ (false = true))]
          push_cast
          omega
        · rw [if_pos rfl]
          push_cast
          omega
      have hmod : (if neg then -((10 * c : Nat) : Int) else ((10 * c : Nat) : Int)) % 10 = 0 := by
        cases neg
        · rw [if_neg (by decide : ¬ (false = true))]
          push_cast
          omega
        · rw [if_pos rfl]
          push_cast
          omega
      have hdiv : (if neg then -((10 * c : Nat) : Int) else ((10 * c : Nat) : Int)) / 10
          = (if neg then -(c : Int) else (c : Int)) := by
        cases neg
        · rw [if_neg (by decide : ¬ (false = true)), if_neg (by decide : ¬ (false = true))]
          push_cast
          omega
        · rw [if_pos rfl, if_pos rfl]
          push_cast
          omega
      by_cases hp1 : 0 ≤ p + 1
      · -- p = -1
        have hpm1 : p = -1 := by omega
        subst hpm1
        unfold candPair
        rw [if_pos (by omega : (0:Int) ≤ (-1) + 1), if_neg (by omega : ¬ (0:Int) ≤ -1)]
        rw [show ((-1:Int) + 1).toNat = 0 by rfl, pow_zero, mul_one]
        rw [show (-(-1:Int)).toNat = 1 by rfl]
        have := roundDbl_div10 hmod hMne 0
        rw [hdiv] at this
        exact this.symm
      · unfold candPair
        rw [if_neg (by omega : ¬ (0:Int) ≤ p + 1), if_neg (by omega : ¬ (0:Int) ≤ p)]
        have hE : (-(p + 1)).toNat + 1 = (-p).toNat := by omega
        have := roundDbl_div10 hmod hMne (-(p + 1)).toNat
        rw [hdiv, hE] at this
        exact this.symm
  unfold candOK
  rw [key]

/-! ## The shortest-digits search -/

theorem shortestAux_succ (m : Int) (e : Nat) (d10 : Int) (g k : Nat) :
    shortestAux m e d10 (g + 1) k =
      (let p := d10 + 1 - (k : Int)
       let s1 := floorScaled m.natAbs (10 ^ e) p
       let ok1 := candOK (decide (m < 0)) s1 p m e
       let ok2 := candOK (decide (m < 0)) (s1 + 1) p m e
       if ok1 && ok2 then
         let d1 := candDist s1 p m.natAbs e
         let d2 := candDist (s1 + 1) p m.natAbs e
         some (if d1 < d2 then (s1, p)
               else if d2 < d1 then (s1 + 1, p)
               else if s1 % 2 = 0 then (s1, p) else (s1 + 1, p))
       else if ok1 then some (s1, p)
       else if ok2 then some (s1 + 1, p)
       else shortestAux m e d10 g (k + 1)) := rfl

theorem stripZeroAux_succ (g s : Nat) (p : Int) :
    stripZeroAux (g + 1) s p =
      if s % 10 = 0 ∧ s ≠ 0 then stripZeroAux g (s / 10) (p + 1) else (s, p) := rfl

theorem stripZeroAux_ok (mq : Int) (eq : Nat) (neg : Bool) :
    ∀ (f s : Nat) (p : Int), candOK neg s p mq eq = true →
      candOK neg (stripZeroAux f s p).1 (stripZeroAux f s p).2 mq eq = true ∧
        p ≤ (stripZeroAux f s p).2 := by
  intro f
  induction f with
  | zero =>
      intro s p h
      exact ⟨h, le_refl p⟩
  | succ g ih =>
      intro s p h
      rw [stripZeroAux_succ]
      by_cases hc : s % 10 = 0 ∧ s ≠ 0
      · rw [if_pos hc]
        have h' : candOK neg (s / 10) (p + 1) mq eq = true := by
          rw [candOK_div10 (Nat.dvd_of_mod_eq_zero hc.1) hc.2]
          exact h
        obtain ⟨h1, h2⟩ := ih (s / 10) (p + 1) h'
        exact ⟨h1, by omega⟩
      · rw [if_neg hc]
        exact ⟨h, le_refl p⟩

theorem stripZero_ok {mq : Int} {eq : Nat} {neg : Bool} {s : Nat} {p : Int}
    (h : candOK neg s p mq eq = true) :
    candOK neg (stripZero s p).1 (stripZero s p).2 mq eq = true ∧
      p ≤ (stripZero s p).2 :=
  stripZeroAux_ok mq eq neg s s p h

theorem shortestAux_some (m : Int) (e : Nat) (d10 : Int) :
    ∀ (f k s : Nat) (p : Int),
      shortestAux m e d10 f k = some (s, p) →
      candOK (decide (m < 0)) s p m e = true := by
  intro f
  induction f with
  | zero =>
      intro k s p h
      exact Option.noConfusion h
  | succ g ih =>
      intro k s p h
      rw [shortestAux_succ] at h
      simp only [] at h
      set p0 : Int := d10 + 1 - (k : Int) with hp0
      set s1 : Nat := floorScaled m.natAbs (10 ^ e) p0 with hs1
      cases hok1 : candOK (decide (m < 0)) s1 p0 m e with
      | false =>
          cases hok2 : candOK (decide (m < 0)) (s1 + 1) p0 m e with
          | false =>
              rw [hok1, hok2] at h
              simp at h
              exact ih (k + 1) s p h
          | true =>
              rw [hok1, hok2] at h
              simp at h
              obtain ⟨h1, h2⟩ := h
              subst h1
              subst h2
              exact hok2
      | true =>
          cases hok2 : candOK (decide (m < 0)) (s1 + 1) p0 m e with
          | false =>
              rw [hok1, hok2] at h
              simp at h
              obtain ⟨h1, h2⟩ := h
              subst h1
              subst h2
              exact hok1
          | true =>
              rw [hok1, hok2] at h
              rw [show (true && true) = true from rfl, if_pos rfl] at h
              injection h with hpair
              by_cases hd1 : candDist s1 p0 m.natAbs e < candDist (s1 + 1) p0 m.natAbs e
              · rw [if_pos hd1, Prod.mk.injEq] at hpair
                obtain ⟨h1, h2⟩ := hpair
                subst h1
                subst h2
                exact hok1
              · rw [if_neg hd1] at hpair
                by_cases hd2 : candDist (s1 + 1) p0 m.natAbs e < candDist s1 p0 m.natAbs e
                · rw [if_pos hd2, Prod.mk.injEq] at hpair
                  obtain ⟨h1, h2⟩ := hpair
                  subst h1
                  subst h2
                  exact hok2
                · rw [if_neg hd2] at hpair
                  by_cases hpar : s1 % 2 = 0
                  · rw [if_pos hpar, Prod.mk.injEq] at hpair
                    obtain ⟨h1, h2⟩ := hpair
                    subst h1
                    subst h2
                    exact hok1
                  · rw [if_neg hpar, Prod.mk.injEq] at hpair
                    obtain ⟨h1, h2⟩ := hpair
                    subst h1
                    subst h2
                    exact hok2

theorem shortestAux_le (m : Int) (e : Nat) (d10 : Int) (k0 : Nat)
    (h0 : candOK (decide (m < 0))
        (floorScaled m.natAbs (10 ^ e) (d10 + 1 - (k0 : Int))) (d10 + 1 - (k0 : Int)) m e
        = true) :
    ∀ (f k : Nat), k ≤ k0 → k0 < k + f →
      ∃ s p, shortestAux m e d10 f k = some (s, p) ∧ d10 + 1 - (k0 : Int) ≤ p := by
  intro f
  induction f with
  | zero =>
      intro k hk1 hk2
      exact absurd hk2 (by omega)
  | succ g ih =>
      intro k hk1 hk2
      rw [shortestAux_succ]
      simp only []
      set p0 : Int := d10 + 1 - (k : Int) with hp0
      set s1 : Nat := floorScaled m.natAbs (10 ^ e) p0 with hs1
      have hple : d10 + 1 - (k0 : Int) ≤ p0 := by
        rw [hp0]
        omega
      cases hok1 : candOK (decide (m < 0)) s1 p0 m e with
      | true =>
          cases hok2 : candOK (decide (m < 0)) (s1 + 1) p0 m e with
          | true =>
              rw [show (true && true) = true from rfl, if_pos rfl]
              by_cases hd1 : candDist s1 p0 m.natAbs e < candDist (s1 + 1) p0 m.natAbs e
              · rw [if_pos hd1]
                exact ⟨s1, p0, rfl, hple⟩
              · rw [if_neg hd1]
                by_cases hd2 : candDist (s1 + 1) p0 m.natAbs e < candDist s1 p0 m.natAbs e
                · rw [if_pos hd2]
                  exact ⟨s1 + 1, p0, rfl, hple⟩
                · rw [if_neg hd2]
                  by_cases hpar : s1 % 2 = 0
                  · rw [if_pos hpar]
                    exact ⟨s1, p0, rfl, hple⟩
                  · rw [if_neg hpar]
                    exact ⟨s1 + 1, p0, rfl, hple⟩
          | false =>
              rw [show (true && false) = false from rfl,
                if_neg (by decide : ¬ false = true), if_pos rfl]
              exact ⟨s1, p0, rfl, hple⟩
      | false =>
          cases hok2 : candOK (decide (m < 0)) (s1 + 1) p0 m e with
          | true =>
              rw [show (false && true) = false from rfl,
                if_neg (by decide : ¬ false = true), if_neg (by decide : ¬ false = true),
                if_pos rfl]
              exact ⟨s1 + 1, p0, rfl, hple⟩
          | false =>
              rw [show (false && false) = false from rfl,
                if_neg (by decide : ¬ false = true), if_neg (by decide : ¬ false = true),
                if_neg (by decide : ¬ false = true)]
              have hkne : k ≠ k0 := by
                intro hkk
                rw [hs1, hp0, hkk] at hok1
                rw [h0] at hok1
                exact absurd hok1 (by decide)
              exact ih (k + 1) (by omega) (by omega)

theorem jsDigits_spec {m : Int} {e : Nat} (hm : m ≠ 0) (hfix : roundDbl m e = .fin m e) :
    candOK (decide (m < 0)) (jsDigits m e).1 (jsDigits m e).2 m e = true ∧
      1 ≤ (jsDigits m e).1 ∧ (e = 0 → 0 ≤ (jsDigits m e).2) := by
  have hA : 1 ≤ m.natAbs := by omega
  have hAm : (if decide (m < 0) = true then -(m.natAbs : Int) else (m.natAbs : Int)) = m := by
    by_cases hneg : m < 0
    · rw [if_pos (decide_eq_true hneg)]
      omega
    · rw [if_neg (by rw [decide_eq_true_eq]; exact hneg)]
      omega
  have hfb : candOK (decide (m < 0)) m.natAbs (-(e : Int)) m e = true := by
    unfold candOK
    rw [beq_iff_eq]
    unfold candPair
    by_cases he : e = 0
    · subst he
      rw [if_pos (by norm_num : (0:Int) ≤ -((0:Nat):Int))]
      rw [show (-((0:Nat):Int)).toNat = 0 by norm_num, pow_zero, mul_one, hAm]
      exact hfix
    · rw [if_neg (by omega : ¬ (0:Int) ≤ -((e:Nat):Int))]
      rw [show (-(-((e:Nat):Int))).toNat = e by omega, hAm]
      exact hfix
  cases hsr : shortestAux m e (scaleExpMD 10 m.natAbs (10 ^ e)) (nsize 10 m.natAbs + e + 2) 1 with
  | none =>
      have hjd : jsDigits m e = stripZero m.natAbs (-(e : Int)) := by
        unfold jsDigits
        simp only []
        rw [hsr]
      obtain ⟨hc, hple⟩ := stripZero_ok hfb
      rw [hjd]
      refine ⟨hc, candOK_s_pos hm hc, ?_⟩
      intro he
      subst he
      omega
  | some sp =>
      obtain ⟨s, p⟩ := sp
      have hjd : jsDigits m e = stripZero s p := by
        unfold jsDigits
        simp only []
        rw [hsr]
      have hcand : candOK (decide (m < 0)) s p m e = true :=
        shortestAux_some m e (scaleExpMD 10 m.natAbs (10 ^ e))
          (nsize 10 m.natAbs + e + 2) 1 s p hsr
      obtain ⟨hc, hple⟩ := stripZero_ok hcand
      rw [hjd]
      refine ⟨hc, candOK_s_pos hm hc, ?_⟩
      intro he
      subst he
      set d10v : Int := scaleExpMD 10 m.natAbs ((10:Nat) ^ 0) with hd10v
      have hns : 1 ≤ nsize 10 m.natAbs := nsize_pos hA
      have h1 : lepow 10 ((nsize 10 m.natAbs : Int) - 1) ((10:Nat) ^ 0) m.natAbs = true := by
        unfold lepow
        rw [if_pos (by omega : (0:Int) ≤ (nsize 10 m.natAbs : Int) - 1)]
        rw [decide_eq_true_eq]
        rw [show ((nsize 10 m.natAbs : Int) - 1).toNat = nsize 10 m.natAbs - 1 by omega]
        rw [pow_zero, mul_one]
        exact (nsize_spec (by omega) hA).1
      have h2 : lepow 10 ((nsize 10 m.natAbs : Int) - 1 + 1) ((10:Nat) ^ 0) m.natAbs = false := by
        unfold lepow
        rw [if_pos (by omega : (0:Int) ≤ (nsize 10 m.natAbs : Int) - 1 + 1)]
        apply decide_eq_false
        rw [show ((nsize 10 m.natAbs : Int) - 1 + 1).toNat = nsize 10 m.natAbs by omega]
        rw [pow_zero, mul_one]
        exact not_le.mpr (nsize_spec (by omega) hA).2
      have hd10 : d10v = (nsize 10 m.natAbs : Int) - 1 := by
        rw [hd10v]
        exact scaleExpMD_eq (by omega) hA (by norm_num) h1 h2
      have hfs : floorScaled m.natAbs ((10:Nat) ^ 0)
          (d10v + 1 - ((nsize 10 m.natAbs : Nat) : Int)) = m.natAbs := by
        rw [show d10v + 1 - ((nsize 10 m.natAbs : Nat) : Int) = 0 by omega]
        unfold floorScaled
        rw [if_pos (le_refl (0:Int))]
        norm_num
      have h0 : candOK (decide (m < 0))
          (floorScaled m.natAbs ((10:Nat) ^ 0)
            (d10v + 1 - ((nsize 10 m.natAbs : Nat) : Int)))
          (d10v + 1 - ((nsize 10 m.natAbs : Nat) : Int)) m 0 = true := by
        rw [hfs, show d10v + 1 - ((nsize 10 m.natAbs : Nat) : Int) = 0 by omega]
        unfold candOK
        rw [beq_iff_eq]
        unfold candPair
        rw [if_pos (le_refl (0:Int))]
        rw [show ((0:Int)).toNat = 0 from rfl, pow_zero, mul_one, hAm]
        exact hfix
      obtain ⟨s', p', heq, hbound⟩ := shortestAux_le m 0 d10v (nsize 10 m.natAbs) h0
        (nsize 10 m.natAbs + 0 + 2) 1 (by omega) (by omega)
      rw [hsr] at heq
      injection heq with hpair
      rw [Prod.mk.injEq] at hpair
      obtain ⟨hs', hp'⟩ := hpair
      omega

/-! ## The AST (Document / Property / Block / ValueArray / primitives) -/

/-- A primitive value: string, number (kept as integer, or exact normalized
decimal), or boolean, mirroring the TypeScript `PrimitiveValue` with the
number type split by `Number.isInteger`. -/
inductive Prim where
  | str (s : String)
  | int (n : Int)
  | float (m : Int) (e : Nat)
  | inf (neg : Bool)
  | bool (b : Bool)
deriving DecidableEq, Repr

mutual
/-- A `Value`: primitive, `Block`, or `ValueArray`. -/
inductive Value where
  | prim (p : Prim)
  | block (properties : List Property)
  | arr (values : List Prim)

/-- A `Property`: key, operator literal, value. (Positions are diagnostic
only in the source and are not modelled on AST nodes.) -/
inductive Property where
  | mk (key : String) (operator : String) (value : Value)
end

def Property.key : Property → String
  | .mk k _ _ => k

def Property.operator : Property → String
  | .mk _ o _ => o

def Property.value : Property → Value
  | .mk _ _ v => v

/-- The root `Document` node. -/
structure Document where
  properties : List Property

/-- `parseValue`'s conversion of a `Number` token:
`Number.isInteger(parseFloat(text)) ? parseInt(text, 10) : parseFloat(text)`,
with both conversions rounding their exact decimal argument to a binary64
double (`Number.isInteger` holds exactly when the rounded double is finite
with no fractional part, i.e. normalized scale zero). -/
def numberValue (s : String) : Prim :=
  match roundDbl (parseFloatDec s).1 (parseFloatDec s).2 with
  | .inf ng => .inf ng
  | .fin m e =>
      if e = 0 then
        match roundDbl (parseIntM s) 0 with
        | .inf ng => .inf ng
        | .fin m' _ => .int m'
      else .float m e

/-! ## The parser -/

/-- A thrown parser error: the message, and the line/column of `this.peek()`
at the moment of the throw (what the `catch` block reports; `none` models
the cursor having no token, where the TypeScript fields are `undefined`). -/
structure ParseErr where
  msg : String
  line : Option Nat
  column : Option Nat
deriving DecidableEq, Repr

/-- Mirror of the TypeScript `ParseResult` object. -/
structure ParseResult where
  success : Bool
  document : Option Document
  error : Option String
  errorLine : Option Nat
  errorColumn : Option Nat

def expectedOperatorMsg (key : String) (l c : Nat) : String :=
  "Expected operator after '" ++ key ++ "' at line " ++ toString l ++ ", column " ++ toString c

def unexpectedTokenMsg (v : String) (l c : Nat) : String :=
  "Unexpected token '" ++ v ++ "' at line " ++ toString l ++ ", column " ++ toString c

def expectedRBraceMsg (l c : Nat) : String :=
  "Expected '\x7d' at line " ++ toString l ++ ", column " ++ toString c

/-- `Parser.isOperatorType`. -/
def isOperatorType (t : TokenType) : Bool :=
  t = .Equals || t = .LessThan || t = .GreaterThan ||
    t = .LessThanOrEqual || t = .GreaterThanOrEqual || t = .NotEqual

/-- `Parser.parseOperator`'s classification of one token: the operator
literal stored in the AST (`NotEqual` keeps the token's own spelling). -/
def opOf (t : Token) : Option String :=
  if t.type = .Equals then some "="
  else if t.type = .LessThan then some "<"
  else if t.type = .GreaterThan then some ">"
  else if t.type = .LessThanOrEqual then some "<="
  else if t.type = .GreaterThanOrEqual then some ">="
  else if t.type = .NotEqual then some t.value
  else none

/-- `Parser.isValueArray`: the one-token-of-lookahead classification, applied
to the token sequence just after the consumed `{`. -/
def isValueArray (ts : List Token) : Bool :=
  match ts with
  | [] => false
  | first :: rest =>
      if first.type = .RightBrace then false
      else if first.type = .Number || first.type = .Boolean then
        match rest with
        | next :: _ => !isOperatorType next.type
        | [] => false
      else false

/-- `Parser.parseValueArray`: consume primitive-valued tokens until a
`RightBrace`/end, or stop at any other token type. -/
def parseValueArray : List Token → List Prim × List Token
  | [] => ([], [])
  | t :: rest =>
      if t.type = .EOF || t.type = .RightBrace then ([], t :: rest)
      else if t.type = .Number then
        let (vs, r) := parseValueArray rest
        (numberValue t.value :: vs, r)
      else if t.type = .String then
        let (vs, r) := parseValueArray rest
        (.str t.value :: vs, r)
      else if t.type = .Boolean then
        let (vs, r) := parseValueArray rest
        (.bool (t.value == "yes") :: vs, r)
      else if t.type = .Identifier then
        let (vs, r) := parseValueArray rest
        (.str t.value :: vs, r)
      else ([], t :: rest)

mutual
/-- `Parser.parseValue`: dispatch on the current token. The `fuel`
argument only drives the mutual recursion; the entry point `runParse`
supplies enough for any token stream. -/
def parseValue : Nat → List Token → Except ParseErr (Value × List Token)
  | 0, _ => .error ⟨"Parser out of fuel", none, none⟩
  | fuel + 1, ts =>
      match ts with
      | [] => .error ⟨"Unexpected token", none, none⟩
      | t :: rest =>
          if t.type = .LeftBrace then
            match parseBlockOrArray fuel rest with
            | .error e => .error e
            | .ok (v, r) => .ok (v, r)
          else if t.type = .String then
            .ok (.prim (.str t.value), rest)
          else if t.type = .Number then
            .ok (.prim (numberValue t.value), rest)
          else if t.type = .Boolean then
            .ok (.prim (.bool (t.value == "yes")), rest)
          else if t.type = .Identifier then
            .ok (.prim (.str t.value), rest)
          else
            .error ⟨unexpectedTokenMsg t.value t.line t.column, some t.line, some t.column⟩

/-- `Parser.parseBlockOrArray` after the `{` has been consumed: classify via
`isValueArray`, parse the body, require the closing brace. -/
def parseBlockOrArray : Nat → List Token → Except ParseErr (Value × List Token)
  | 0, _ => .error ⟨"Parser out of fuel", none, none⟩
  | fuel + 1, ts =>
      if isValueArray ts then
        match parseValueArray ts with
        | (vs, rb :: r2) =>
            if rb.type = .RightBrace then .ok (.arr vs, r2)
            else .error ⟨expectedRBraceMsg rb.line rb.column, some rb.line, some rb.column⟩
        | (_, []) => .error ⟨"Expected '\x7d'", none, none⟩
      else
        match parseProperties fuel ts with
        | .error e => .error e
        | .ok (ps, rb :: r2) =>
            if rb.type = .RightBrace then .ok (.block ps, r2)
            else .error ⟨expectedRBraceMsg rb.line rb.column, some rb.line, some rb.column⟩
        | .ok (_, []) => .error ⟨"Expected '\x7d'", none, none⟩

/-- `Parser.parseProperties` with `parseProperty` inlined: repeatedly parse
one property until `RightBrace` or end of input; a non-`Identifier` start is
skipped (consumed and discarded). -/
def parseProperties : Nat → List Token → Except ParseErr (List Property × List Token)
  | 0, _ => .error ⟨"Parser out of fuel", none, none⟩
  | fuel + 1, ts =>
      match ts with
      | [] => .ok ([], [])
      | t :: rest =>
          if t.type = .EOF || t.type = .RightBrace then .ok ([], t :: rest)
          else if t.type = .Identifier then
            match rest with
            | [] => .error ⟨expectedOperatorMsg t.value t.line t.column, none, none⟩
            | o :: rest2 =>
                match opOf o with
                | none =>
                    .error ⟨expectedOperatorMsg t.value t.line t.column, some o.line, some o.column⟩
                | some op =>
                    match parseValue fuel rest2 with
                    | .error e => .error e
                    | .ok (v, rest3) =>
                        match parseProperties fuel rest3 with
                        | .error e => .error e
                        | .ok (ps, r) => .ok (.mk t.value op v :: ps, r)
          else
            match parseProperties fuel rest with
            | .error e => .error e
            | .ok (ps, r) => .ok (ps, r)
end

/-- Fuel that always suffices for the parser on a given token stream. -/
def parserFuel (ts : List Token) : Nat := 2 * ts.length + 2

/-- The `Parser.parse()` method on an already-tokenized stream: filter
comments (done in the constructor), run `parseProperties`, wrap the result;
a thrown error is caught and reported with the throw-time peek position. -/
def runParse (tokens : List Token) : ParseResult :=
  let ts := tokens.filter (fun t => t.type ≠ TokenType.Comment)
  match parseProperties (parserFuel ts) ts with
  | .ok (props, _) => ⟨true, some ⟨props⟩, none, none, none⟩
  | .error e => ⟨false, none, some e.msg, e.line, e.column⟩

/-- The public `parse(input)` entry point: empty-input pre-check, tokenize,
hand the tokens to the parser. -/
def parse (input : String) : ParseResult :=
  if emptyOrWsInput input then
    ⟨false, none, some "Input cannot be empty", none, none⟩
  else
    let tr := tokenize input
    match tr.tokens with
    | none => ⟨false, none, tr.error, tr.errorLine, tr.errorColumn⟩
    | some tokens => if tr.success then runParse tokens
        else ⟨false, none, tr.error, tr.errorLine, tr.errorColumn⟩

/-! ## The ClausewitzDocument path accessor (pure state-passing model) -/

/-- JavaScript `path.split('.')` (note `"".split('.') === [""]`). -/
def splitDotAux : List Char → List Char → List String
  | [], acc => [⟨acc.reverse⟩]
  | c :: rest, acc =>
      if c = '.' then ⟨acc.reverse⟩ :: splitDotAux rest [] else splitDotAux rest (c :: acc)

def splitDot (s : String) : List String := splitDotAux s.data []

/-- The resolution loop of `ClausewitzDocument.get`. -/
def getAux : List Property → List String → Option Value
  | _, [] => none
  | props, [k] => (props.find? (fun p => p.key == k)).map (·.value)
  | props, k :: ks =>
      match props.find? (fun p => p.key == k) with
      | none => none
      | some p =>
          match p.value with
          | .block ps => getAux ps ks
          | _ => none

/-- `ClausewitzDocument.get`: first value at a dot-separated key path. -/
def ClausewitzDocument.get (d : Document) (path : String) : Option Value :=
  getAux d.properties (splitDot path)

/-- The resolution loop of `ClausewitzDocument.getAll`. -/
def getAllAux : List Property → List String → List Value
  | _, [] => []
  | props, [k] => (props.filter (fun p => p.key == k)).map (·.value)
  | props, k :: ks =>
      match props.find? (fun p => p.key == k) with
      | none => []
      | some p =>
          match p.value with
          | .block ps => getAllAux ps ks
          | _ => []

/-- `ClausewitzDocument.getAll`: all values (in order) whose key equals the
final path segment, inside the container at the leading segments. -/
def ClausewitzDocument.getAll (d : Document) (path : String) : List Value :=
  getAllAux d.properties (splitDot path)

/-- The final step of `ClausewitzDocument.set`: overwrite the value of the
first property with the given key. -/
def setLast : List Property → String → Value → Bool × List Property
  | [], _, _ => (false, [])
  | p :: ps, k, v =>
      if p.key == k then (true, .mk p.key p.operator v :: ps)
      else
        let (b, ps') := setLast ps k v
        (b, p :: ps')

/-- The resolution loop of `ClausewitzDocument.set` (descends through the
first matching property of each non-final segment when it is a Block). -/
def setAux : List String → List Property → Value → Bool × List Property
  | [], props, _ => (false, props)
  | [k], props, v => setLast props k v
  | k :: ks, props, v =>
      match props.findIdx? (fun p => p.key == k) with
      | none => (false, props)
      | some i =>
          match props[i]? with
          | some p =>
              match p.value with
              | .block bs =>
                  let (b, bs') := setAux ks bs v
                  (b, props.set i (.mk p.key p.operator (.block bs')))
              | _ => (false, props)
          | none => (false, props)

/-- `ClausewitzDocument.set`: overwrite the first matching value in place;
returns whether a match was found, with the updated document. -/
def ClausewitzDocument.set (d : Document) (path : String) (v : Value) : Bool × Document :=
  let (b, ps) := setAux (splitDot path) d.properties v
  (b, ⟨ps⟩)

/-- Resolution of a (non-empty) parent path to a Block for `add`, applying
the mutation `f` to that Block's property list (mirrors `this.get(path)`
followed by in-place mutation through the returned reference). -/
def mutateBlockAux (f : List Property → List Property) :
    List String → List Property → Bool × List Property
  | [], props => (false, props)
  | [k], props =>
      match props.findIdx? (fun p => p.key == k) with
      | none => (false, props)
      | some i =>
          match props[i]? with
          | some p =>
              match p.value with
              | .block bs => (true, props.set i (.mk p.key p.operator (.block (f bs))))
              | _ => (false, props)
          | none => (false, props)
  | k :: ks, props =>
      match props.findIdx? (fun p => p.key == k) with
      | none => (false, props)
      | some i =>
          match props[i]? with
          | some p =>
              match p.value with
              | .block bs =>
                  let (b, bs') := mutateBlockAux f ks bs
                  (b, if b then props.set i (.mk p.key p.operator (.block bs')) else props)
              | _ => (false, props)
          | none => (false, props)

/-- `ClausewitzDocument.add`: append a new property to the Block at `path`
(the empty path is the document root); returns whether the parent resolved. -/
def ClausewitzDocument.add (d : Document) (path key : String) (value : Value)
    (operator : String) : Bool × Document :=
  if path == "" then (true, ⟨d.properties ++ [.mk key operator value]⟩)
  else
    let (b, ps) := mutateBlockAux (fun bs => bs ++ [.mk key operator value])
      (splitDot path) d.properties
    (b, ⟨ps⟩)

/-- The number of properties a `removeAll` at a resolved Block removes. -/
def removedCount (bs : List Property) (key : String) : Nat :=
  bs.length - (bs.filter (fun p => p.key != key)).length

/-- The count computed by a successful `removeAll` at `path`: looked up via
the same resolution as `get`. -/
def removeAllCountAux : List String → List Property → String → Nat
  | [], _, _ => 0
  | [k], props, key =>
      match props.find? (fun p => p.key == k) with
      | none => 0
      | some p =>
          match p.value with
          | .block bs => removedCount bs key
          | _ => 0
  | k :: ks, props, key =>
      match props.find? (fun p => p.key == k) with
      | none => 0
      | some p =>
          match p.value with
          | .block bs => removeAllCountAux ks bs key
          | _ => 0

/-- `ClausewitzDocument.removeAll`: remove every property with the given key
from the Block at `path` (empty path: the root), returning the count. -/
def ClausewitzDocument.removeAll (d : Document) (path key : String) : Nat × Document :=
  if path == "" then
    (removedCount d.properties key, ⟨d.properties.filter (fun p => p.key != key)⟩)
  else
    let (b, ps) := mutateBlockAux (fun bs => bs.filter (fun p => p.key != key))
      (splitDot path) d.properties
    (if b then removeAllCountAux (splitDot path) d.properties key else 0, ⟨ps⟩)

/-! ## The stringifier -/

/-- Mirror of `StringifyOptions` (all fields optional as in TypeScript). -/
structure StringifyOptions where
  indent : Option String
  spaces : Option Nat
  spaceBetweenTopLevel : Option Bool
deriving Repr

/-- `stringify` called with no options object. -/
def defaultOptions : StringifyOptions := ⟨none, none, none⟩

/-- The effective indentation unit
(`options.spaces !== undefined ? ' '.repeat(spaces) : (options.indent ?? '\t')`). -/
def resolveIndent (o : StringifyOptions) : List Char :=
  match o.spaces with
  | some n => List.replicate n ' '
  | none => (o.indent.getD "\t").data

/-- The test of the identifier regular expression
`^[a-zA-Z_@][a-zA-Z0-9_:.\[\]@]*$` (same classes as the tokenizer). -/
def isIdentText (cs : List Char) : Bool :=
  match cs with
  | [] => false
  | c :: rest => isIdentStartCh c && rest.all isIdentCh

/-- `value.replace(/"/g, '\\"')`. -/
def escapeQ (cs : List Char) : List Char :=
  cs.flatMap fun c => if c = '"' then ['\\', '"'] else [c]

/-- Rendering of a primitive value (the string/number/boolean cases of
`stringifyValue`; numbers via `String()`, i.e. `jsNumChars`). -/
def renderPrim : Prim → List Char
  | .str s => if isIdentText s.data then s.data else '"' :: (escapeQ s.data ++ ['"'])
  | .int n => jsNumChars n 0
  | .float m e => jsNumChars m e
  | .inf ng => if ng then "-Infinity".data else "Infinity".data
  | .bool b => if b then "yes".data else "no".data

/-- `isPrimitiveValue`. -/
def isPrimValue : Value → Bool
  | .prim _ => true
  | _ => false

/-- `join(sep)` on rendered pieces. -/
def joinSep (sep : List Char) : List (List Char) → List Char
  | [] => []
  | [x] => x
  | x :: xs => x ++ sep ++ joinSep sep xs

/-- `indent.repeat(n)`. -/
def repeatInd (ind : List Char) : Nat → List Char
  | 0 => []
  | n + 1 => ind ++ repeatInd ind n

mutual
/-- `stringifyValue` for Blocks and ValueArrays (primitives via
`renderPrim`): a ValueArray is always inline; a Block is `{ }` when empty,
inline when it has at most 3 properties, all primitive-valued, and
multi-line otherwise. -/
def renderValue (ind : List Char) (depth : Nat) : Value → List Char
  | .prim p => renderPrim p
  | .arr vs => '{' :: ' ' :: (joinSep [' '] (vs.map renderPrim) ++ [' ', '}'])
  | .block ps =>
      if ps.isEmpty then ['{', ' ', '}']
      else if ps.length ≤ 3 && ps.all (fun p => isPrimValue p.value) then
        '{' :: ' ' :: (renderPropsInline ind depth ps ++ [' ', '}'])
      else
        '{' :: '\n' :: (renderPropsMulti ind depth ps ++
          '\n' :: (repeatInd ind depth ++ ['}']))

/-- One `key operator value` rendering. -/
def renderProp (ind : List Char) (depth : Nat) : Property → List Char
  | .mk k o v => k.data ++ ' ' :: (o.data ++ ' ' :: renderValue ind depth v)

/-- The inline-Block property list, space-separated. -/
def renderPropsInline (ind : List Char) (depth : Nat) : List Property → List Char
  | [] => []
  | [p] => renderProp ind depth p
  | p :: ps => renderProp ind depth p ++ ' ' :: renderPropsInline ind depth ps

/-- The multi-line Block property list: one indented line per property,
newline-separated (depth one deeper than the enclosing block). -/
def renderPropsMulti (ind : List Char) (depth : Nat) : List Property → List Char
  | [] => []
  | [p] => repeatInd ind (depth + 1) ++ renderProp ind (depth + 1) p
  | p :: ps =>
      repeatInd ind (depth + 1) ++ renderProp ind (depth + 1) p ++
        '\n' :: renderPropsMulti ind depth ps
end

/-- The `stringify` top level: one `key operator value` line per root
property, with an optional blank line between (the `join('\n')` of the
`lines` array). -/
def stringify (doc : Document) (options : StringifyOptions) : String :=
  let ind := resolveIndent options
  let sbt := (options.spaceBetweenTopLevel.getD false)
  ⟨joinSep (if sbt then ['\n', '\n'] else ['\n'])
    (doc.properties.map (renderProp ind 0))⟩

/-! ## Supporting lemmas for the claims -/

theorem emptyOrWs_of_allWs {input : String} (h : ∀ ch ∈ input.data, isWsCh ch = true) :
    emptyOrWsInput input = true := by
  have hdrop : input.data.dropWhile isJsTrimCh = [] := by
    apply List.dropWhile_eq_nil_iff.mpr
    intro c hc
    have := h c hc
    simp [isJsTrimCh, this]
  simp [emptyOrWsInput, jsTrim, hdrop]

/-! ## The claims -/

/-- C5: for every input that is empty or consists only of whitespace,
`tokenize`, `tokenizeWithoutComments`, and `parse` all return a failure
result carrying the distinguished empty-input error message and no
errorLine/errorColumn fields. -/
theorem C5_empty_input_rejection (input : String)
    (h : ∀ ch ∈ input.data, isWsCh ch = true) :
    tokenize input = ⟨false, none, some "Input cannot be empty", none, none⟩ ∧
    tokenizeWithoutComments input = ⟨false, none, some "Input cannot be empty", none, none⟩ ∧
    parse input = ⟨false, none, some "Input cannot be empty", none, none⟩ := by
  have he := emptyOrWs_of_allWs h
  refine ⟨?_, ?_, ?_⟩
  · simp [tokenize, he]
  · simp [tokenizeWithoutComments, tokenize, he]
  · simp [parse, he]

/-- C5 witness: the empty input and a three-space input are both rejected
by all three entry points. -/
theorem C5_empty_input_rejection_witness :
    tokenize "" = ⟨false, none, some "Input cannot be empty", none, none⟩ ∧
    parse "" = ⟨false, none, some "Input cannot be empty", none, none⟩ ∧
    tokenize "   " = ⟨false, none, some "Input cannot be empty", none, none⟩ ∧
    tokenizeWithoutComments "   " = ⟨false, none, some "Input cannot be empty", none, none⟩ ∧
    parse "   " = ⟨false, none, some "Input cannot be empty", none, none⟩ := by
  have h1 := C5_empty_input_rejection "" (by decide)
  have h2 := C5_empty_input_rejection "   " (by decide)
  exact ⟨h1.1, h1.2.2, h2.1, h2.2.1, h2.2.2⟩

/-- C8: `value != 10` and `value <> 10` both tokenize to a NotEqual-kind
operator token, parse to a Property storing the exact lexical spelling that
appeared (`!=` resp. `<>`), and stringify emits that stored literal
verbatim, reproducing the original text. -/
theorem C8_notequal_spelling :
    (tokenize "value != 10").tokens =
      some [⟨.Identifier, "value", 1, 1⟩, ⟨.NotEqual, "!=", 1, 7⟩,
        ⟨.Number, "10", 1, 10⟩, ⟨.EOF, "", 1, 12⟩] ∧
    (parse "value != 10").document = some ⟨[.mk "value" "!=" (.prim (.int 10))]⟩ ∧
    stringify ⟨[.mk "value" "!=" (.prim (.int 10))]⟩ defaultOptions = "value != 10" ∧
    (tokenize "value <> 10").tokens =
      some [⟨.Identifier, "value", 1, 1⟩, ⟨.NotEqual, "<>", 1, 7⟩,
        ⟨.Number, "10", 1, 10⟩, ⟨.EOF, "", 1, 12⟩] ∧
    (parse "value <> 10").document = some ⟨[.mk "value" "<>" (.prim (.int 10))]⟩ ∧
    stringify ⟨[.mk "value" "<>" (.prim (.int 10))]⟩ defaultOptions = "value <> 10" :=
  ⟨rfl, rfl, rfl, rfl, rfl, rfl⟩

/-- C2: the Block-vs-ValueArray classification after a consumed `{` uses one
token of lookahead: it is ValueArray exactly when the first inner token is
Number or Boolean and its successor is not operator-kind; an immediately
following `}` gives an empty Block; an Identifier followed by an operator
(and every other case) gives a Block. -/
theorem C2_block_vs_valuearray :
    (∀ ts : List Token, isValueArray ts = true ↔
      ∃ first next rest, ts = first :: next :: rest ∧
        (first.type = .Number ∨ first.type = .Boolean) ∧
        isOperatorType next.type = false) ∧
    (∀ (fuel : Nat) (rb : Token) (rest : List Token), rb.type = .RightBrace →
      parseBlockOrArray (fuel + 2) (rb :: rest) = .ok (.block [], rest)) ∧
    (∀ (first next : Token) (rest : List Token), first.type = .Identifier →
      isOperatorType next.type = true →
      isValueArray (first :: next :: rest) = false) := by
  refine ⟨?_, ?_, ?_⟩
  · intro ts
    constructor
    · intro h
      match ts with
      | [] => simp [isValueArray] at h
      | [first] =>
          simp only [isValueArray] at h
          split at h
          · cases h
          · split at h
            · cases h
            · cases h
      | first :: next :: rest =>
          refine ⟨first, next, rest, rfl, ?_, ?_⟩ <;>
          · simp only [isValueArray] at h
            split at h
            · cases h
            · split at h
              · next h2 =>
                  simp only [Bool.or_eq_true, decide_eq_true_eq] at h2
                  simp only [Bool.not_eq_true'] at h
                  tauto
              · cases h
    · rintro ⟨first, next, rest, rfl, h1, h2⟩
      have hnb : first.type ≠ .RightBrace := by
        rcases h1 with h1 | h1 <;> simp [h1]
      simp only [isValueArray]
      rw [if_neg (by simpa using hnb)]
      rw [if_pos (by simpa using h1)]
      simp [h2]
  · intro fuel rb rest hrb
    have hva : isValueArray (rb :: rest) = false := by
      simp [isValueArray, hrb]
    show parseBlockOrArray (fuel + 1 + 1) (rb :: rest) = .ok (.block [], rest)
    unfold parseBlockOrArray
    rw [hva]
    simp only [Bool.false_eq_true, if_false]
    unfold parseProperties
    simp [hrb]
  · intro first next rest h1 h2
    simp [isValueArray, h1]

/-- C2 witness: concrete instances of each part of the classification
(`{ 5 6 }` capped by `}` is a ValueArray; `{ }` is an empty Block; an
Identifier followed by `=` is a Block). -/
theorem C2_block_vs_valuearray_witness :
    isValueArray [⟨.Number, "5", 1, 3⟩, ⟨.Number, "6", 1, 5⟩, ⟨.RightBrace, "\x7d", 1, 7⟩] = true ∧
    parseBlockOrArray 2 [⟨.RightBrace, "\x7d", 1, 3⟩] = .ok (.block [], []) ∧
    isValueArray [⟨.Identifier, "a", 1, 3⟩, ⟨.Equals, "=", 1, 5⟩, ⟨.Number, "1", 1, 7⟩] = false := by
  refine ⟨?_, ?_, ?_⟩
  · exact (C2_block_vs_valuearray.1 _).mpr
      ⟨_, _, _, rfl, Or.inl rfl, rfl⟩
  · exact C2_block_vs_valuearray.2.1 0 ⟨.RightBrace, "\x7d", 1, 3⟩ [] rfl
  · exact C2_block_vs_valuearray.2.2 _ _ _ rfl rfl

/-- C9 (implicit): a RightBrace reached at document top level stops
`parseProperties`, and `Parser.parse` then succeeds with only the properties
parsed so far — the brace and everything after it are silently ignored
(success result, no error fields); e.g. `a = 1 } b = 2` parses to the single
property `a = 1`. -/
theorem C9_stray_rbrace_truncation :
    (∀ (tokens : List Token) (props : List Property) (leftover : List Token),
      parseProperties (parserFuel (tokens.filter (fun t => t.type ≠ .Comment)))
          (tokens.filter (fun t => t.type ≠ .Comment)) = .ok (props, leftover) →
      runParse tokens = ⟨true, some ⟨props⟩, none, none, none⟩) ∧
    (∀ (fuel : Nat) (rb : Token) (junk : List Token), rb.type = .RightBrace →
      parseProperties (fuel + 1) (rb :: junk) = .ok ([], rb :: junk)) ∧
    parse "a = 1 \x7d b = 2" = ⟨true, some ⟨[.mk "a" "=" (.prim (.int 1))]⟩, none, none, none⟩ := by
  refine ⟨?_, ?_, rfl⟩
  · intro tokens props leftover h
    unfold runParse
    simp only [h]
  · intro fuel rb junk hrb
    unfold parseProperties
    simp [hrb]

/-- C9 witness: the general parts applied to the concrete token stream of
`a = 1 \x7d b = 2` (the stray brace and all later tokens are discarded). -/
theorem C9_stray_rbrace_truncation_witness :
    runParse [⟨.Identifier, "a", 1, 1⟩, ⟨.Equals, "=", 1, 3⟩, ⟨.Number, "1", 1, 5⟩,
        ⟨.RightBrace, "\x7d", 1, 7⟩, ⟨.Identifier, "b", 1, 9⟩, ⟨.Equals, "=", 1, 11⟩,
        ⟨.Number, "2", 1, 13⟩, ⟨.EOF, "", 1, 14⟩] =
      ⟨true, some ⟨[.mk "a" "=" (.prim (.int 1))]⟩, none, none, none⟩ ∧
    parseProperties 1 [⟨.RightBrace, "\x7d", 1, 7⟩, ⟨.Identifier, "junk", 1, 9⟩] =
      .ok ([], [⟨.RightBrace, "\x7d", 1, 7⟩, ⟨.Identifier, "junk", 1, 9⟩]) := by
  constructor
  · exact C9_stray_rbrace_truncation.1 _ _ _ rfl
  · exact C9_stray_rbrace_truncation.2.1 0 _ _ rfl

theorem splitDotAux_no_dot (cs : List Char) (acc : List Char)
    (h : ∀ c ∈ cs, c ≠ '.') : splitDotAux cs acc = [⟨acc.reverse ++ cs⟩] := by
  induction cs generalizing acc with
  | nil => simp [splitDotAux]
  | cons c rest ih =>
      have hc : c ≠ '.' := h c (by simp)
      simp only [splitDotAux, hc, if_false]
      rw [ih _ (fun x hx => h x (by simp [hx]))]
      simp

theorem splitDot_single (k : String) (h : ∀ c ∈ k.data, c ≠ '.') :
    splitDot k = [k] := by
  obtain ⟨cs⟩ := k
  rw [splitDot, splitDotAux_no_dot _ _ h]
  rfl

/-- C6: duplicate keys are preserved in textual order — `k = 1`, `k = 2`,
`k = 3` parse to three properties in order, `getAll` returns `[1, 2, 3]`
(at the root and inside a block), and in general `getAll` on a single-key
path is exactly the ordered filter of the container's properties, with no
deduplication or re-sorting. -/
theorem C6_duplicate_key_preservation :
    (parse "k = 1\nk = 2\nk = 3").document =
      some ⟨[.mk "k" "=" (.prim (.int 1)), .mk "k" "=" (.prim (.int 2)),
        .mk "k" "=" (.prim (.int 3))]⟩ ∧
    ClausewitzDocument.getAll ⟨[.mk "k" "=" (.prim (.int 1)), .mk "k" "=" (.prim (.int 2)),
        .mk "k" "=" (.prim (.int 3))]⟩ "k" =
      [.prim (.int 1), .prim (.int 2), .prim (.int 3)] ∧
    (parse "b = \x7b k = 1 k = 2 k = 3 \x7d").document =
      some ⟨[.mk "b" "=" (.block [.mk "k" "=" (.prim (.int 1)),
        .mk "k" "=" (.prim (.int 2)), .mk "k" "=" (.prim (.int 3))])]⟩ ∧
    ClausewitzDocument.getAll ⟨[.mk "b" "=" (.block [.mk "k" "=" (.prim (.int 1)),
        .mk "k" "=" (.prim (.int 2)), .mk "k" "=" (.prim (.int 3))])]⟩ "b.k" =
      [.prim (.int 1), .prim (.int 2), .prim (.int 3)] ∧
    (∀ (props : List Property) (k : String), (∀ c ∈ k.data, c ≠ '.') →
      ClausewitzDocument.getAll ⟨props⟩ k =
        (props.filter (fun p => p.key == k)).map (fun p => p.value)) := by
  refine ⟨rfl, rfl, rfl, rfl, ?_⟩
  intro props k h
  rw [ClausewitzDocument.getAll, splitDot_single k h]
  rfl

/-- C6 witness: the general `getAll` conjunct applied to a concrete
container with three duplicate keys. -/
theorem C6_duplicate_key_preservation_witness :
    ClausewitzDocument.getAll ⟨[.mk "k" "<" (.prim (.int 1)), .mk "j" "=" (.prim (.int 9)),
        .mk "k" "=" (.prim (.int 2))]⟩ "k" = [.prim (.int 1), .prim (.int 2)] := by
  rw [C6_duplicate_key_preservation.2.2.2.2 _ "k" (by decide)]
  rfl

/-- C7: a non-empty Block renders in the inline `\x7b k1 o1 v1 … \x7d` form
exactly when it has at most 3 properties, all primitive-valued; an empty
Block renders `\x7b \x7d`; a ValueArray always renders in the inline
space-joined form; 3 primitive properties render inline and 4 render
multi-line. -/
theorem C7_inline_block_threshold :
    (∀ (ind : List Char) (depth : Nat) (ps : List Property), ps ≠ [] →
      (renderValue ind depth (.block ps) =
          '{' :: ' ' :: (renderPropsInline ind depth ps ++ [' ', '}']) ↔
        (ps.length ≤ 3 ∧ ps.all (fun p => isPrimValue p.value) = true))) ∧
    (∀ (ind : List Char) (depth : Nat),
      renderValue ind depth (.block []) = ['{', ' ', '}']) ∧
    (∀ (ind : List Char) (depth : Nat) (vs : List Prim),
      renderValue ind depth (.arr vs) =
        '{' :: ' ' :: (joinSep [' '] (vs.map renderPrim) ++ [' ', '}'])) ∧
    stringify ⟨[.mk "b" "=" (.block [.mk "x" "=" (.prim (.int 10)),
        .mk "y" "=" (.prim (.int 20)), .mk "z" "=" (.prim (.int 30))])]⟩ defaultOptions =
      "b = \x7b x = 10 y = 20 z = 30 \x7d" ∧
    stringify ⟨[.mk "b" "=" (.block [.mk "x" "=" (.prim (.int 10)),
        .mk "y" "=" (.prim (.int 20)), .mk "z" "=" (.prim (.int 30)),
        .mk "w" "=" (.prim (.int 40))])]⟩ defaultOptions =
      "b = \x7b\n\tx = 10\n\ty = 20\n\tz = 30\n\tw = 40\n\x7d" := by
  refine ⟨?_, ?_, ?_, rfl, rfl⟩
  · intro ind depth ps hne
    have hemp : ps.isEmpty = false := by
      cases ps with
      | nil => exact absurd rfl hne
      | cons a b => rfl
    constructor
    · intro h
      by_cases hcond : (ps.length ≤ 3 && ps.all (fun p => isPrimValue p.value)) = true
      · simpa [Bool.and_eq_true, decide_eq_true_eq] using hcond
      · rw [renderValue, hemp] at h
        simp only [Bool.false_eq_true, if_false] at h
        rw [if_neg (by simpa using hcond)] at h
        cases h
    · intro ⟨h1, h2⟩
      rw [renderValue, hemp]
      simp only [Bool.false_eq_true, if_false]
      rw [if_pos (by simp [h1, h2])]
  · intro ind depth
    rw [renderValue]
    rfl
  · intro ind depth vs
    rw [renderValue]

/-- C7 witness: the iff applied to the concrete 3-property and 4-property
blocks (the former renders inline, the latter does not). -/
theorem C7_inline_block_threshold_witness :
    renderValue "\t".data 0 (.block [.mk "x" "=" (.prim (.int 10)),
        .mk "y" "=" (.prim (.int 20)), .mk "z" "=" (.prim (.int 30))]) =
      '{' :: ' ' :: (renderPropsInline "\t".data 0 [.mk "x" "=" (.prim (.int 10)),
        .mk "y" "=" (.prim (.int 20)), .mk "z" "=" (.prim (.int 30))] ++ [' ', '}']) ∧
    ¬(renderValue "\t".data 0 (.block [.mk "x" "=" (.prim (.int 10)),
        .mk "y" "=" (.prim (.int 20)), .mk "z" "=" (.prim (.int 30)),
        .mk "w" "=" (.prim (.int 40))]) =
      '{' :: ' ' :: (renderPropsInline "\t".data 0 [.mk "x" "=" (.prim (.int 10)),
        .mk "y" "=" (.prim (.int 20)), .mk "z" "=" (.prim (.int 30)),
        .mk "w" "=" (.prim (.int 40))] ++ [' ', '}'])) := by
  constructor
  · exact (C7_inline_block_threshold.1 _ _ _ (by simp)).mpr ⟨by simp, by decide⟩
  · intro h
    have := (C7_inline_block_threshold.1 _ _ _ (by simp)).mp h
    simp at this

/-! ## Digit arithmetic lemmas -/

theorem takeWhile_all_append {p : Char → Bool} {l1 : List Char} (l2 : List Char)
    (h : l1.all p = true) : (l1 ++ l2).takeWhile p = l1 ++ l2.takeWhile p := by
  induction l1 with
  | nil => simp
  | cons c rest ih =>
      simp only [List.all_cons, Bool.and_eq_true] at h
      simp [List.takeWhile_cons_of_pos h.1, ih h.2]

theorem dropWhile_all_append {p : Char → Bool} {l1 : List Char} (l2 : List Char)
    (h : l1.all p = true) : (l1 ++ l2).dropWhile p = l2.dropWhile p := by
  induction l1 with
  | nil => simp
  | cons c rest ih =>
      simp only [List.all_cons, Bool.and_eq_true] at h
      simp [List.dropWhile_cons_of_pos h.1, ih h.2]

theorem digitsToNat_foldl (acc : Nat) (ds : List Char) :
    ds.foldl (fun a c => a * 10 + charDigit c) acc =
      acc * 10 ^ ds.length + digitsToNat ds := by
  induction ds generalizing acc with
  | nil => simp [digitsToNat]
  | cons c rest ih =>
      simp only [List.foldl_cons, digitsToNat]
      rw [ih (acc * 10 + charDigit c), ih (0 * 10 + charDigit c)]
      ring_nf
      simp [List.length_cons, pow_succ]
      ring

theorem digitsToNat_cons (c : Char) (ds : List Char) :
    digitsToNat (c :: ds) = charDigit c * 10 ^ ds.length + digitsToNat ds := by
  simp only [digitsToNat, List.foldl_cons]
  rw [digitsToNat_foldl]
  simp [digitsToNat]

theorem digitsToNat_append (a b : List Char) :
    digitsToNat (a ++ b) = digitsToNat a * 10 ^ b.length + digitsToNat b := by
  simp only [digitsToNat, List.foldl_append]
  rw [digitsToNat_foldl]
  rfl

theorem charDigit_lt {c : Char} (h : isDigitCh c = true) : charDigit c < 10 := by
  simp only [isDigitCh, Bool.and_eq_true, decide_eq_true_eq] at h
  obtain ⟨h1, h2⟩ := h
  simp only [charDigit]
  have h3 := Char.le_def.mp h2
  have h4 : c.val.toNat ≤ ('9').val.toNat := by exact_mod_cast h3
  have h5 : ('9').val.toNat = 57 := rfl
  simp only [Char.toNat] at *
  omega

theorem digitsToNat_lt {ds : List Char} (h : ds.all isDigitCh = true) :
    digitsToNat ds < 10 ^ ds.length := by
  induction ds with
  | nil => simp [digitsToNat]
  | cons c rest ih =>
      simp only [List.all_cons, Bool.and_eq_true] at h
      rw [digitsToNat_cons]
      have h1 := charDigit_lt h.1
      have h2 := ih h.2
      simp only [List.length_cons, pow_succ]
      calc charDigit c * 10 ^ rest.length + digitsToNat rest
          < charDigit c * 10 ^ rest.length + 10 ^ rest.length := by omega
        _ = (charDigit c + 1) * 10 ^ rest.length := by ring
        _ ≤ 10 ^ rest.length * 10 := by
            have : charDigit c + 1 ≤ 10 := by omega
            calc (charDigit c + 1) * 10 ^ rest.length ≤ 10 * 10 ^ rest.length :=
                Nat.mul_le_mul_right _ this
              _ = 10 ^ rest.length * 10 := by ring

theorem charDigit_digitChar {d : Nat} (h : d < 10) : charDigit (digitChar d) = d := by
  interval_cases d <;> rfl

theorem digitChar_isDigit {d : Nat} (h : d < 10) : isDigitCh (digitChar d) = true := by
  interval_cases d <;> rfl

theorem natToDigitsAux_congr : ∀ (f g n : Nat), n < f → n < g →
    natToDigitsAux f n = natToDigitsAux g n := by
  intro f
  induction f with
  | zero => intro g n h; omega
  | succ f ih =>
      intro g n hf hg
      cases g with
      | zero => omega
      | succ g =>
          simp only [natToDigitsAux]
          by_cases h10 : n < 10
          · simp [h10]
          · rw [if_neg h10, if_neg h10]
            have hdiv : n / 10 < n := Nat.div_lt_self (by omega) (by omega)
            rw [ih g (n / 10) (by omega) (by omega)]

theorem natToDigits_unfold (n : Nat) :
    natToDigits n = if n < 10 then [digitChar n] else natToDigits (n / 10) ++ [digitChar (n % 10)] := by
  by_cases h10 : n < 10
  · simp [natToDigits, natToDigitsAux, h10]
  · rw [natToDigits, natToDigits, natToDigitsAux, if_neg h10, if_neg h10]
    have hdiv : n / 10 < n := Nat.div_lt_self (by omega) (by omega)
    rw [natToDigitsAux_congr n (n / 10 + 1) (n / 10) (by omega) (by omega)]

theorem natToDigits_all_digits (n : Nat) : (natToDigits n).all isDigitCh = true := by
  induction n using Nat.strong_induction_on with
  | _ n ih =>
      rw [natToDigits_unfold]
      by_cases h10 : n < 10
      · simp [h10, digitChar_isDigit]
      · rw [if_neg h10]
        have hdiv : n / 10 < n := Nat.div_lt_self (by omega) (by omega)
        have hmod : n % 10 < 10 := Nat.mod_lt _ (by omega)
        simp [List.all_append, ih _ hdiv, digitChar_isDigit hmod]

theorem natToDigits_ne_nil (n : Nat) : natToDigits n ≠ [] := by
  rw [natToDigits_unfold]
  by_cases h10 : n < 10 <;> simp [h10]

theorem digitsToNat_natToDigits (n : Nat) : digitsToNat (natToDigits n) = n := by
  induction n using Nat.strong_induction_on with
  | _ n ih =>
      rw [natToDigits_unfold]
      by_cases h10 : n < 10
      · simp only [h10, if_true]
        rw [digitsToNat_cons]
        simp [digitsToNat, charDigit_digitChar h10]
      · rw [if_neg h10]
        have hdiv : n / 10 < n := Nat.div_lt_self (by omega) (by omega)
        have hmod : n % 10 < 10 := Nat.mod_lt _ (by omega)
        rw [digitsToNat_append, ih _ hdiv]
        simp only [List.length_cons, List.length_nil, pow_one, zero_add, pow_zero]
        rw [digitsToNat_cons]
        simp only [digitsToNat, List.foldl_nil, List.length_nil, pow_zero, mul_one]
        rw [charDigit_digitChar hmod]
        omega

/-! ## Exact-decimal value lemmas -/

/-- The rational value of a mantissa/exponent pair. -/
def pairQ (p : Int × Nat) : ℚ := (p.1 : ℚ) / 10 ^ p.2

/-- The rational value of a numeric primitive. -/
def primQ : Prim → ℚ
  | .int n => n
  | .float m e => (m : ℚ) / 10 ^ e
  | _ => 0

theorem normPairAux_spec (e : Nat) : ∀ m : Int,
    pairQ (normPairAux m e) = pairQ (m, e) ∧
    ((normPairAux m e).2 = 0 ∨ ¬(normPairAux m e).1 % 10 = 0) := by
  induction e with
  | zero => intro m; simp [normPairAux]
  | succ e ih =>
      intro m
      unfold normPairAux
      by_cases h : m % 10 = 0
      · rw [if_pos h]
        obtain ⟨hv, hn⟩ := ih (m / 10)
        refine ⟨?_, hn⟩
        rw [hv]
        have hdvd : (10 : Int) ∣ m := Int.dvd_of_emod_eq_zero h
        have hm : m / 10 * 10 = m := Int.ediv_mul_cancel hdvd
        simp only [pairQ]
        rw [pow_succ]
        rw [div_mul_eq_div_div_swap]
        congr 1
        rw [eq_div_iff (by norm_num)]
        exact_mod_cast hm
      · rw [if_neg h]
        exact ⟨rfl, .inr h⟩

theorem den_div_pow_eq_one_iff (m : Int) (e : Nat) :
    (((m : ℚ) / 10 ^ e).den = 1) ↔ ((10 : Int) ^ e ∣ m) := by
  have h10 : (10 : ℚ) ^ e ≠ 0 := by positivity
  constructor
  · intro h
    set q : ℚ := (m : ℚ) / 10 ^ e with hq
    have hnum : (q.num : ℚ) = q := Rat.den_eq_one_iff q |>.mp h
    refine ⟨q.num, ?_⟩
    have : (m : ℚ) = q * 10 ^ e := by
      rw [hq]
      field_simp
    rw [← hnum] at this
    have : (m : ℚ) = ((10 ^ e * q.num : Int) : ℚ) := by
      push_cast
      rw [this]
      ring
    exact_mod_cast this
  · rintro ⟨k, rfl⟩
    have : ((10 ^ e * k : Int) : ℚ) / 10 ^ e = (k : ℚ) := by
      push_cast
      field_simp
    rw [this]
    exact Rat.den_intCast k

theorem pairQ_den_eq_one_iff {m : Int} {e : Nat} (h : e = 0 ∨ ¬m % 10 = 0) :
    (pairQ (m, e)).den = 1 ↔ e = 0 := by
  rcases h with rfl | h
  · simp [pairQ, Rat.den_intCast]
  · constructor
    · intro hden
      by_contra hne
      have hdvd := (den_div_pow_eq_one_iff m e).mp hden
      have h10 : (10 : Int) ∣ 10 ^ e := dvd_pow_self 10 hne
      exact h (Int.emod_eq_zero_of_dvd (h10.trans hdvd))
    · rintro rfl
      simp [pairQ, Rat.den_intCast]

theorem takeWhile_all_eq {p : Char → Bool} {l : List Char} (h : l.all p = true) :
    l.takeWhile p = l := by
  have := @takeWhile_all_append p l [] h
  simpa using this

theorem dropWhile_all_eq {p : Char → Bool} {l : List Char} (h : l.all p = true) :
    l.dropWhile p = [] := by
  have := @dropWhile_all_append p l [] h
  simpa using this

/-- The shape of every tokenizer Number literal: optional minus sign,
integer digits, optional dot followed by fraction digits. -/
def numLitText (neg : Bool) (I F : List Char) : List Char :=
  (if neg then ['-'] else []) ++ I ++ (if F.isEmpty then [] else '.' :: F)

theorem numLit_scanSign (neg : Bool) (I F : List Char) (hI : I ≠ [])
    (hId : I.all isDigitCh = true) :
    scanSign (numLitText neg I F) =
      ((if neg then ['-'] else []), I ++ (if F.isEmpty then [] else '.' :: F)) := by
  cases neg with
  | true =>
      simp only [numLitText, if_true, List.cons_append, List.nil_append, List.append_assoc]
      rfl
  | false =>
      simp only [numLitText, if_false, List.nil_append]
      apply scanSign_not_minus
      cases I with
      | nil => exact absurd rfl hI
      | cons c rest =>
          simp only [List.all_cons, Bool.and_eq_true] at hId
          intro hc
          simp only [Bool.false_eq_true, if_false, List.nil_append, List.cons_append,
            List.head?_cons, Option.some.injEq] at hc
          exact isDigitCh_ne_minus hId.1 hc

theorem numLit_scanDigits (I F : List Char)
    (hId : I.all isDigitCh = true) :
    scanDigits (I ++ (if F.isEmpty then [] else '.' :: F)) =
      (I, if F.isEmpty then [] else '.' :: F) := by
  cases F with
  | nil =>
      simp only [scanDigits, List.isEmpty_nil, if_true, List.append_nil]
      rw [takeWhile_all_eq hId, dropWhile_all_eq hId]
  | cons a b =>
      simp only [scanDigits, List.isEmpty_cons, Bool.false_eq_true, if_false]
      rw [takeWhile_all_append _ hId, dropWhile_all_append _ hId]
      rw [List.takeWhile_cons_of_neg (by decide : ¬isDigitCh '.' = true)]
      rw [List.dropWhile_cons_of_neg (by decide : ¬isDigitCh '.' = true)]
      simp

theorem numLit_parseFloatDec (neg : Bool) (I F : List Char) (hI : I ≠ [])
    (hId : I.all isDigitCh = true) (hFd : F.all isDigitCh = true) :
    parseFloatDec ⟨numLitText neg I F⟩ =
      ((if neg then -((digitsToNat I * 10 ^ F.length + digitsToNat F : Nat) : Int)
        else ((digitsToNat I * 10 ^ F.length + digitsToNat F : Nat) : Int)), F.length) := by
  have hs := numLit_scanSign neg I F hI hId
  have hd := numLit_scanDigits I F hId
  simp only [parseFloatDec, hs, hd]
  cases neg with
  | false =>
      cases F with
      | nil => simp [digitsToNat]
      | cons a b => simp [takeWhile_all_eq hFd]
  | true =>
      cases F with
      | nil => simp [digitsToNat]
      | cons a b => simp [takeWhile_all_eq hFd]

theorem numLit_parseIntM (neg : Bool) (I F : List Char) (hI : I ≠ [])
    (hId : I.all isDigitCh = true) :
    parseIntM ⟨numLitText neg I F⟩ =
      (if neg then -((digitsToNat I : Nat) : Int) else ((digitsToNat I : Nat) : Int)) := by
  have hs := numLit_scanSign neg I F hI hId
  simp only [parseIntM, hs]
  cases neg with
  | false =>
      cases F with
      | nil => simp [takeWhile_all_eq hId]
      | cons a b =>
          simp only [List.isEmpty_cons, Bool.false_eq_true, if_false]
          rw [takeWhile_all_append _ hId, List.takeWhile_cons_of_neg (by decide : ¬isDigitCh '.' = true)]
          simp
  | true =>
      cases F with
      | nil => simp [takeWhile_all_eq hId]
      | cons a b =>
          simp only [List.isEmpty_cons, Bool.false_eq_true, if_false]
          rw [takeWhile_all_append _ hId, List.takeWhile_cons_of_neg (by decide : ¬isDigitCh '.' = true)]
          simp

/-- Evaluation of `numberValue` on a numeric literal: `parseFloat` rounds
the exact decimal value of the whole literal to a double, `parseInt` rounds
the value of the integer-digit prefix; the result is an integer exactly when
the rounded double has scale zero. -/
theorem numberValue_eval (neg : Bool) (I F : List Char) (hI : I ≠ [])
    (hId : I.all isDigitCh = true) (hFd : F.all isDigitCh = true) :
    numberValue ⟨numLitText neg I F⟩ =
      (match roundDbl
          (if neg then -((digitsToNat I * 10 ^ F.length + digitsToNat F : Nat) : Int)
           else ((digitsToNat I * 10 ^ F.length + digitsToNat F : Nat) : Int)) F.length with
       | .inf ng => Prim.inf ng
       | .fin m e =>
           if e = 0 then
             (match roundDbl (if neg then -((digitsToNat I : Nat) : Int)
                 else ((digitsToNat I : Nat) : Int)) 0 with
              | .inf ng => Prim.inf ng
              | .fin m' _ => Prim.int m')
           else Prim.float m e) := by
  have hpf := numLit_parseFloatDec neg I F hI hId hFd
  have hpi := numLit_parseIntM neg I F hI hId
  unfold numberValue
  rw [hpf, hpi]

/-- C3, amended: a Number token's literal text is converted with JavaScript
double semantics — `parseFloat` rounds the exact decimal value of the
literal to the nearest binary64 double (ties to even, overflow to
infinity), the value is represented as an integer exactly when that rounded
double has no fractional part (in which case the stored integer is the
rounded `parseInt` of the integer-digit prefix), else as a float equal to
the rounded double; the three examples behave as claimed: `x = 1.0` gives
integer `1`, `odds = 1.75` gives the float `1.75`, `priority = 0` gives
integer `0`. -/
theorem C3_numeric_normalization_amended :
    (∀ (neg : Bool) (I F : List Char), I ≠ [] → I.all isDigitCh = true →
      F.all isDigitCh = true →
      numberValue ⟨numLitText neg I F⟩ =
        (match roundDbl
            (if neg then -((digitsToNat I * 10 ^ F.length + digitsToNat F : Nat) : Int)
             else ((digitsToNat I * 10 ^ F.length + digitsToNat F : Nat) : Int)) F.length with
         | .inf ng => Prim.inf ng
         | .fin m e =>
             if e = 0 then
               (match roundDbl (if neg then -((digitsToNat I : Nat) : Int)
                   else ((digitsToNat I : Nat) : Int)) 0 with
                | .inf ng => Prim.inf ng
                | .fin m' _ => Prim.int m')
             else Prim.float m e)) ∧
    (parse "x = 1.0").document = some ⟨[.mk "x" "=" (.prim (.int 1))]⟩ ∧
    (parse "odds = 1.75").document = some ⟨[.mk "odds" "=" (.prim (.float 175 2))]⟩ ∧
    primQ (.float 175 2) = 175 / 100 ∧
    (parse "priority = 0").document = some ⟨[.mk "priority" "=" (.prim (.int 0))]⟩ :=
  ⟨numberValue_eval, rfl, rfl, by norm_num [primQ], rfl⟩

/-- C3 witness: the amended statement applied at the literal `1.75`, whose
double rounds to itself, so the result is the float `1.75`. -/
theorem C3_numeric_normalization_amended_witness :
    numberValue ⟨numLitText false ['1'] ['7', '5']⟩ =
      (match roundDbl
          (if false then -((digitsToNat ['1'] * 10 ^ (['7', '5'] : List Char).length
              + digitsToNat ['7', '5'] : Nat) : Int)
           else ((digitsToNat ['1'] * 10 ^ (['7', '5'] : List Char).length
              + digitsToNat ['7', '5'] : Nat) : Int)) (['7', '5'] : List Char).length with
       | .inf ng => Prim.inf ng
       | .fin m e =>
           if e = 0 then
             (match roundDbl (if false then -((digitsToNat ['1'] : Nat) : Int)
                 else ((digitsToNat ['1'] : Nat) : Int)) 0 with
              | .inf ng => Prim.inf ng
              | .fin m' _ => Prim.int m')
           else Prim.float m e) ∧
    numberValue ⟨numLitText false ['1'] ['7', '5']⟩ = .float 175 2 :=
  ⟨C3_numeric_normalization_amended.1 false ['1'] ['7', '5']
      (by decide) (by decide) (by decide),
   rfl⟩

set_option maxRecDepth 16000 in
/-- C3 counterexample to the original claim: the conversion rounds to
binary64 before the integer test, so `x = 0.9999999999999999999` — whose
mathematical value has a fractional part — is stored as the integer `0`
(`parseFloat` rounds to exactly `1`, `Number.isInteger` holds, and
`parseInt` reads `0`), and `big = 9007199254740993` is stored as
`9007199254740992`, not the literal's value. -/
theorem C3_counterexample :
    (parse "x = 0.9999999999999999999").document
      = some ⟨[.mk "x" "=" (.prim (.int 0))]⟩ ∧
    (0 : ℚ) < pairQ (parseFloatDec "0.9999999999999999999") ∧
    pairQ (parseFloatDec "0.9999999999999999999") < 1 ∧
    (parse "big = 9007199254740993").document
      = some ⟨[.mk "big" "=" (.prim (.int 9007199254740992))]⟩ := by
  have hpf : parseFloatDec "0.9999999999999999999" = (9999999999999999999, 19) := rfl
  refine ⟨rfl, ?_, ?_, rfl⟩
  · rw [hpf]
    show (0 : ℚ) < (9999999999999999999 : ℚ) / 10 ^ 19
    positivity
  · rw [hpf]
    show (9999999999999999999 : ℚ) / 10 ^ 19 < 1
    rw [div_lt_one (by positivity)]
    norm_num

/-! ## Position coherence of the tokenizer (for C4) -/

theorem advancePos_append (a b : List Char) (l c : Nat) :
    advancePos (a ++ b) l c = advancePos b (advancePos a l c).1 (advancePos a l c).2 := by
  simp only [advancePos, List.foldl_append]

theorem advancePos_cons (ch : Char) (cs : List Char) (l c : Nat) :
    advancePos (ch :: cs) l c =
      (if ch = '\n' then advancePos cs (l + 1) 1 else advancePos cs l (c + 1)) := by
  by_cases h : ch = '\n' <;> simp [advancePos, stepPos, h]

theorem advancePos_no_newline (cs : List Char) (h : ∀ ch ∈ cs, ch ≠ '\n') :
    ∀ l c, advancePos cs l c = (l, c + cs.length) := by
  induction cs with
  | nil => intro l c; simp [advancePos]
  | cons ch rest ih =>
      intro l c
      rw [advancePos_cons, if_neg (h ch (by simp))]
      rw [ih (fun x hx => h x (by simp [hx]))]
      simp only [List.length_cons]
      congr 1
      omega

theorem commentBody_no_newline (cs : List Char) :
    ∀ ch ∈ (commentBody cs).1, ch ≠ '\n' := by
  induction cs with
  | nil => simp [commentBody]
  | cons c rest ih =>
      by_cases h : c = '\n'
      · simp [commentBody, h]
      · simp only [commentBody, h, if_false]
        rcases hcb : commentBody rest with ⟨v, r⟩
        rw [hcb] at ih
        intro ch hch
        simp only [] at hch
        rcases List.mem_cons.mp hch with rfl | hm
        · exact h
        · exact ih ch hm

theorem scanStringBody_decomp {cs : List Char} {l c : Nat} {v r : List Char} {l' c' : Nat}
    (h : scanStringBody cs l c = some (v, r, l', c')) :
    ∃ consumed, cs = consumed ++ r ∧ advancePos consumed l c = (l', c') := by
  induction cs, l, c using scanStringBody.induct generalizing v r l' c' with
  | case1 => simp [scanStringBody] at h
  | case2 rest l c =>
      simp only [scanStringBody, Option.some.injEq] at h
      cases h
      refine ⟨['"'], rfl, ?_⟩
      simp [advancePos, stepPos]
  | case3 rest l c ih =>
      simp only [scanStringBody, Option.map_eq_some'] at h
      obtain ⟨⟨v0, r0, l0, c0⟩, h0, h1⟩ := h
      cases h1
      obtain ⟨consumed, hc, hp⟩ := ih h0
      refine ⟨'\n' :: consumed, by simp [hc], ?_⟩
      rw [advancePos_cons, if_pos rfl, hp]
  | case4 rest l c ih =>
      simp only [scanStringBody, Option.map_eq_some'] at h
      obtain ⟨⟨v0, r0, l0, c0⟩, h0, h1⟩ := h
      cases h1
      obtain ⟨consumed, hc, hp⟩ := ih h0
      refine ⟨'\\' :: '"' :: consumed, by simp [hc], ?_⟩
      rw [advancePos_cons, if_neg (by decide), advancePos_cons, if_neg (by decide), hp]
  | case5 ch rest l c hne1 hne2 hne3 ih =>
      simp only [scanStringBody, Option.map_eq_some'] at h
      obtain ⟨⟨v0, r0, l0, c0⟩, h0, h1⟩ := h
      cases h1
      obtain ⟨consumed, hc, hp⟩ := ih h0
      have hchn : ch ≠ '\n' := by
        intro hx
        subst hx
        exact hne2 rfl
      refine ⟨ch :: consumed, by simp [hc], ?_⟩
      rw [advancePos_cons, if_neg hchn, hp]

theorem skipWs_decomp (cs : List Char) : ∀ l c,
    ∃ ws, cs = ws ++ (skipWs cs l c).1 ∧
      advancePos ws l c = ((skipWs cs l c).2.1, (skipWs cs l c).2.2) := by
  induction cs with
  | nil => intro l c; exact ⟨[], rfl, rfl⟩
  | cons ch rest ih =>
      intro l c
      by_cases hw : isWsCh ch = true
      · by_cases hn : ch = '\n'
        · subst hn
          have hskip : skipWs ('\n' :: rest) l c = skipWs rest (l + 1) 1 := by
            simp [skipWs, hw]
          obtain ⟨ws, hws, hp⟩ := ih (l + 1) 1
          refine ⟨'\n' :: ws, ?_, ?_⟩
          · rw [hskip, List.cons_append]
            exact congrArg _ hws
          · rw [hskip, advancePos_cons, if_pos rfl, hp]
        · have hskip : skipWs (ch :: rest) l c = skipWs rest l (c + 1) := by
            simp [skipWs, hw, hn]
          obtain ⟨ws, hws, hp⟩ := ih l (c + 1)
          refine ⟨ch :: ws, ?_, ?_⟩
          · rw [hskip, List.cons_append]
            exact congrArg _ hws
          · rw [hskip, advancePos_cons, if_neg hn, hp]
      · have hskip : skipWs (ch :: rest) l c = (ch :: rest, l, c) := by
          simp [skipWs, hw]
        rw [hskip]
        exact ⟨[], rfl, rfl⟩

theorem mem_takeWhile_pred {p : Char → Bool} {l : List Char} {x : Char}
    (h : x ∈ l.takeWhile p) : p x = true := by
  induction l with
  | nil => simp at h
  | cons c rest ih =>
      by_cases hc : p c
      · rw [List.takeWhile_cons_of_pos hc] at h
        rcases List.mem_cons.mp h with rfl | hm
        · exact hc
        · exact ih hm
      · rw [List.takeWhile_cons_of_neg hc] at h
        simp at h

theorem isDigitCh_ne_newline {c : Char} (h : isDigitCh c = true) : c ≠ '\n' := by
  rintro rfl
  simp [isDigitCh] at h

theorem isIdentCh_ne_newline {c : Char} (h : isIdentCh c = true) : c ≠ '\n' := by
  rintro rfl
  simp [isIdentCh, isAlphaCh, isDigitCh] at h

theorem scanNumberText_no_newline (cs : List Char) :
    ∀ ch ∈ (scanNumberText cs).1, ch ≠ '\n' := by
  unfold scanNumberText
  rcases hs : scanSign cs with ⟨sgn, cs1⟩
  rcases hd : scanDigits cs1 with ⟨ip, cs2⟩
  rcases hf : scanFrac cs2 with ⟨fp, cs3⟩
  simp only [hs, hd, hf]
  intro ch hch
  simp only [List.mem_append] at hch
  rcases hch with (hch | hch) | hch
  · have hsgn : sgn = [] ∨ sgn = ['-'] := by
      unfold scanSign at hs
      split at hs
      · cases hs; exact .inr rfl
      · cases hs; exact .inl rfl
    rcases hsgn with rfl | rfl
    · simp at hch
    · simp only [List.mem_singleton] at hch
      subst hch
      decide
  · have hip : ip = cs1.takeWhile isDigitCh := by
      simp only [scanDigits] at hd
      cases hd
      rfl
    exact isDigitCh_ne_newline (mem_takeWhile_pred (hip ▸ hch))
  · have hfp : fp = [] ∨ ∃ d rest, fp = '.' :: (d :: rest).takeWhile isDigitCh := by
      unfold scanFrac at hf
      split at hf
      · next d rest =>
          split at hf
          · simp only [scanDigits] at hf
            cases hf
            exact .inr ⟨d, rest, rfl⟩
          · cases hf; exact .inl rfl
      · cases hf; exact .inl rfl
    rcases hfp with rfl | ⟨d, rest, rfl⟩
    · simp at hch
    · rcases List.mem_cons.mp hch with rfl | hm
      · decide
      · exact isDigitCh_ne_newline (mem_takeWhile_pred hm)

theorem scanToken_pos {cs : List Char} {l c : Nat} {t : Token} {r : List Char} {l' c' : Nat}
    (h : scanToken cs l c = .ok (t, r, l', c')) :
    ∃ consumed, cs = consumed ++ r ∧ advancePos consumed l c = (l', c') := by
  match cs with
  | [] => simp [scanToken] at h
  | ch :: rest =>
      unfold scanToken at h
      by_cases h1 : ch = '#'
      · subst h1
        rcases hcb : commentBody rest with ⟨v, r0⟩
        simp only [if_true, hcb] at h
        cases h
        have hap := commentBody_append rest
        rw [hcb] at hap
        simp only [] at hap
        refine ⟨'#' :: v, by rw [← hap]; simp, ?_⟩
        rw [advancePos_cons, if_neg (by decide)]
        have hnn : ∀ x ∈ v, x ≠ '\n' := by
          have := commentBody_no_newline rest
          rw [hcb] at this
          exact this
        rw [advancePos_no_newline v hnn]
      · simp only [h1, if_false] at h
        by_cases h2 : ch = '"'
        · subst h2
          simp only [if_true] at h
          rcases hsb : scanStringBody rest l (c + 1) with _ | ⟨v, r0, l0, c0⟩ <;>
            simp only [hsb] at h
          · cases h
          · cases h
            obtain ⟨consumed, hc0, hp0⟩ := scanStringBody_decomp hsb
            refine ⟨'"' :: consumed, by rw [hc0]; simp, ?_⟩
            rw [advancePos_cons, if_neg (by decide), hp0]
        · simp only [h2, if_false] at h
          split at h
          · rename_i h3
            rcases hnt : scanNumberText (ch :: rest) with ⟨txt, r0⟩
            simp only [hnt] at h
            cases h
            have happ := scanNumberText_append (ch :: rest)
            rw [hnt] at happ
            simp only [] at happ
            refine ⟨txt, by rw [← happ], ?_⟩
            have hnn : ∀ x ∈ txt, x ≠ '\n' := by
              have := scanNumberText_no_newline (ch :: rest)
              rw [hnt] at this
              exact this
            rw [advancePos_no_newline txt hnn]
          · rename_i h3
            by_cases h4 : ch = '='
            · subst h4
              simp only [if_true] at h
              cases h
              exact ⟨['='], rfl, rfl⟩
            simp only [h4, if_false] at h
            by_cases h5 : ch = '{'
            · subst h5
              simp only [if_true] at h
              cases h
              exact ⟨['{'], rfl, rfl⟩
            simp only [h5, if_false] at h
            by_cases h6 : ch = '\x7d'
            · subst h6
              simp only [if_true] at h
              cases h
              exact ⟨['\x7d'], rfl, rfl⟩
            simp only [h6, if_false] at h
            by_cases h7 : ch = '<'
            · subst h7
              simp only [if_true] at h
              split at h
              · cases h
                exact ⟨['<', '='], rfl, rfl⟩
              · cases h
                exact ⟨['<', '>'], rfl, rfl⟩
              · cases h
                exact ⟨['<'], rfl, rfl⟩
            simp only [h7, if_false] at h
            by_cases h8 : ch = '>'
            · subst h8
              simp only [if_true] at h
              split at h
              · cases h
                exact ⟨['>', '='], rfl, rfl⟩
              · cases h
                exact ⟨['>'], rfl, rfl⟩
            simp only [h8, if_false] at h
            split at h
            · rename_i h9
              simp only [Bool.and_eq_true, decide_eq_true_eq] at h9
              obtain ⟨rfl, h9b⟩ := h9
              rcases rest with _ | ⟨c2, t2⟩
              · simp at h9b
              · by_cases hc2 : c2 = '='
                · subst hc2
                  cases h
                  exact ⟨['!', '='], rfl, rfl⟩
                · exfalso
                  split at h9b
                  · next heq =>
                      exact hc2 (by injection heq)
                  · exact absurd h9b (by simp)
            · by_cases h10 : isIdentStartCh ch = true
              · rw [if_pos h10] at h
                have hap : (ch :: rest).takeWhile isIdentCh ++ (ch :: rest).dropWhile isIdentCh
                    = ch :: rest := List.takeWhile_append_dropWhile isIdentCh (ch :: rest)
                split at h <;>
                  (cases h
                   refine ⟨(ch :: rest).takeWhile isIdentCh, hap.symm, ?_⟩
                   rw [advancePos_no_newline _
                     (fun x hx => isIdentCh_ne_newline (mem_takeWhile_pred hx))])
              · rw [if_neg h10] at h
                cases h

theorem scanToken_err_unterminated {cs : List Char} {l c : Nat} {e : TokErr} {L C : Nat}
    (h : scanToken cs l c = .error e) (hk : e.kind = .unterminatedString L C) :
    ∃ rest, cs = '"' :: rest ∧ L = l ∧ C = c ∧
      (e.line, e.column) = advancePos rest l (c + 1) := by
  match cs with
  | [] =>
      simp only [scanToken] at h
      cases h
      simp [TokErrKind.msg] at hk
  | ch :: rest =>
      unfold scanToken at h
      by_cases h1 : ch = '#'
      · rcases hcb : commentBody rest with ⟨v, r0⟩
        simp only [h1, if_true, hcb] at h
        cases h
      · simp only [h1, if_false] at h
        by_cases h2 : ch = '"'
        · subst h2
          simp only [if_true] at h
          rcases hsb : scanStringBody rest l (c + 1) with _ | ⟨v, r0, l0, c0⟩ <;>
            simp only [hsb] at h
          · cases h
            simp only [] at hk
            injection hk with hL hC
            exact ⟨rest, rfl, hL.symm, hC.symm, rfl⟩
          · cases h
        · simp only [h2, if_false] at h
          split at h
          · rcases hnt : scanNumberText (ch :: rest) with ⟨txt, r0⟩
            simp only [hnt] at h
            cases h
          · by_cases h4 : ch = '=' <;> simp only [h4, if_true, if_false] at h
            · cases h
            by_cases h5 : ch = '{' <;> simp only [h5, if_true, if_false] at h
            · cases h
            by_cases h6 : ch = '\x7d' <;> simp only [h6, if_true, if_false] at h
            · cases h
            by_cases h7 : ch = '<' <;> simp only [h7, if_true, if_false] at h
            · split at h <;> cases h
            by_cases h8 : ch = '>' <;> simp only [h8, if_true, if_false] at h
            · split at h <;> cases h
            split at h
            · cases h
            · by_cases h10 : isIdentStartCh ch = true
              · rw [if_pos h10] at h
                split at h <;> cases h
              · rw [if_neg h10] at h
                cases h
                simp at hk

theorem tokenizeLoop_unterminated : ∀ (fuel : Nat) (cs : List Char) (l c : Nat) (e : TokErr)
    (L C : Nat), tokenizeLoop fuel cs l c = .error e → e.kind = .unterminatedString L C →
    (e.line, e.column) = advancePos cs l c ∧
    ∃ pre post, cs = pre ++ '"' :: post ∧ advancePos pre l c = (L, C) := by
  intro fuel
  induction fuel with
  | zero =>
      intro cs l c e L C h hk
      simp only [tokenizeLoop] at h
      cases h
      simp at hk
  | succ fuel ih =>
      intro cs l c e L C h hk
      rcases hsw : skipWs cs l c with ⟨cs1, l1, c1⟩
      obtain ⟨ws, hws, hpw⟩ := skipWs_decomp cs l c
      rw [hsw] at hws hpw
      simp only [] at hws hpw
      have hadv : advancePos cs l c = advancePos cs1 l1 c1 := by
        rw [hws, advancePos_append, hpw]
      unfold tokenizeLoop at h
      rw [hsw] at h
      match hcs1 : cs1 with
      | [] =>
          simp only [] at h
          cases h
      | ch :: rest =>
          simp only [] at h
          rcases hst : scanToken (ch :: rest) l1 c1 with e0 | ⟨t, cs2, l2, c2⟩ <;>
            simp only [hst] at h
          · cases h
            obtain ⟨rest2, hq, hL, hC, hfield⟩ := scanToken_err_unterminated hst hk
            subst hL
            subst hC
            constructor
            · rw [hadv, hq, advancePos_cons, if_neg (by decide)]
              exact hfield
            · refine ⟨ws, rest2, ?_, hpw⟩
              rw [hws, hq]
          · rcases hrec : tokenizeLoop fuel cs2 l2 c2 with e1 | ts <;> simp only [hrec] at h
            · cases h
              obtain ⟨hfield, pre, post, hdecomp, hpre⟩ := ih cs2 l2 c2 e L C hrec hk
              obtain ⟨consumed, hcon, hconp⟩ := scanToken_pos hst
              constructor
              · rw [hadv, hcon, advancePos_append, hconp]
                exact hfield
              · refine ⟨ws ++ consumed ++ pre, post, ?_, ?_⟩
                · rw [hws, hcon, hdecomp]
                  simp [List.append_assoc]
                · rw [List.append_assoc, advancePos_append, hpw]
                  simp only []
                  rw [advancePos_append, hconp]
                  exact hpre
            · cases h

theorem mem_dropWhile_of_not {p : Char → Bool} {x : Char} {cs : List Char}
    (hx : x ∈ cs) (hpx : p x = false) : x ∈ cs.dropWhile p := by
  induction cs with
  | nil => simp at hx
  | cons c rest ih =>
      by_cases hc : p c
      · rw [List.dropWhile_cons_of_pos hc]
        rcases List.mem_cons.mp hx with rfl | hm
        · rw [hc] at hpx
          cases hpx
        · exact ih hm
      · rw [List.dropWhile_cons_of_neg hc]
        exact hx

theorem emptyOrWsInput_false_of_quote {input : String} {pre post : List Char}
    (h : input.data = pre ++ '"' :: post) : emptyOrWsInput input = false := by
  have hmem : '"' ∈ input.data := by
    rw [h]
    simp
  have hq : isJsTrimCh '"' = false := by decide
  have h1 : '"' ∈ input.data.dropWhile isJsTrimCh := mem_dropWhile_of_not hmem hq
  have h2 : '"' ∈ (input.data.dropWhile isJsTrimCh).reverse := by simpa using h1
  have h3 : '"' ∈ ((input.data.dropWhile isJsTrimCh).reverse.dropWhile isJsTrimCh) :=
    mem_dropWhile_of_not h2 hq
  have h4 : jsTrim input.data ≠ [] := by
    simp only [jsTrim]
    intro hz
    rw [List.reverse_eq_nil_iff] at hz
    rw [hz] at h3
    simp at h3
  simp only [emptyOrWsInput, Bool.or_eq_false_iff]
  constructor
  · rw [h]
    cases pre <;> rfl
  · simpa [List.isEmpty_iff] using h4

/-- C4 amended: whenever tokenization ends in an unterminated-string error,
the error message records the line and column at which the string literal
began (the position of its opening quote), while the `errorLine` and
`errorColumn` fields of the result carry the tokenizer's position after
consuming the entire input (end of input), not the start position. -/
theorem C4_unterminated_string_positions (input : String) (e : TokErr) (L C : Nat)
    (h : tokenizeLoop (input.data.length + 1) input.data 1 1 = .error e)
    (hk : e.kind = .unterminatedString L C) :
    tokenize input = ⟨false, none, some (TokErrKind.msg (.unterminatedString L C)),
      some (advancePos input.data 1 1).1, some (advancePos input.data 1 1).2⟩ ∧
    ∃ pre post, input.data = pre ++ '"' :: post ∧ advancePos pre 1 1 = (L, C) := by
  obtain ⟨hfields, pre, post, hdecomp, hpre⟩ :=
    tokenizeLoop_unterminated (input.data.length + 1) input.data 1 1 e L C h hk
  refine ⟨?_, pre, post, hdecomp, hpre⟩
  rw [tokenize, if_neg (by rw [emptyOrWsInput_false_of_quote hdecomp]; simp), h]
  have hl : e.line = (advancePos input.data 1 1).1 := by
    rw [← hfields]
  have hc : e.column = (advancePos input.data 1 1).2 := by
    rw [← hfields]
  show TokenizerResult.mk false none (some e.kind.msg) (some e.line) (some e.column) = _
  rw [hk, hl, hc]

/-- C4 counterexample: on `x = "a\nb` (the unterminated string begins at
line 1, column 5 and contains a newline), the message records line 1 /
column 5 but the `errorLine`/`errorColumn` fields are 2/2, the end-of-input
position — not the line and column at which the literal began. -/
theorem C4_counterexample :
    tokenize "x = \"a\nb" = ⟨false, none,
      some (TokErrKind.msg (.unterminatedString 1 5)), some 2, some 2⟩ ∧
    (some 2 : Option Nat) ≠ some 1 ∧ (some 2 : Option Nat) ≠ some 5 :=
  ⟨rfl, by decide, by decide⟩

/-- C4 witness: the amended statement applied to the concrete input
`x = "a\nb`. -/
theorem C4_unterminated_string_positions_witness :
    tokenize "x = \"a\nb" = ⟨false, none,
      some (TokErrKind.msg (.unterminatedString 1 5)),
      some (advancePos "x = \"a\nb".data 1 1).1,
      some (advancePos "x = \"a\nb".data 1 1).2⟩ ∧
    ∃ pre post, "x = \"a\nb".data = pre ++ '"' :: post ∧ advancePos pre 1 1 = (1, 5) :=
  C4_unterminated_string_positions "x = \"a\nb" ⟨.unterminatedString 1 5, 2, 2⟩ 1 5 rfl rfl

/-! ## Canonical token shapes of the AST (for the round-trip claim C1) -/

/-- A token's grammatical content: type and literal text (positions are
irrelevant to parser success). -/
abbrev TokS := TokenType × String

def strip (t : Token) : TokS := (t.type, t.value)

/-- The token a rendered primitive re-tokenizes to. -/
def primTok : Prim → TokS
  | .str s => if isIdentText s.data then (.Identifier, s) else (.String, s)
  | .int n => (.Number, ⟨jsNumChars n 0⟩)
  | .float m e => (.Number, ⟨jsNumChars m e⟩)
  | .inf ng => (.Identifier, if ng then "-Infinity" else "Infinity")
  | .bool b => (.Boolean, if b then "yes" else "no")

/-- The token type of an operator literal as re-tokenized. -/
def opTokType (o : String) : TokenType :=
  if o = "=" then .Equals
  else if o = "<" then .LessThan
  else if o = ">" then .GreaterThan
  else if o = "<=" then .LessThanOrEqual
  else if o = ">=" then .GreaterThanOrEqual
  else .NotEqual

mutual
/-- Token sequence of a rendered value. -/
def valueToks : Value → List TokS
  | .prim p => [primTok p]
  | .arr vs => (.LeftBrace, "\x7b") :: (vs.map primTok ++ [(.RightBrace, "\x7d")])
  | .block ps => (.LeftBrace, "\x7b") :: (propsToks ps ++ [(.RightBrace, "\x7d")])

/-- Token sequence of one rendered property. -/
def propToks : Property → List TokS
  | .mk k o v => (.Identifier, k) :: (opTokType o, o) :: valueToks v

/-- Token sequence of a rendered property list. -/
def propsToks : List Property → List TokS
  | [] => []
  | p :: ps => propToks p ++ propsToks ps
end

/-! ## Well-formedness invariants established by the parser -/

/-- Primitives producible by the parser: strings never end in a backslash,
ints and floats are exactly the finite doubles (fixed points of `roundDbl`),
floats with a real fractional part. -/
def WfPrim : Prim → Bool
  | .str s => !(s.data.getLast? == some '\\')
  | .int n => roundDbl n 0 == .fin n 0
  | .float m e => decide (1 ≤ e) && (roundDbl m e == .fin m e)
  | .inf _ => true
  | .bool _ => true

/-- Does a primitive render as a Number or Boolean token (the shapes that
can open a ValueArray)? -/
def headPrimNumBool : Prim → Bool
  | .str _ => false
  | _ => true

/-- The stored operator literals. -/
def isOpLit (o : String) : Bool :=
  o == "=" || o == "<" || o == ">" || o == "<=" || o == ">=" || o == "!=" || o == "<>"

mutual
/-- Values producible by the parser. -/
def WfValue : Value → Bool
  | .prim p => WfPrim p
  | .arr vs =>
      (match vs with
        | [] => false
        | v :: _ => headPrimNumBool v) && vs.all WfPrim
  | .block ps => WfProps ps

/-- Properties producible by the parser: identifier keys (never `yes`/`no`),
stored operator literals, well-formed values. -/
def WfProp : Property → Bool
  | .mk k o v =>
      isIdentText k.data && !(k == "yes") && !(k == "no") && isOpLit o && WfValue v

def WfProps : List Property → Bool
  | [] => true
  | p :: ps => WfProp p && WfProps ps
end

/-- No string primitive spelled `yes` or `no` (such a string renders
unquoted and re-tokenizes as a Boolean, breaking the round trip). -/
def noYNPrim : Prim → Bool
  | .str s => !(s == "yes") && !(s == "no")
  | _ => true

mutual
def noYNValue : Value → Bool
  | .prim p => noYNPrim p
  | .arr vs => vs.all noYNPrim
  | .block ps => noYNProps ps

def noYNProp : Property → Bool
  | .mk _ _ v => noYNValue v

def noYNProps : List Property → Bool
  | [] => true
  | p :: ps => noYNProp p && noYNProps ps
end

/-- Primitives whose rendering re-tokenizes as the token they were parsed
from: excludes infinities (rendered `Infinity`/`-Infinity`, which does not
re-tokenize as one Number token) and numbers whose `String()` form is
exponential (`1e-7`, `1e+23`), which the tokenizer splits at the `e`. -/
def SafePrim : Prim → Bool
  | .int n => posRender n 0
  | .float m e => posRender m e
  | .inf _ => false
  | _ => true

mutual
/-- All numeric leaves of the value render positionally. -/
def SafeValue : Value → Bool
  | .prim p => SafePrim p
  | .arr vs => vs.all SafePrim
  | .block ps => SafeProps ps

def SafeProp : Property → Bool
  | .mk _ _ v => SafeValue v

def SafeProps : List Property → Bool
  | [] => true
  | p :: ps => SafeProp p && SafeProps ps
end

/-! ## Lexing composition: chunks separated by whitespace (for C1) -/

/-- The following characters are empty or start with tokenizer whitespace. -/
def WsOrNil (cs : List Char) : Prop :=
  cs = [] ∨ ∃ c rest, cs = c :: rest ∧ isWsCh c = true

/-- `piece` lexes to exactly one token of the given type and text whenever
it is followed by whitespace or end of input, consuming exactly `piece`. -/
def ScansTo (piece : List Char) (ty : TokenType) (v : String) : Prop :=
  (∃ c0 pr, piece = c0 :: pr ∧ isWsCh c0 = false) ∧
  ∀ rest l c, WsOrNil rest → ∃ l' c',
    scanToken (piece ++ rest) l c = .ok (⟨ty, v, l, c⟩, rest, l', c')

/-- `text` makes the tokenizer loop emit exactly the tokens `ks` (up to
positions) and then continue on the remainder. -/
def Emits (text : List Char) (ks : List TokS) : Prop :=
  ∀ fuel rest l c, WsOrNil rest → text.length + rest.length < fuel →
    ∃ ts l2 c2 fuel2, tokenizeLoop fuel (text ++ rest) l c =
      (tokenizeLoop fuel2 rest l2 c2).map (ts ++ ·) ∧
      ts.map strip = ks ∧ rest.length < fuel2 ∧ fuel2 ≤ fuel

theorem skipWs_not_ws {c0 : Char} {cs : List Char} {l c : Nat}
    (h : isWsCh c0 = false) : skipWs (c0 :: cs) l c = (c0 :: cs, l, c) := by
  unfold skipWs
  rw [h]
  simp

theorem skipWs_ws_append {ws : List Char} (hws : ∀ x ∈ ws, isWsCh x = true)
    (cs : List Char) : ∀ l c, skipWs (ws ++ cs) l c =
      skipWs cs (advancePos ws l c).1 (advancePos ws l c).2 := by
  induction ws with
  | nil => intro l c; simp [advancePos]
  | cons w rest ih =>
      intro l c
      have hw : isWsCh w = true := hws w (by simp)
      by_cases hn : w = '\n'
      · subst hn
        show skipWs ('\n' :: (rest ++ cs)) l c = _
        rw [show skipWs ('\n' :: (rest ++ cs)) l c = skipWs (rest ++ cs) (l + 1) 1 by
          simp [skipWs, hw]]
        rw [ih (fun x hx => hws x (by simp [hx])), advancePos_cons, if_pos rfl]
      · show skipWs (w :: (rest ++ cs)) l c = _
        rw [show skipWs (w :: (rest ++ cs)) l c = skipWs (rest ++ cs) l (c + 1) by
          simp [skipWs, hw, hn]]
        rw [ih (fun x hx => hws x (by simp [hx])), advancePos_cons, if_neg hn]

theorem tokenizeLoop_ws_skip {ws : List Char} (hws : ∀ x ∈ ws, isWsCh x = true)
    (cs : List Char) (fuel l c : Nat) (hf : 0 < fuel) :
    tokenizeLoop fuel (ws ++ cs) l c =
      tokenizeLoop fuel cs (advancePos ws l c).1 (advancePos ws l c).2 := by
  cases fuel with
  | zero => omega
  | succ fuel =>
      show tokenizeLoop (fuel + 1) (ws ++ cs) l c = _
      conv_lhs => rw [tokenizeLoop]
      conv_rhs => rw [tokenizeLoop]
      rw [skipWs_ws_append hws cs l c]

theorem Emits.nil : Emits [] [] := by
  intro fuel rest l c hrest hfuel
  refine ⟨[], l, c, fuel, ?_, rfl, by simpa using hfuel, le_refl _⟩
  simp only [List.nil_append]
  rcases htl : tokenizeLoop fuel rest l c with e | ts <;> rfl

theorem Emits.wsCons {c0 : Char} {t : List Char} {k : List TokS}
    (hc : isWsCh c0 = true) (h : Emits t k) : Emits (c0 :: t) k := by
  intro fuel rest l c hrest hfuel
  have h0 : 0 < fuel := by
    simp only [List.length_cons] at hfuel
    omega
  rw [show (c0 :: t) ++ rest = [c0] ++ (t ++ rest) by simp]
  rw [tokenizeLoop_ws_skip (by intro x hx; simp at hx; subst hx; exact hc) _ fuel l c h0]
  exact h fuel rest _ _ hrest (by simp only [List.length_cons] at hfuel; omega)

theorem Emits.append {t1 t2 : List Char} {k1 k2 : List TokS}
    (h1 : Emits t1 k1) (h2 : Emits t2 k2) (hsep : WsOrNil t2) :
    Emits (t1 ++ t2) (k1 ++ k2) := by
  intro fuel rest l c hrest hfuel
  have hsep2 : WsOrNil (t2 ++ rest) := by
    rcases hsep with rfl | ⟨c2, r2, rfl, hc2⟩
    · simpa using hrest
    · exact .inr ⟨c2, r2 ++ rest, by simp, hc2⟩
  obtain ⟨ts1, l2, c2, fuel2, heq1, hstrip1, hlen2, hle2⟩ :=
    h1 fuel (t2 ++ rest) l c hsep2 (by simp at hfuel ⊢; omega)
  obtain ⟨ts2, l3, c3, fuel3, heq2, hstrip2, hlen3, hle3⟩ :=
    h2 fuel2 rest l2 c2 hrest (by simp at hlen2 ⊢; omega)
  refine ⟨ts1 ++ ts2, l3, c3, fuel3, ?_, by simp [hstrip1, hstrip2], hlen3, le_trans hle3 hle2⟩
  rw [List.append_assoc, heq1, heq2]
  rcases tokenizeLoop fuel3 rest l3 c3 with e | ts
  · rfl
  · show Except.ok (ts1 ++ (ts2 ++ ts)) = Except.ok (ts1 ++ ts2 ++ ts)
    rw [List.append_assoc]

theorem Emits.chunk {piece : List Char} {ty : TokenType} {v : String}
    (h : ScansTo piece ty v) : Emits piece [(ty, v)] := by
  obtain ⟨⟨c0, pr, rfl, hc0⟩, hscan⟩ := h
  intro fuel rest l c hrest hfuel
  cases fuel with
  | zero => simp at hfuel
  | succ fuel =>
      obtain ⟨l', c', hs⟩ := hscan rest l c hrest
      refine ⟨[⟨ty, v, l, c⟩], l', c', fuel, ?_, rfl, ?_, by omega⟩
      · show tokenizeLoop (fuel + 1) ((c0 :: pr) ++ rest) l c = _
        conv_lhs => rw [tokenizeLoop]
        rw [show (c0 :: pr) ++ rest = c0 :: (pr ++ rest) by simp]
        rw [skipWs_not_ws hc0]
        simp only []
        rw [show c0 :: (pr ++ rest) = (c0 :: pr) ++ rest by simp, hs]
        simp only []
        rcases tokenizeLoop fuel rest l' c' with e | ts <;> rfl
      · simp only [List.length_cons] at hfuel
        omega

theorem wsCh_cases {c : Char} (h : isWsCh c = true) :
    c = ' ' ∨ c = '\t' ∨ c = '\r' ∨ c = '\n' := by
  simp only [isWsCh, Bool.or_eq_true, decide_eq_true_eq] at h
  tauto

theorem scansTo_eq : ScansTo ['='] .Equals "=" := by
  refine ⟨⟨'=', [], rfl, by decide⟩, fun rest l c _ => ⟨l, c + 1, ?_⟩⟩
  show scanToken ('=' :: rest) l c = _
  unfold scanToken
  simp
  all_goals decide

theorem scansTo_lbrace : ScansTo ['{'] .LeftBrace "\x7b" := by
  refine ⟨⟨'{', [], rfl, by decide⟩, fun rest l c _ => ⟨l, c + 1, ?_⟩⟩
  show scanToken ('{' :: rest) l c = _
  unfold scanToken
  simp
  all_goals decide

theorem scansTo_rbrace : ScansTo ['}'] .RightBrace "\x7d" := by
  refine ⟨⟨'}', [], rfl, by decide⟩, fun rest l c _ => ⟨l, c + 1, ?_⟩⟩
  show scanToken ('}' :: rest) l c = _
  unfold scanToken
  simp
  all_goals decide

theorem scansTo_le : ScansTo ['<', '='] .LessThanOrEqual "<=" := by
  refine ⟨⟨'<', ['='], rfl, by decide⟩, fun rest l c _ => ⟨l, c + 2, ?_⟩⟩
  show scanToken ('<' :: '=' :: rest) l c = _
  unfold scanToken
  simp
  all_goals decide

theorem scansTo_diamond : ScansTo ['<', '>'] .NotEqual "<>" := by
  refine ⟨⟨'<', ['>'], rfl, by decide⟩, fun rest l c _ => ⟨l, c + 2, ?_⟩⟩
  show scanToken ('<' :: '>' :: rest) l c = _
  unfold scanToken
  simp
  all_goals decide

theorem scansTo_ge : ScansTo ['>', '='] .GreaterThanOrEqual ">=" := by
  refine ⟨⟨'>', ['='], rfl, by decide⟩, fun rest l c _ => ⟨l, c + 2, ?_⟩⟩
  show scanToken ('>' :: '=' :: rest) l c = _
  unfold scanToken
  simp
  all_goals decide

theorem scansTo_bang : ScansTo ['!', '='] .NotEqual "!=" := by
  refine ⟨⟨'!', ['='], rfl, by decide⟩, fun rest l c _ => ⟨l, c + 2, ?_⟩⟩
  show scanToken ('!' :: '=' :: rest) l c = _
  unfold scanToken
  simp
  all_goals decide

theorem scansTo_lt : ScansTo ['<'] .LessThan "<" := by
  refine ⟨⟨'<', [], rfl, by decide⟩, fun rest l c hrest => ⟨l, c + 1, ?_⟩⟩
  show scanToken ('<' :: rest) l c = _
  unfold scanToken
  rcases hrest with rfl | ⟨c1, r1, rfl, hc1⟩
  · simp
    all_goals decide
  · rcases wsCh_cases hc1 with rfl | rfl | rfl | rfl <;> simp
    all_goals decide

theorem scansTo_gt : ScansTo ['>'] .GreaterThan ">" := by
  refine ⟨⟨'>', [], rfl, by decide⟩, fun rest l c hrest => ⟨l, c + 1, ?_⟩⟩
  show scanToken ('>' :: rest) l c = _
  unfold scanToken
  rcases hrest with rfl | ⟨c1, r1, rfl, hc1⟩
  · simp
    all_goals decide
  · rcases wsCh_cases hc1 with rfl | rfl | rfl | rfl <;> simp
    all_goals decide

theorem char_toNat_le_of_le {a c : Char} (h : a ≤ c) : a.val.toNat ≤ c.val.toNat := by
  exact_mod_cast Char.le_def.mp h

theorem isAlphaCh_toNat {c : Char} (h : isAlphaCh c = true) :
    (97 ≤ c.val.toNat ∧ c.val.toNat ≤ 122) ∨ (65 ≤ c.val.toNat ∧ c.val.toNat ≤ 90) := by
  simp only [isAlphaCh, Bool.or_eq_true, Bool.and_eq_true, decide_eq_true_eq] at h
  rcases h with ⟨h1, h2⟩ | ⟨h1, h2⟩
  · exact .inl ⟨char_toNat_le_of_le h1, char_toNat_le_of_le h2⟩
  · exact .inr ⟨char_toNat_le_of_le h1, char_toNat_le_of_le h2⟩

theorem alpha_ne {c d : Char} (h : isAlphaCh c = true)
    (hd : d.val.toNat < 65 ∨ (90 < d.val.toNat ∧ d.val.toNat < 97) ∨ 122 < d.val.toNat) :
    c ≠ d := by
  rintro rfl
  rcases isAlphaCh_toNat h with ⟨h1, h2⟩ | ⟨h1, h2⟩ <;> omega

theorem identStart_disjoint {c : Char} (h : isIdentStartCh c = true) :
    c ≠ '#' ∧ c ≠ '"' ∧ isDigitCh c = false ∧ c ≠ '-' ∧ c ≠ '=' ∧ c ≠ '{' ∧
      c ≠ '}' ∧ c ≠ '<' ∧ c ≠ '>' ∧ c ≠ '!' := by
  simp only [isIdentStartCh, Bool.or_eq_true, decide_eq_true_eq] at h
  rcases h with (h | rfl) | rfl
  · have hd : isDigitCh c = false := by
      by_contra hx
      simp only [Bool.not_eq_false] at hx
      simp only [isDigitCh, Bool.and_eq_true, decide_eq_true_eq] at hx
      have h1 := char_toNat_le_of_le hx.1
      have h2 := char_toNat_le_of_le hx.2
      have e1 : ('0').val.toNat = 48 := rfl
      have e2 : ('9').val.toNat = 57 := rfl
      rcases isAlphaCh_toNat h with ⟨g1, g2⟩ | ⟨g1, g2⟩ <;> omega
    refine ⟨alpha_ne h (by decide), alpha_ne h (by decide), hd,
      alpha_ne h (by decide), alpha_ne h (by decide), alpha_ne h (by decide),
      alpha_ne h (by decide), alpha_ne h (by decide), alpha_ne h (by decide),
      alpha_ne h (by decide)⟩
  · refine ⟨by decide, by decide, by decide, by decide, by decide, by decide,
      by decide, by decide, by decide, by decide⟩
  · refine ⟨by decide, by decide, by decide, by decide, by decide, by decide,
      by decide, by decide, by decide, by decide⟩

theorem wsCh_not_identCh {c : Char} (h : isWsCh c = true) : isIdentCh c = false := by
  rcases wsCh_cases h with rfl | rfl | rfl | rfl <;> decide

theorem identScan {w : List Char} (hw : isIdentText w = true) :
    ∀ rest l c, WsOrNil rest →
      scanToken (w ++ rest) l c =
        .ok (⟨(if w = "yes".data ∨ w = "no".data then .Boolean else .Identifier),
          ⟨w⟩, l, c⟩, rest, l, c + w.length) := by
  match w with
  | [] => simp [isIdentText] at hw
  | c0 :: pr =>
      simp only [isIdentText, Bool.and_eq_true] at hw
      obtain ⟨hstart, hall⟩ := hw
      obtain ⟨hd1, hd2, hd3, hd4, hd5, hd6, hd7, hd8, hd9, hd10⟩ := identStart_disjoint hstart
      intro rest l c hrest
      show scanToken (c0 :: (pr ++ rest)) l c = _
      unfold scanToken
      simp only []
      rw [if_neg hd1, if_neg hd2]
      rw [if_neg (by simp [hd3, hd4])]
      rw [if_neg hd5, if_neg hd6, if_neg hd7, if_neg hd8, if_neg hd9]
      rw [if_neg (by simp [hd10])]
      rw [if_pos hstart]
      have hallw : (c0 :: pr).all isIdentCh = true := by
        simp only [List.all_cons, Bool.and_eq_true]
        exact ⟨isIdentStartCh_isIdentCh hstart, hall⟩
      have htw : (c0 :: (pr ++ rest)).takeWhile isIdentCh = c0 :: pr := by
        rw [show c0 :: (pr ++ rest) = (c0 :: pr) ++ rest by simp]
        rw [takeWhile_all_append _ hallw]
        rcases hrest with rfl | ⟨c1, r1, rfl, hc1⟩
        · simp
        · rw [List.takeWhile_cons_of_neg (by simp [wsCh_not_identCh hc1])]
          simp
      have hdw : (c0 :: (pr ++ rest)).dropWhile isIdentCh = rest := by
        rw [show c0 :: (pr ++ rest) = (c0 :: pr) ++ rest by simp]
        rw [dropWhile_all_append _ hallw]
        rcases hrest with rfl | ⟨c1, r1, rfl, hc1⟩
        · simp
        · rw [List.dropWhile_cons_of_neg (by simp [wsCh_not_identCh hc1])]
      rw [htw, hdw]
      by_cases hyn : c0 :: pr = "yes".data ∨ c0 :: pr = "no".data
      · rw [if_pos (by simpa using hyn), if_pos hyn]
      · rw [if_neg (by simpa using hyn), if_neg hyn]

theorem scansTo_identText {w : List Char} (hw : isIdentText w = true)
    (hyes : w ≠ "yes".data) (hno : w ≠ "no".data) : ScansTo w .Identifier ⟨w⟩ := by
  refine ⟨?_, fun rest l c hrest => ⟨l, c + w.length, ?_⟩⟩
  · match w, hw with
    | c0 :: pr, hw =>
        simp only [isIdentText, Bool.and_eq_true] at hw
        exact ⟨c0, pr, rfl, by
          rcases (identStart_disjoint hw.1) with ⟨_, _, _, _⟩
          by_contra hx
          simp only [Bool.not_eq_false] at hx
          rcases wsCh_cases hx with rfl | rfl | rfl | rfl <;> simp [isIdentStartCh, isAlphaCh] at hw⟩
  · rw [identScan hw rest l c hrest, if_neg (by tauto)]

theorem scansTo_yes : ScansTo "yes".data .Boolean "yes" := by
  refine ⟨⟨'y', ['e', 's'], rfl, by decide⟩, fun rest l c hrest => ⟨l, c + 3, ?_⟩⟩
  rw [identScan (by decide) rest l c hrest, if_pos (by decide)]
  rfl

theorem scansTo_no : ScansTo "no".data .Boolean "no" := by
  refine ⟨⟨'n', ['o'], rfl, by decide⟩, fun rest l c hrest => ⟨l, c + 2, ?_⟩⟩
  rw [identScan (by decide) rest l c hrest, if_pos (by decide)]
  rfl

theorem wsCh_not_digit {c : Char} (h : isWsCh c = true) : isDigitCh c = false := by
  rcases wsCh_cases h with rfl | rfl | rfl | rfl <;> decide

theorem wsCh_ne_dot {c : Char} (h : isWsCh c = true) : c ≠ '.' := by
  rcases wsCh_cases h with rfl | rfl | rfl | rfl <;> decide

theorem digit_ne_hash_quote {c : Char} (h : isDigitCh c = true) :
    c ≠ '#' ∧ c ≠ '"' ∧ isWsCh c = false := by
  simp only [isDigitCh, Bool.and_eq_true, decide_eq_true_eq] at h
  have h1 := char_toNat_le_of_le h.1
  have h2 := char_toNat_le_of_le h.2
  have e1 : ('0').val.toNat = 48 := rfl
  have e2 : ('9').val.toNat = 57 := rfl
  refine ⟨?_, ?_, ?_⟩
  · rintro rfl
    simp only [show ('#').val.toNat = 35 from rfl] at h1 h2
    omega
  · rintro rfl
    simp only [show ('"').val.toNat = 34 from rfl] at h1 h2
    omega
  · by_contra hx
    simp only [Bool.not_eq_false] at hx
    rcases wsCh_cases hx with rfl | rfl | rfl | rfl <;> simp_all

theorem takeWhile_wsOrNil_digits {rest : List Char} (hrest : WsOrNil rest) :
    rest.takeWhile isDigitCh = [] := by
  rcases hrest with rfl | ⟨c1, r1, rfl, hc1⟩
  · rfl
  · rw [List.takeWhile_cons_of_neg (by simp [wsCh_not_digit hc1])]

theorem dropWhile_wsOrNil_digits {rest : List Char} (hrest : WsOrNil rest) :
    rest.dropWhile isDigitCh = rest := by
  rcases hrest with rfl | ⟨c1, r1, rfl, hc1⟩
  · rfl
  · rw [List.dropWhile_cons_of_neg (by simp [wsCh_not_digit hc1])]

theorem scanFrac_wsOrNil {rest : List Char} (hrest : WsOrNil rest) :
    scanFrac rest = ([], rest) := by
  rcases hrest with rfl | ⟨c1, r1, rfl, hc1⟩
  · rfl
  · unfold scanFrac
    split
    · next d r2 heq =>
        exfalso
        exact wsCh_ne_dot hc1 (by injection heq)
    · rfl

theorem numLit_scanNumberText_sep (neg : Bool) (I F : List Char) (hI : I ≠ [])
    (hId : I.all isDigitCh = true) (hFd : F.all isDigitCh = true)
    {rest : List Char} (hrest : WsOrNil rest) :
    scanNumberText (numLitText neg I F ++ rest) = (numLitText neg I F, rest) := by
  have hsgn : scanSign (numLitText neg I F ++ rest) =
      ((if neg then ['-'] else []), (I ++ (if F.isEmpty then [] else '.' :: F)) ++ rest) := by
    cases neg with
    | true => rfl
    | false =>
        apply scanSign_not_minus
        cases I with
        | nil => exact absurd rfl hI
        | cons c1 pr =>
            simp only [List.all_cons, Bool.and_eq_true] at hId
            simp only [numLitText, Bool.false_eq_true, if_false, List.nil_append,
              List.cons_append, List.head?_cons, Option.some.injEq, ne_eq]
            intro hx
            exact isDigitCh_ne_minus hId.1 hx
  unfold scanNumberText
  rw [hsgn]
  simp only []
  have hdig : scanDigits ((I ++ (if F.isEmpty then [] else '.' :: F)) ++ rest) =
      (I, (if F.isEmpty then [] else '.' :: F) ++ rest) := by
    rw [List.append_assoc]
    simp only [scanDigits]
    rw [takeWhile_all_append _ hId, dropWhile_all_append _ hId]
    cases F with
    | nil =>
        simp only [List.isEmpty_nil, if_true, List.nil_append]
        rw [takeWhile_wsOrNil_digits hrest, dropWhile_wsOrNil_digits hrest]
        simp
    | cons f0 F' =>
        simp only [List.isEmpty_cons, Bool.false_eq_true, if_false, List.cons_append]
        rw [List.takeWhile_cons_of_neg (by decide : ¬isDigitCh '.' = true)]
        rw [List.dropWhile_cons_of_neg (by decide : ¬isDigitCh '.' = true)]
        simp
  rw [hdig]
  simp only []
  have hfrac : scanFrac ((if F.isEmpty then [] else '.' :: F) ++ rest) =
      ((if F.isEmpty then [] else '.' :: F), rest) := by
    cases F with
    | nil =>
        simp only [List.isEmpty_nil, if_true, List.nil_append]
        exact scanFrac_wsOrNil hrest
    | cons f0 F' =>
        simp only [List.isEmpty_cons, Bool.false_eq_true, if_false, List.cons_append]
        have hf0 : isDigitCh f0 = true := by
          simp only [List.all_cons, Bool.and_eq_true] at hFd
          exact hFd.1
        show scanFrac ('.' :: (f0 :: (F' ++ rest))) = _
        unfold scanFrac
        simp only [hf0, if_true]
        simp only [scanDigits]
        rw [show f0 :: (F' ++ rest) = (f0 :: F') ++ rest by simp]
        rw [takeWhile_all_append _ hFd, dropWhile_all_append _ hFd]
        rw [takeWhile_wsOrNil_digits hrest, dropWhile_wsOrNil_digits hrest]
        simp
  rw [hfrac]
  simp [numLitText]

theorem scansTo_numLit {neg : Bool} {I F : List Char} (hI : I ≠ [])
    (hId : I.all isDigitCh = true) (hFd : F.all isDigitCh = true) :
    ScansTo (numLitText neg I F) .Number ⟨numLitText neg I F⟩ := by
  match I, hI, hId with
  | i0 :: I', _, hId =>
    have hi0 : isDigitCh i0 = true := by
      simp only [List.all_cons, Bool.and_eq_true] at hId
      exact hId.1
    obtain ⟨hq1, hq2, hq3⟩ := digit_ne_hash_quote hi0
    refine ⟨?_, fun rest l c hrest => ⟨l, c + (numLitText neg (i0 :: I') F).length, ?_⟩⟩
    · cases neg with
      | true => exact ⟨'-', (i0 :: I') ++ (if F.isEmpty then [] else '.' :: F), rfl, by decide⟩
      | false => exact ⟨i0, I' ++ (if F.isEmpty then [] else '.' :: F), rfl, hq3⟩
    · have hsep := numLit_scanNumberText_sep neg (i0 :: I') F (by simp) hId hFd hrest
      cases neg with
      | true =>
          show scanToken
            ('-' :: (i0 :: ((I' ++ (if F.isEmpty then [] else '.' :: F)) ++ rest))) l c = _
          unfold scanToken
          simp only []
          rw [if_neg (by decide : ¬('-' : Char) = '#')]
          rw [if_neg (by decide : ¬('-' : Char) = '"')]
          rw [if_pos (by simp [hi0])]
          rw [show scanNumberText
              ('-' :: (i0 :: ((I' ++ (if F.isEmpty then [] else '.' :: F)) ++ rest)))
              = (numLitText true (i0 :: I') F, rest) from hsep]
      | false =>
          show scanToken (i0 :: ((I' ++ (if F.isEmpty then [] else '.' :: F)) ++ rest)) l c = _
          unfold scanToken
          simp only []
          rw [if_neg hq1, if_neg hq2]
          rw [if_pos (by simp [hi0])]
          rw [show scanNumberText (i0 :: ((I' ++ (if F.isEmpty then [] else '.' :: F)) ++ rest))
              = (numLitText false (i0 :: I') F, rest) from hsep]

theorem escapeQ_cons (ch : Char) (s : List Char) :
    escapeQ (ch :: s) = (if ch = '"' then ['\\', '"'] else [ch]) ++ escapeQ s := by
  simp [escapeQ]

theorem scanStringBody_generic {ch : Char} {rest : List Char} (l c : Nat)
    (h1 : ch ≠ '"') (h2 : ch ≠ '\n')
    (h3 : ∀ r2, ¬(ch = '\\' ∧ rest = '"' :: r2)) :
    scanStringBody (ch :: rest) l c =
      (scanStringBody rest l (c + 1)).map fun x => (ch :: x.1, x.2.1, x.2.2.1, x.2.2.2) := by
  conv_lhs => unfold scanStringBody
  split
  · next heq => exact absurd heq (List.cons_ne_nil _ _)
  · next heq =>
      injection heq with ha hb
      exact absurd ha h1
  · next heq =>
      injection heq with ha hb
      exact absurd ha h2
  · next r2 heq =>
      injection heq with ha hb
      exact absurd ⟨ha, hb⟩ (h3 _)
  · next c0 r0 hn1 hn2 hn3 heq =>
      injection heq with ha hb
      subst ha; subst hb
      rfl

theorem escapeQ_scan (rest : List Char) :
    ∀ (s : List Char), s.getLast? ≠ some '\\' → ∀ l c, ∃ l' c',
      scanStringBody (escapeQ s ++ '"' :: rest) l c = some (s, rest, l', c') := by
  intro s
  induction s with
  | nil =>
      intro _ l c
      exact ⟨l, c + 1, rfl⟩
  | cons ch s' ih =>
      intro hlast l c
      have hlast' : s'.getLast? ≠ some '\\' := by
        cases s' with
        | nil => simp
        | cons a t =>
            rw [List.getLast?_cons_cons] at hlast
            exact hlast
      by_cases hq : ch = '"'
      · subst hq
        rw [escapeQ_cons, if_pos rfl]
        obtain ⟨l', c', hih⟩ := ih hlast' l (c + 2)
        refine ⟨l', c', ?_⟩
        show scanStringBody ('\\' :: '"' :: (escapeQ s' ++ '"' :: rest)) l c = _
        simp only [scanStringBody]
        rw [hih]
        rfl
      · by_cases hn : ch = '\n'
        · subst hn
          rw [escapeQ_cons, if_neg hq]
          obtain ⟨l', c', hih⟩ := ih hlast' (l + 1) 1
          refine ⟨l', c', ?_⟩
          show scanStringBody ('\n' :: (escapeQ s' ++ '"' :: rest)) l c = _
          simp only [scanStringBody]
          rw [hih]
          rfl
        · rw [escapeQ_cons, if_neg hq]
          obtain ⟨l', c', hih⟩ := ih hlast' l (c + 1)
          refine ⟨l', c', ?_⟩
          show scanStringBody (ch :: (escapeQ s' ++ '"' :: rest)) l c = _
          rw [scanStringBody_generic l c hq hn ?h3]
          · rw [hih]
            rfl
          case h3 =>
            rintro r2 ⟨rfl, habs⟩
            cases s' with
            | nil => exact hlast rfl
            | cons d t =>
                rw [escapeQ_cons] at habs
                by_cases hd : d = '"'
                · rw [if_pos hd] at habs
                  simp at habs
                · rw [if_neg hd] at habs
                  simp only [List.cons_append] at habs
                  injection habs with h1 h2
                  exact hd h1

theorem scansTo_string {s : String} (hlast : s.data.getLast? ≠ some '\\') :
    ScansTo ('"' :: (escapeQ s.data ++ ['"'])) .String s := by
  refine ⟨⟨'"', escapeQ s.data ++ ['"'], rfl, by decide⟩, fun rest l c hrest => ?_⟩
  obtain ⟨l', c', hsb⟩ := escapeQ_scan rest s.data hlast l (c + 1)
  refine ⟨l', c', ?_⟩
  rw [show ('"' :: (escapeQ s.data ++ ['"'])) ++ rest
      = '"' :: (escapeQ s.data ++ '"' :: rest) by simp]
  unfold scanToken
  simp only []
  rw [if_neg (by decide : ¬('"' : Char) = '#'), if_pos trivial]
  rw [hsb]

/-! ## Emitted tokens of the stringifier output (for C1) -/

theorem str_ne_data {s t : String} (h : s ≠ t) : s.data ≠ t.data :=
  fun hd => h (show s = t from congrArg String.mk hd)

theorem Emits.wsPrefix {ws t : List Char} {k : List TokS}
    (hws : ∀ x ∈ ws, isWsCh x = true) (h : Emits t k) : Emits (ws ++ t) k := by
  intro fuel rest l c hrest hfuel
  have h0 : 0 < fuel := by
    simp only [List.length_append] at hfuel
    omega
  rw [List.append_assoc, tokenizeLoop_ws_skip hws _ fuel l c h0]
  exact h fuel rest _ _ hrest (by simp only [List.length_append] at hfuel; omega)

theorem mem_repeatInd {ind : List Char} (hind : ∀ x ∈ ind, isWsCh x = true) :
    ∀ n x, x ∈ repeatInd ind n → isWsCh x = true := by
  intro n
  induction n with
  | zero => intro x hx; simp [repeatInd] at hx
  | succ n ih =>
      intro x hx
      simp only [repeatInd, List.mem_append] at hx
      rcases hx with hx | hx
      · exact hind x hx
      · exact ih x hx

theorem digitsToNat_replicate_zero (k : Nat) (l : List Char) :
    digitsToNat (List.replicate k '0' ++ l) = digitsToNat l := by
  rw [digitsToNat_append]
  have : digitsToNat (List.replicate k '0') = 0 := by
    induction k with
    | zero => rfl
    | succ k ih =>
        rw [List.replicate_succ, digitsToNat_cons, ih]
        simp [charDigit]
  rw [this]
  simp

/-! ## Re-parsing of rendered numbers (for C1) -/

theorem stripZeroAux_pos : ∀ (f s : Nat) (p : Int), 1 ≤ s → 1 ≤ (stripZeroAux f s p).1 := by
  intro f
  induction f with
  | zero =>
      intro s p hs
      exact hs
  | succ g ih =>
      intro s p hs
      rw [stripZeroAux_succ]
      by_cases hc : s % 10 = 0 ∧ s ≠ 0
      · rw [if_pos hc]
        exact ih (s / 10) (p + 1) (by omega)
      · rw [if_neg hc]
        exact hs

theorem jsDigits_pos {m : Int} (hm : m ≠ 0) {e : Nat} : 1 ≤ (jsDigits m e).1 := by
  have hA : 1 ≤ m.natAbs := by omega
  cases hsr : shortestAux m e (scaleExpMD 10 m.natAbs (10 ^ e))
      (nsize 10 m.natAbs + e + 2) 1 with
  | none =>
      have hjd : jsDigits m e = stripZero m.natAbs (-(e : Int)) := by
        unfold jsDigits
        simp only []
        rw [hsr]
      rw [hjd]
      exact stripZeroAux_pos _ _ _ hA
  | some sp =>
      obtain ⟨s, p⟩ := sp
      have hjd : jsDigits m e = stripZero s p := by
        unfold jsDigits
        simp only []
        rw [hsr]
      rw [hjd]
      have hcand := shortestAux_some m e (scaleExpMD 10 m.natAbs (10 ^ e))
        (nsize 10 m.natAbs + e + 2) 1 s p hsr
      exact stripZeroAux_pos _ _ _ (candOK_s_pos hm hcand)

/-- Unfolding of `jsNumChars` on a nonzero value with known digits. -/
theorem jsNumChars_of_ne {m : Int} (hm : m ≠ 0) {e : Nat} {s : Nat} {p : Int}
    (hjd : jsDigits m e = (s, p)) :
    jsNumChars m e =
      (if m < 0 then ['-'] else []) ++
      (if ((natToDigits s).length : Int) ≤ p + ((natToDigits s).length : Int) ∧
            p + ((natToDigits s).length : Int) ≤ 21 then
         natToDigits s ++
           List.replicate (p + ((natToDigits s).length : Int)
             - ((natToDigits s).length : Int)).toNat '0'
       else if 0 < p + ((natToDigits s).length : Int) ∧
            p + ((natToDigits s).length : Int) ≤ 21 then
         (natToDigits s).take (p + ((natToDigits s).length : Int)).toNat ++
           '.' :: (natToDigits s).drop (p + ((natToDigits s).length : Int)).toNat
       else if -5 ≤ p + ((natToDigits s).length : Int) ∧
            p + ((natToDigits s).length : Int) ≤ 0 then
         '0' :: '.' :: (List.replicate (-(p + ((natToDigits s).length : Int))).toNat '0'
           ++ natToDigits s)
       else
         ((natToDigits s).take 1 ++
            (if (natToDigits s).length ≤ 1 then []
             else '.' :: (natToDigits s).drop 1)) ++
           'e' :: (if p + ((natToDigits s).length : Int) - 1 < 0 then
               '-' :: natToDigits (1 - (p + ((natToDigits s).length : Int))).toNat
             else '+' :: natToDigits (p + ((natToDigits s).length : Int) - 1).toNat)) := by
  unfold jsNumChars
  rw [if_neg hm, hjd]

/-- When the double renders positionally, `String()` output is a numeric
literal whose `parseFloat` value is exactly the digit/scale candidate pair
of the printed digits. -/
theorem jsNumChars_shape {m : Int} {e : Nat} (hm : m ≠ 0) (hpos : posRender m e = true) :
    ∃ I F, jsNumChars m e = numLitText (decide (m < 0)) I F ∧ I ≠ [] ∧
      I.all isDigitCh = true ∧ F.all isDigitCh = true ∧
      parseFloatDec ⟨numLitText (decide (m < 0)) I F⟩
        = candPair (decide (m < 0)) (jsDigits m e).1 (jsDigits m e).2 ∧
      (0 ≤ (jsDigits m e).2 → F = []) := by
  rcases hjd : jsDigits m e with ⟨s, p⟩
  have hs1 : 1 ≤ s := by
    have := jsDigits_pos hm (e := e)
    rw [hjd] at this
    exact this
  have hdne : natToDigits s ≠ [] := natToDigits_ne_nil s
  have hk1 : 1 ≤ (natToDigits s).length := List.length_pos.mpr hdne
  have hbound : -5 ≤ p + ((natToDigits s).length : Int) ∧
      p + ((natToDigits s).length : Int) ≤ 21 := by
    unfold posRender at hpos
    rw [if_neg hm, hjd] at hpos
    simp only [] at hpos
    exact of_decide_eq_true hpos
  rw [jsNumChars_of_ne hm hjd]
  simp only []
  by_cases hb1 : ((natToDigits s).length : Int) ≤ p + ((natToDigits s).length : Int) ∧
      p + ((natToDigits s).length : Int) ≤ 21
  · -- integer positional form: digits then padding zeros
    have hp0 : 0 ≤ p := by omega
    set I : List Char := natToDigits s ++
      List.replicate (p + ((natToDigits s).length : Int)
        - ((natToDigits s).length : Int)).toNat '0' with hI
    have hIne : I ≠ [] := by
      rw [hI]
      intro hc
      rw [List.append_eq_nil] at hc
      exact hdne hc.1
    have hIdig : I.all isDigitCh = true := by
      rw [hI, List.all_append, Bool.and_eq_true]
      refine ⟨natToDigits_all_digits s, ?_⟩
      rw [List.all_eq_true]
      intro x hx
      rw [List.eq_of_mem_replicate hx]
      decide
    have hIval : digitsToNat I = s * 10 ^ p.toNat := by
      rw [hI, digitsToNat_append, digitsToNat_natToDigits]
      have hz : digitsToNat (List.replicate (p + ((natToDigits s).length : Int)
          - ((natToDigits s).length : Int)).toNat '0') = 0 := by
        have := digitsToNat_replicate_zero ((p + ((natToDigits s).length : Int)
          - ((natToDigits s).length : Int)).toNat) []
        simpa [digitsToNat] using this
      rw [hz, List.length_replicate]
      rw [show (p + ((natToDigits s).length : Int)
          - ((natToDigits s).length : Int)).toNat = p.toNat by omega]
      omega
    refine ⟨I, [], ?_, hIne, hIdig, rfl, ?_, fun _ => rfl⟩
    · rw [if_pos hb1]
      unfold numLitText
      by_cases hneg : m < 0 <;> simp [hneg, hI]
    · rw [numLit_parseFloatDec (decide (m < 0)) I [] hIne hIdig rfl]
      show _ = candPair (decide (m < 0)) s p
      unfold candPair
      rw [if_pos hp0]
      rw [Prod.mk.injEq]
      refine ⟨?_, rfl⟩
      simp only [List.length_nil, pow_zero, mul_one,
        show digitsToNat [] = 0 from rfl, Nat.add_zero]
      rw [hIval]
      cases hneg : decide (m < 0)
      · simp only [Bool.false_eq_true, if_false]
        push_cast
        ring
      · simp only [if_pos rfl]
        push_cast
        ring
  · by_cases hb2 : 0 < p + ((natToDigits s).length : Int) ∧
        p + ((natToDigits s).length : Int) ≤ 21
    · -- digits split by a decimal point
      have hplt : p < 0 := by omega
      have hnlt : (p + ((natToDigits s).length : Int)).toNat < (natToDigits s).length := by
        omega
      set I : List Char := (natToDigits s).take
        (p + ((natToDigits s).length : Int)).toNat with hI
      set F : List Char := (natToDigits s).drop
        (p + ((natToDigits s).length : Int)).toNat with hF
      have hIlen : I.length = (p + ((natToDigits s).length : Int)).toNat := by
        rw [hI, List.length_take]
        omega
      have hFlen : F.length = (natToDigits s).length
          - (p + ((natToDigits s).length : Int)).toNat := by
        rw [hF, List.length_drop]
      have hIne : I ≠ [] := by
        intro hc
        rw [hc] at hIlen
        simp at hIlen
        omega
      have hFne : F ≠ [] := by
        intro hc
        rw [hc] at hFlen
        simp at hFlen
        omega
      have hIdig : I.all isDigitCh = true := by
        rw [List.all_eq_true]
        intro x hx
        exact List.all_eq_true.mp (natToDigits_all_digits s) x (List.take_subset _ _ hx)
      have hFdig : F.all isDigitCh = true := by
        rw [List.all_eq_true]
        intro x hx
        exact List.all_eq_true.mp (natToDigits_all_digits s) x (List.drop_subset _ _ hx)
      have hIFval : digitsToNat I * 10 ^ F.length + digitsToNat F = s := by
        rw [← digitsToNat_append, hI, hF, List.take_append_drop, digitsToNat_natToDigits]
      have hFlen2 : F.length = (-p).toNat := by
        rw [hFlen]
        omega
      have hFemp : F.isEmpty = false := by
        rcases hc : F with _ | ⟨a, t⟩
        · exact absurd hc hFne
        · rfl
      refine ⟨I, F, ?_, hIne, hIdig, hFdig, ?_, ?_⟩
      · rw [if_neg hb1, if_pos hb2]
        unfold numLitText
        rw [hFemp]
        simp only [Bool.false_eq_true, if_false]
        by_cases hneg : m < 0 <;> simp [hneg, hI, hF]
      · rw [numLit_parseFloatDec (decide (m < 0)) I F hIne hIdig hFdig]
        show _ = candPair (decide (m < 0)) s p
        unfold candPair
        rw [if_neg (by omega : ¬ (0:Int) ≤ p)]
        rw [Prod.mk.injEq]
        refine ⟨?_, hFlen2⟩
        rw [hIFval]
      · intro hple
        exact absurd hple (by omega)
    · -- leading `0.` with padding zeros
      have hb3 : -5 ≤ p + ((natToDigits s).length : Int) ∧
          p + ((natToDigits s).length : Int) ≤ 0 := by omega
      have hplt : p < 0 := by omega
      set F : List Char := List.replicate (-(p + ((natToDigits s).length : Int))).toNat '0'
        ++ natToDigits s with hF
      have hFne : F ≠ [] := by
        rw [hF]
        intro hc
        rw [List.append_eq_nil] at hc
        exact hdne hc.2
      have hFdig : F.all isDigitCh = true := by
        rw [hF, List.all_append, Bool.and_eq_true]
        refine ⟨?_, natToDigits_all_digits s⟩
        rw [List.all_eq_true]
        intro x hx
        rw [List.eq_of_mem_replicate hx]
        decide
      have hFval : digitsToNat F = s := by
        rw [hF, digitsToNat_replicate_zero, digitsToNat_natToDigits]
      have hFlen2 : F.length = (-p).toNat := by
        rw [hF, List.length_append, List.length_replicate]
        omega
      have hFemp : F.isEmpty = false := by
        rcases hc : F with _ | ⟨a, t⟩
        · exact absurd hc hFne
        · rfl
      refine ⟨['0'], F, ?_, by decide, by decide, hFdig, ?_, ?_⟩
      · rw [if_neg hb1, if_neg hb2, if_pos hb3]
        unfold numLitText
        rw [hFemp]
        simp only [Bool.false_eq_true, if_false]
        by_cases hneg : m < 0 <;> simp [hneg, hF]
      · rw [numLit_parseFloatDec (decide (m < 0)) ['0'] F (by decide) (by decide) hFdig]
        show _ = candPair (decide (m < 0)) s p
        unfold candPair
        rw [if_neg (by omega : ¬ (0:Int) ≤ p)]
        rw [Prod.mk.injEq]
        refine ⟨?_, hFlen2⟩
        rw [hFval]
        rw [show digitsToNat ['0'] = 0 from rfl]
        simp only [Nat.zero_mul, Nat.zero_add]
      · intro hple
        exact absurd hple (by omega)

theorem numberValue_render_float (m : Int) (e : Nat) (he : 1 ≤ e)
    (hfix : roundDbl m e = Dbl.fin m e) (hpos : posRender m e = true) :
    numberValue ⟨jsNumChars m e⟩ = .float m e := by
  have hm : m ≠ 0 := by
    intro h0
    subst h0
    rw [roundDbl_zeroE] at hfix
    injection hfix with h1 h2
    omega
  obtain ⟨I, F, heq, hI, hId, hFd, hpf, hF0⟩ := jsNumChars_shape hm hpos
  obtain ⟨hcand, hsp, hp0⟩ := jsDigits_spec hm hfix
  have hr : roundDbl (parseFloatDec ⟨numLitText (decide (m < 0)) I F⟩).1
      (parseFloatDec ⟨numLitText (decide (m < 0)) I F⟩).2 = Dbl.fin m e := by
    rw [hpf]
    exact candOK_eq hcand
  rw [heq]
  unfold numberValue
  rw [hr]
  simp only []
  rw [if_neg (by omega)]

theorem numberValue_render_int (n : Int) (hfix : roundDbl n 0 = Dbl.fin n 0)
    (hpos : posRender n 0 = true) :
    numberValue ⟨jsNumChars n 0⟩ = .int n := by
  by_cases hn : n = 0
  · subst hn
    rfl
  · obtain ⟨I, F, heq, hI, hId, hFd, hpf, hF0⟩ := jsNumChars_shape hn hpos
    obtain ⟨hcand, hsp, hp0⟩ := jsDigits_spec hn hfix
    have hFnil : F = [] := hF0 (hp0 rfl)
    subst hFnil
    have hr : roundDbl (parseFloatDec ⟨numLitText (decide (n < 0)) I []⟩).1
        (parseFloatDec ⟨numLitText (decide (n < 0)) I []⟩).2 = Dbl.fin n 0 := by
      rw [hpf]
      exact candOK_eq hcand
    have hpfv := numLit_parseFloatDec (decide (n < 0)) I [] hI hId rfl
    have hpiv := numLit_parseIntM (decide (n < 0)) I [] hI hId
    have hpi_eq : parseIntM ⟨numLitText (decide (n < 0)) I []⟩
        = (parseFloatDec ⟨numLitText (decide (n < 0)) I []⟩).1 := by
      rw [hpfv, hpiv]
      simp only [List.length_nil, pow_zero, mul_one,
        show digitsToNat [] = 0 from rfl, Nat.add_zero]
    have hr2 : roundDbl (parseFloatDec ⟨numLitText (decide (n < 0)) I []⟩).1 0
        = Dbl.fin n 0 := by
      have h2 : (parseFloatDec ⟨numLitText (decide (n < 0)) I []⟩).2 = 0 := by
        rw [hpfv]
        rfl
      have hr' := hr
      rw [h2] at hr'
      exact hr'
    rw [heq]
    unfold numberValue
    rw [hpi_eq, hr2, hr]
    rfl

theorem emits_key {k : String} (hk : isIdentText k.data = true)
    (hyes : k ≠ "yes") (hno : k ≠ "no") : Emits k.data [(.Identifier, k)] :=
  Emits.chunk (scansTo_identText hk (str_ne_data hyes) (str_ne_data hno))

theorem emits_op {o : String} (h : isOpLit o = true) :
    Emits o.data [(opTokType o, o)] := by
  simp only [isOpLit, Bool.or_eq_true, beq_iff_eq] at h
  rcases h with ((((((rfl | rfl) | rfl) | rfl) | rfl) | rfl) | rfl)
  · exact Emits.chunk scansTo_eq
  · exact Emits.chunk scansTo_lt
  · exact Emits.chunk scansTo_gt
  · exact Emits.chunk scansTo_le
  · exact Emits.chunk scansTo_ge
  · exact Emits.chunk scansTo_bang
  · exact Emits.chunk scansTo_diamond

theorem emits_prim (p : Prim) (hwf : WfPrim p = true) (hyn : noYNPrim p = true)
    (hsf : SafePrim p = true) :
    Emits (renderPrim p) [primTok p] := by
  cases p with
  | str s =>
      simp only [WfPrim, Bool.not_eq_true', beq_eq_false_iff_ne] at hwf
      simp only [noYNPrim, Bool.and_eq_true, Bool.not_eq_true', beq_eq_false_iff_ne] at hyn
      by_cases hid : isIdentText s.data = true
      · rw [show renderPrim (.str s) = s.data by simp [renderPrim, hid]]
        rw [show primTok (.str s) = (.Identifier, s) by simp [primTok, hid]]
        exact emits_key hid hyn.1 hyn.2
      · rw [show renderPrim (.str s) = '"' :: (escapeQ s.data ++ ['"']) by
          simp [renderPrim, hid]]
        rw [show primTok (.str s) = (.String, s) by simp [primTok, hid]]
        exact Emits.chunk (scansTo_string hwf)
  | int n =>
      by_cases hn0 : n = 0
      · subst hn0
        rw [show renderPrim (.int 0) = numLitText false ['0'] [] from rfl]
        rw [show primTok (.int 0) = (.Number, ⟨numLitText false ['0'] []⟩) from rfl]
        exact Emits.chunk (scansTo_numLit (by decide) (by decide) rfl)
      · have hpos : posRender n 0 = true := hsf
        obtain ⟨I, F, heq, hI, hId, hFd, hpf2, hF0⟩ := jsNumChars_shape hn0 hpos
        rw [show renderPrim (.int n) = jsNumChars n 0 from rfl]
        rw [show primTok (.int n) = (.Number, ⟨jsNumChars n 0⟩) from rfl]
        rw [heq]
        exact Emits.chunk (scansTo_numLit hI hId hFd)
  | float m e =>
      simp only [WfPrim, Bool.and_eq_true, decide_eq_true_eq, beq_iff_eq] at hwf
      have hm0 : m ≠ 0 := by
        intro h0
        subst h0
        have h2 := hwf.2
        rw [roundDbl_zeroE] at h2
        injection h2 with h1 h2
        omega
      have hpos : posRender m e = true := hsf
      obtain ⟨I, F, heq, hI, hId, hFd, hpf2, hF0⟩ := jsNumChars_shape hm0 hpos
      rw [show renderPrim (.float m e) = jsNumChars m e from rfl]
      rw [show primTok (.float m e) = (.Number, ⟨jsNumChars m e⟩) from rfl]
      rw [heq]
      exact Emits.chunk (scansTo_numLit hI hId hFd)
  | inf ng =>
      simp [SafePrim] at hsf
  | bool b =>
      cases b
      · exact Emits.chunk scansTo_no
      · exact Emits.chunk scansTo_yes

theorem emits_prim_join (vs : List Prim) (hwf : vs.all WfPrim = true)
    (hyn : vs.all noYNPrim = true) (hsf : vs.all SafePrim = true) :
    Emits (joinSep [' '] (vs.map renderPrim)) (vs.map primTok) := by
  induction vs with
  | nil => exact Emits.nil
  | cons p ps ih =>
      simp only [List.all_cons, Bool.and_eq_true] at hwf hyn hsf
      cases ps with
      | nil => exact emits_prim p hwf.1 hyn.1 hsf.1
      | cons q qs =>
          rw [show joinSep [' '] ((p :: q :: qs).map renderPrim)
              = renderPrim p ++ (' ' :: joinSep [' '] ((q :: qs).map renderPrim)) by
            rw [List.map_cons, List.map_cons]
            simp [joinSep]]
          exact Emits.append (emits_prim p hwf.1 hyn.1 hsf.1)
            (Emits.wsCons (by decide) (ih hwf.2 hyn.2 hsf.2))
            (.inr ⟨' ', _, rfl, by decide⟩)

mutual

theorem emits_value (ind : List Char) (hind : ∀ x ∈ ind, isWsCh x = true) (depth : Nat)
    (v : Value) (hwf : WfValue v = true) (hyn : noYNValue v = true)
    (hsf : SafeValue v = true) :
    Emits (renderValue ind depth v) (valueToks v) := by
  cases v with
  | prim p =>
      rw [show renderValue ind depth (.prim p) = renderPrim p by simp [renderValue]]
      rw [show valueToks (.prim p) = [primTok p] by simp [valueToks]]
      exact emits_prim p (by simpa [WfValue] using hwf) (by simpa [noYNValue] using hyn)
        (by simpa [SafeValue] using hsf)
  | arr vs =>
      have hwf2 : vs.all WfPrim = true := by
        simp only [WfValue, Bool.and_eq_true] at hwf
        exact hwf.2
      have hyn2 : vs.all noYNPrim = true := by simpa [noYNValue] using hyn
      have hsf2 : vs.all SafePrim = true := by simpa [SafeValue] using hsf
      rw [show renderValue ind depth (.arr vs)
          = '{' :: (' ' :: (joinSep [' '] (vs.map renderPrim) ++ (' ' :: ['}'])))
          by simp [renderValue]]
      rw [show valueToks (.arr vs)
          = [((.LeftBrace : TokenType), ("\x7b" : String))]
            ++ (vs.map primTok ++ [((.RightBrace : TokenType), ("\x7d" : String))])
          by simp [valueToks]]
      exact Emits.append (Emits.chunk scansTo_lbrace)
        (Emits.wsCons (by decide)
          (Emits.append (emits_prim_join vs hwf2 hyn2 hsf2)
            (Emits.wsCons (by decide) (Emits.chunk scansTo_rbrace))
            (.inr ⟨' ', ['}'], rfl, by decide⟩)))
        (.inr ⟨' ', _, rfl, by decide⟩)
  | block ps =>
      have hps : WfProps ps = true := by simpa [WfValue] using hwf
      have hynps : noYNProps ps = true := by simpa [noYNValue] using hyn
      have hsfps : SafeProps ps = true := by simpa [SafeValue] using hsf
      rw [show valueToks (.block ps)
          = [((.LeftBrace : TokenType), ("\x7b" : String))]
            ++ (propsToks ps ++ [((.RightBrace : TokenType), ("\x7d" : String))])
          by simp [valueToks]]
      cases ps with
      | nil =>
          rw [show renderValue ind depth (.block []) = ['{', ' ', '}'] by simp [renderValue]]
          rw [show propsToks ([] : List Property) = [] by simp [propsToks]]
          exact Emits.append (Emits.chunk scansTo_lbrace)
            (Emits.wsCons (by decide) (Emits.chunk scansTo_rbrace))
            (.inr ⟨' ', _, rfl, by decide⟩)
      | cons p0 ps0 =>
          by_cases hinl :
              ((p0 :: ps0).length ≤ 3 && (p0 :: ps0).all fun p => isPrimValue p.value) = true
          · rw [show renderValue ind depth (.block (p0 :: ps0))
                = '{' :: (' ' :: (renderPropsInline ind depth (p0 :: ps0) ++ (' ' :: ['}'])))
                by unfold renderValue; rw [if_neg (by simp), if_pos hinl]]
            exact Emits.append (Emits.chunk scansTo_lbrace)
              (Emits.wsCons (by decide)
                (Emits.append (emits_props_inline ind hind depth (p0 :: ps0) hps hynps hsfps)
                  (Emits.wsCons (by decide) (Emits.chunk scansTo_rbrace))
                  (.inr ⟨' ', ['}'], rfl, by decide⟩)))
              (.inr ⟨' ', _, rfl, by decide⟩)
          · rw [show renderValue ind depth (.block (p0 :: ps0))
                = '{' :: ('\n' :: (renderPropsMulti ind depth (p0 :: ps0) ++
                    ('\n' :: (repeatInd ind depth ++ ['}']))))
                by unfold renderValue; rw [if_neg (by simp), if_neg hinl]]
            exact Emits.append (Emits.chunk scansTo_lbrace)
              (Emits.wsCons (by decide)
                (Emits.append (emits_props_multi ind hind depth (p0 :: ps0) hps hynps hsfps)
                  (Emits.wsCons (by decide)
                    (Emits.wsPrefix (fun x hx => mem_repeatInd hind depth x hx)
                      (Emits.chunk scansTo_rbrace)))
                  (.inr ⟨'\n', _, rfl, by decide⟩)))
              (.inr ⟨'\n', _, rfl, by decide⟩)

theorem emits_prop (ind : List Char) (hind : ∀ x ∈ ind, isWsCh x = true) (depth : Nat)
    (p : Property) (hwf : WfProp p = true) (hyn : noYNProp p = true)
    (hsf : SafeProp p = true) :
    Emits (renderProp ind depth p) (propToks p) := by
  match p with
  | .mk k o v =>
      simp only [WfProp, Bool.and_eq_true, Bool.not_eq_true', beq_eq_false_iff_ne] at hwf
      obtain ⟨⟨⟨⟨hk, hyes⟩, hno⟩, hop⟩, hv⟩ := hwf
      simp only [noYNProp] at hyn
      simp only [SafeProp] at hsf
      rw [show renderProp ind depth (.mk k o v)
          = k.data ++ (' ' :: (o.data ++ (' ' :: renderValue ind depth v)))
          by simp [renderProp]]
      rw [show propToks (.mk k o v)
          = [((.Identifier : TokenType), k)] ++ ((opTokType o, o) :: valueToks v)
          by simp [propToks]]
      exact Emits.append (emits_key hk hyes hno)
        (Emits.wsCons (by decide)
          (Emits.append (emits_op hop)
            (Emits.wsCons (by decide) (emits_value ind hind depth v hv hyn hsf))
            (.inr ⟨' ', _, rfl, by decide⟩)))
        (.inr ⟨' ', _, rfl, by decide⟩)

theorem emits_props_inline (ind : List Char) (hind : ∀ x ∈ ind, isWsCh x = true) (depth : Nat)
    (ps : List Property) (hwf : WfProps ps = true) (hyn : noYNProps ps = true)
    (hsf : SafeProps ps = true) :
    Emits (renderPropsInline ind depth ps) (propsToks ps) := by
  match ps with
  | [] => exact Emits.nil
  | [p] =>
      simp only [WfProps, Bool.and_eq_true] at hwf
      simp only [noYNProps, Bool.and_eq_true] at hyn
      simp only [SafeProps, Bool.and_eq_true] at hsf
      rw [show renderPropsInline ind depth [p] = renderProp ind depth p
          by simp [renderPropsInline]]
      rw [show propsToks [p] = propToks p by simp [propsToks]]
      exact emits_prop ind hind depth p hwf.1 hyn.1 hsf.1
  | p :: q :: qs =>
      rw [WfProps, Bool.and_eq_true] at hwf
      rw [noYNProps, Bool.and_eq_true] at hyn
      rw [SafeProps, Bool.and_eq_true] at hsf
      rw [show renderPropsInline ind depth (p :: q :: qs)
          = renderProp ind depth p ++ (' ' :: renderPropsInline ind depth (q :: qs))
          by simp [renderPropsInline]]
      rw [show propsToks (p :: q :: qs) = propToks p ++ propsToks (q :: qs)
          by simp [propsToks]]
      exact Emits.append (emits_prop ind hind depth p hwf.1 hyn.1 hsf.1)
        (Emits.wsCons (by decide)
          (emits_props_inline ind hind depth (q :: qs) hwf.2 hyn.2 hsf.2))
        (.inr ⟨' ', _, rfl, by decide⟩)

theorem emits_props_multi (ind : List Char) (hind : ∀ x ∈ ind, isWsCh x = true) (depth : Nat)
    (ps : List Property) (hwf : WfProps ps = true) (hyn : noYNProps ps = true)
    (hsf : SafeProps ps = true) :
    Emits (renderPropsMulti ind depth ps) (propsToks ps) := by
  match ps with
  | [] => exact Emits.nil
  | [p] =>
      simp only [WfProps, Bool.and_eq_true] at hwf
      simp only [noYNProps, Bool.and_eq_true] at hyn
      simp only [SafeProps, Bool.and_eq_true] at hsf
      rw [show renderPropsMulti ind depth [p]
          = repeatInd ind (depth + 1) ++ renderProp ind (depth + 1) p
          by simp [renderPropsMulti]]
      rw [show propsToks [p] = propToks p by simp [propsToks]]
      exact Emits.wsPrefix (fun x hx => mem_repeatInd hind (depth + 1) x hx)
        (emits_prop ind hind (depth + 1) p hwf.1 hyn.1 hsf.1)
  | p :: q :: qs =>
      rw [WfProps, Bool.and_eq_true] at hwf
      rw [noYNProps, Bool.and_eq_true] at hyn
      rw [SafeProps, Bool.and_eq_true] at hsf
      rw [show renderPropsMulti ind depth (p :: q :: qs)
          = repeatInd ind (depth + 1) ++ (renderProp ind (depth + 1) p ++
              ('\n' :: renderPropsMulti ind depth (q :: qs)))
          by simp [renderPropsMulti]]
      rw [show propsToks (p :: q :: qs) = propToks p ++ propsToks (q :: qs)
          by simp [propsToks]]
      exact Emits.wsPrefix (fun x hx => mem_repeatInd hind (depth + 1) x hx)
        (Emits.append (emits_prop ind hind (depth + 1) p hwf.1 hyn.1 hsf.1)
          (Emits.wsCons (by decide)
            (emits_props_multi ind hind depth (q :: qs) hwf.2 hyn.2 hsf.2))
          (.inr ⟨'\n', _, rfl, by decide⟩))

end

/-! ## Re-parsing of rendered token streams (for C1) -/

theorem strip_parts {t : Token} {ty : TokenType} {v : String} (h : strip t = (ty, v)) :
    t.type = ty ∧ t.value = v := by
  simp only [strip, Prod.mk.injEq] at h
  exact h

theorem opOf_canon {o : String} (hop : isOpLit o = true) {t : Token}
    (h : strip t = (opTokType o, o)) : opOf t = some o := by
  obtain ⟨hty, hv⟩ := strip_parts h
  simp only [isOpLit, Bool.or_eq_true, beq_iff_eq] at hop
  rcases hop with ((((((rfl | rfl) | rfl) | rfl) | rfl) | rfl) | rfl) <;>
    simp [opOf, hty, opTokType, hv]

theorem primTok_not_op (p : Prim) : isOperatorType (primTok p).1 = false := by
  cases p with
  | str s =>
      by_cases h : isIdentText s.data = true
      · simp [primTok, h, isOperatorType]
      · simp [primTok, h, isOperatorType]
  | int n => simp [primTok, isOperatorType]
  | float m e => simp [primTok, isOperatorType]
  | inf ng => simp [primTok, isOperatorType]
  | bool b => simp [primTok, isOperatorType]

theorem primTok_head_type {p : Prim} (h : headPrimNumBool p = true)
    (hsf : SafePrim p = true) :
    (primTok p).1 = .Number ∨ (primTok p).1 = .Boolean := by
  cases p with
  | str s => simp [headPrimNumBool] at h
  | int n => exact .inl rfl
  | float m e => exact .inl rfl
  | inf ng => simp [SafePrim] at hsf
  | bool b => exact .inr rfl

theorem parseValueArray_canon (vs : List Prim) (hwf : vs.all WfPrim = true)
    (hsf : vs.all SafePrim = true) :
    ∀ (tsv : List Token) (rb : Token) (r2 : List Token),
      tsv.map strip = vs.map primTok → rb.type = .RightBrace →
      parseValueArray (tsv ++ rb :: r2) = (vs, rb :: r2) := by
  induction vs with
  | nil =>
      intro tsv rb r2 hmap hrb
      have htsv : tsv = [] := by
        cases tsv with
        | nil => rfl
        | cons a b => simp at hmap
      subst htsv
      show parseValueArray (rb :: r2) = ([], rb :: r2)
      unfold parseValueArray
      rw [if_pos (by simp [hrb])]
  | cons p ps ih =>
      intro tsv rb r2 hmap hrb
      simp only [List.all_cons, Bool.and_eq_true] at hwf hsf
      cases tsv with
      | nil => simp at hmap
      | cons t tsv' =>
          simp only [List.map_cons, List.cons.injEq] at hmap
          obtain ⟨hstrip, hmap'⟩ := hmap
          have hrec := ih hwf.2 hsf.2 tsv' rb r2 hmap' hrb
          show parseValueArray (t :: (tsv' ++ rb :: r2)) = (p :: ps, rb :: r2)
          unfold parseValueArray
          cases p with
          | str s =>
              by_cases hid : isIdentText s.data = true
              · have hstrip2 : strip t = (.Identifier, s) :=
                  hstrip.trans (by simp [primTok, hid])
                obtain ⟨hty2, hval⟩ := strip_parts hstrip2
                rw [if_neg (by simp [hty2]), if_neg (by simp [hty2]),
                  if_neg (by simp [hty2]), if_neg (by simp [hty2]), if_pos (by simp [hty2])]
                rw [hrec]
                simp [hval]
              · have hstrip2 : strip t = (.String, s) :=
                  hstrip.trans (by simp [primTok, hid])
                obtain ⟨hty2, hval⟩ := strip_parts hstrip2
                rw [if_neg (by simp [hty2]), if_neg (by simp [hty2]), if_pos (by simp [hty2])]
                rw [hrec]
                simp [hval]
          | int n =>
              obtain ⟨hty, hval⟩ := strip_parts
                (show strip t = ((.Number : TokenType), (⟨jsNumChars n 0⟩ : String)) from hstrip)
              rw [if_neg (by simp [hty]), if_pos (by simp [hty])]
              rw [hrec]
              simp only [hval]
              rw [numberValue_render_int n (of_decide_eq_true hwf.1) hsf.1]
          | float m e =>
              obtain ⟨hty, hval⟩ := strip_parts
                (show strip t = ((.Number : TokenType), (⟨jsNumChars m e⟩ : String)) from hstrip)
              simp only [WfPrim, Bool.and_eq_true, decide_eq_true_eq, beq_iff_eq] at hwf
              rw [if_neg (by simp [hty]), if_pos (by simp [hty])]
              rw [hrec]
              simp only [hval]
              rw [numberValue_render_float m e hwf.1.1 hwf.1.2 hsf.1]
          | inf ng =>
              simp [SafePrim] at hsf
          | bool b =>
              obtain ⟨hty, hval⟩ := strip_parts
                (show strip t = ((.Boolean : TokenType), if b then "yes" else "no")
                  from hstrip)
              rw [if_neg (by simp [hty]), if_neg (by simp [hty]), if_neg (by simp [hty]),
                if_pos (by simp [hty])]
              rw [hrec]
              simp only [hval]
              cases b <;> simp


theorem isValueArray_rb {t : Token} (h : t.type = .RightBrace) (r : List Token) :
    isValueArray (t :: r) = false := by
  unfold isValueArray
  simp [h]

theorem isValueArray_ident {t : Token} (h : t.type = .Identifier) (r : List Token) :
    isValueArray (t :: r) = false := by
  unfold isValueArray
  simp [h]

theorem isValueArray_canon_true {t1 : Token} (h1 : t1.type = .Number ∨ t1.type = .Boolean)
    {t2 : Token} (h2 : isOperatorType t2.type = false) (r : List Token) :
    isValueArray (t1 :: t2 :: r) = true := by
  unfold isValueArray
  rcases h1 with h | h <;> simp [h, h2]

/-- The remainder at which `parseProperties` stops: end of stream, or a
token of `EOF`/`RightBrace` type. -/
def StopTok (rest : List Token) : Prop :=
  rest = [] ∨ ∃ t r, rest = t :: r ∧ (t.type = .EOF ∨ t.type = .RightBrace)

mutual

theorem parseValue_canon (v : Value) (hwf : WfValue v = true)
    (hsf : SafeValue v = true) :
    ∀ (tsv rest : List Token) (fuel : Nat),
      tsv.map strip = valueToks v → 2 * tsv.length + 3 ≤ fuel →
      parseValue fuel (tsv ++ rest) = .ok (v, rest) := by
  intro tsv rest fuel hmap hfuel
  cases fuel with
  | zero => omega
  | succ f =>
  cases v with
  | prim p =>
      rw [show valueToks (.prim p) = [primTok p] by simp [valueToks]] at hmap
      cases tsv with
      | nil => simp at hmap
      | cons t tsv2 =>
      cases tsv2 with
      | cons a b => simp at hmap
      | nil =>
      simp only [List.map_cons, List.map_nil, List.cons.injEq, and_true] at hmap
      show parseValue (f + 1) (t :: rest) = .ok (.prim p, rest)
      unfold parseValue
      simp only []
      cases p with
      | str s =>
          by_cases hid : isIdentText s.data = true
          · have hmap2 : strip t = (.Identifier, s) :=
              hmap.trans (by simp [primTok, hid])
            obtain ⟨hty, hval⟩ := strip_parts hmap2
            rw [if_neg (by simp [hty]), if_neg (by simp [hty]), if_neg (by simp [hty]),
              if_neg (by simp [hty]), if_pos hty]
            rw [hval]
          · have hmap2 : strip t = (.String, s) :=
              hmap.trans (by simp [primTok, hid])
            obtain ⟨hty, hval⟩ := strip_parts hmap2
            rw [if_neg (by simp [hty]), if_pos hty]
            rw [hval]
      | int n =>
          obtain ⟨hty, hval⟩ := strip_parts hmap
          rw [if_neg (by simp [hty]), if_neg (by simp [hty]), if_pos hty]
          rw [hval, numberValue_render_int n (of_decide_eq_true hwf) hsf]
      | float m e =>
          simp only [WfValue, WfPrim, Bool.and_eq_true, decide_eq_true_eq,
            beq_iff_eq] at hwf
          obtain ⟨hty, hval⟩ := strip_parts hmap
          rw [if_neg (by simp [hty]), if_neg (by simp [hty]), if_pos hty]
          rw [hval, numberValue_render_float m e hwf.1 hwf.2 hsf]
      | inf ng =>
          simp [SafeValue, SafePrim] at hsf
      | bool b =>
          obtain ⟨hty, hval⟩ := strip_parts hmap
          rw [if_neg (by simp [hty]), if_neg (by simp [hty]), if_neg (by simp [hty]),
            if_pos hty]
          rw [hval]
          cases b <;> rfl
  | arr vs =>
      cases vs with
      | nil => simp [WfValue] at hwf
      | cons v1 vs' =>
      simp only [WfValue, Bool.and_eq_true] at hwf
      obtain ⟨hhead, hall⟩ := hwf
      have hsfall : (v1 :: vs').all SafePrim = true := by simpa [SafeValue] using hsf
      rw [show valueToks (.arr (v1 :: vs'))
          = ((.LeftBrace : TokenType), ("\x7b" : String)) ::
            ((v1 :: vs').map primTok ++ [((.RightBrace : TokenType), ("\x7d" : String))])
          by simp [valueToks]] at hmap
      cases tsv with
      | nil => simp at hmap
      | cons tL ts2 =>
      simp only [List.map_cons, List.cons.injEq] at hmap
      obtain ⟨hL, hmap2⟩ := hmap
      obtain ⟨hLty, hLval⟩ := strip_parts hL
      obtain ⟨tsvv, tsR, hts2, hmvv, hmR⟩ := List.append_eq_map_iff.mp hmap2.symm
      have htR : ∃ tRB, tsR = [tRB] ∧ tRB.type = .RightBrace := by
        cases tsR with
        | nil => simp at hmR
        | cons tRB tr2 =>
            cases tr2 with
            | cons x y => simp at hmR
            | nil =>
                simp only [List.map_cons, List.map_nil, List.cons.injEq, and_true] at hmR
                exact ⟨tRB, rfl, (strip_parts hmR).1⟩
      obtain ⟨tRB, rfl, hRBty⟩ := htR
      subst hts2
      cases tsvv with
      | nil => simp at hmvv
      | cons t1 tsvv' =>
      have hmvv2 := hmvv
      simp only [List.map_cons, List.cons.injEq] at hmvv2
      obtain ⟨h1, hmvv'⟩ := hmvv2
      have h1ty : t1.type = .Number ∨ t1.type = .Boolean := by
        rw [(strip_parts h1).1]
        exact primTok_head_type hhead (by
          simp only [List.all_cons, Bool.and_eq_true] at hsfall
          exact hsfall.1)
      simp only [List.length_cons, List.length_append, List.length_nil] at hfuel
      cases f with
      | zero => omega
      | succ g =>
      show parseValue (g + 1 + 1) (tL :: (((t1 :: tsvv') ++ [tRB]) ++ rest)) = _
      unfold parseValue
      simp only []
      rw [if_pos hLty]
      have hb : parseBlockOrArray (g + 1) (((t1 :: tsvv') ++ [tRB]) ++ rest)
          = .ok (.arr (v1 :: vs'), rest) := by
        unfold parseBlockOrArray
        have hva : isValueArray (((t1 :: tsvv') ++ [tRB]) ++ rest) = true := by
          cases tsvv' with
          | nil =>
              exact isValueArray_canon_true h1ty (by rw [hRBty]; rfl) rest
          | cons t2 ts3 =>
              have hop2 : isOperatorType t2.type = false := by
                cases vs' with
                | nil => simp at hmvv'
                | cons v2 vs'' =>
                    have := hmvv'
                    simp only [List.map_cons, List.cons.injEq] at this
                    rw [(strip_parts this.1).1]
                    exact primTok_not_op v2
              exact isValueArray_canon_true h1ty hop2 _
        rw [if_pos hva]
        rw [show ((t1 :: tsvv') ++ [tRB]) ++ rest = (t1 :: tsvv') ++ (tRB :: rest) by simp]
        rw [parseValueArray_canon (v1 :: vs') hall hsfall (t1 :: tsvv') tRB rest hmvv hRBty]
        simp only []
        rw [if_pos hRBty]
      rw [hb]
  | block ps =>
      rw [show valueToks (.block ps)
          = ((.LeftBrace : TokenType), ("\x7b" : String)) ::
            (propsToks ps ++ [((.RightBrace : TokenType), ("\x7d" : String))])
          by simp [valueToks]] at hmap
      cases tsv with
      | nil => simp at hmap
      | cons tL ts2 =>
      simp only [List.map_cons, List.cons.injEq] at hmap
      obtain ⟨hL, hmap2⟩ := hmap
      obtain ⟨hLty, hLval⟩ := strip_parts hL
      obtain ⟨tsP, tsR, hts2, hmP, hmR⟩ := List.append_eq_map_iff.mp hmap2.symm
      have htR : ∃ tRB, tsR = [tRB] ∧ tRB.type = .RightBrace := by
        cases tsR with
        | nil => simp at hmR
        | cons tRB tr2 =>
            cases tr2 with
            | cons x y => simp at hmR
            | nil =>
                simp only [List.map_cons, List.map_nil, List.cons.injEq, and_true] at hmR
                exact ⟨tRB, rfl, (strip_parts hmR).1⟩
      obtain ⟨tRB, rfl, hRBty⟩ := htR
      subst hts2
      have hwfps : WfProps ps = true := by simpa [WfValue] using hwf
      have hsfps : SafeProps ps = true := by simpa [SafeValue] using hsf
      simp only [List.length_cons, List.length_append, List.length_nil] at hfuel
      cases f with
      | zero => omega
      | succ g =>
      show parseValue (g + 1 + 1) (tL :: ((tsP ++ [tRB]) ++ rest)) = _
      unfold parseValue
      simp only []
      rw [if_pos hLty]
      have hb : parseBlockOrArray (g + 1) ((tsP ++ [tRB]) ++ rest)
          = .ok (.block ps, rest) := by
        unfold parseBlockOrArray
        have hva : isValueArray ((tsP ++ [tRB]) ++ rest) = false := by
          cases ps with
          | nil =>
              have hnil : tsP = [] := by
                cases tsP with
                | nil => rfl
                | cons a b =>
                    rw [show propsToks [] = [] by simp [propsToks]] at hmP
                    simp at hmP
              subst hnil
              exact isValueArray_rb hRBty _
          | cons p0 ps0 =>
              match p0 with
              | .mk k o v =>
              rw [show propsToks (Property.mk k o v :: ps0)
                  = ((.Identifier : TokenType), k) ::
                    ((opTokType o, o) :: (valueToks v ++ propsToks ps0))
                  by simp [propsToks, propToks]] at hmP
              cases tsP with
              | nil => simp at hmP
              | cons tK tsP2 =>
                  have hmK := hmP
                  simp only [List.map_cons, List.cons.injEq] at hmK
                  exact isValueArray_ident (strip_parts hmK.1).1 _
        rw [if_neg (by rw [hva]; exact Bool.false_ne_true)]
        rw [show (tsP ++ [tRB]) ++ rest = tsP ++ (tRB :: rest) by simp]
        rw [parseProperties_canon ps hwfps hsfps tsP (tRB :: rest) g hmP
          (.inr ⟨tRB, rest, rfl, .inr hRBty⟩) (by omega)]
        simp only []
        rw [if_pos hRBty]
      rw [hb]

theorem parseProperties_canon (ps : List Property) (hwf : WfProps ps = true)
    (hsf : SafeProps ps = true) :
    ∀ (ts rest : List Token) (fuel : Nat),
      ts.map strip = propsToks ps → StopTok rest → 2 * ts.length + 2 ≤ fuel →
      parseProperties fuel (ts ++ rest) = .ok (ps, rest) := by
  intro ts rest fuel hmap hstop hfuel
  cases fuel with
  | zero => omega
  | succ f =>
  cases ps with
  | nil =>
      have hts : ts = [] := by
        rw [show propsToks [] = [] by simp [propsToks]] at hmap
        cases ts with
        | nil => rfl
        | cons a b => simp at hmap
      subst hts
      show parseProperties (f + 1) rest = .ok ([], rest)
      unfold parseProperties
      rcases hstop with rfl | ⟨t, r, rfl, hty⟩
      · rfl
      · simp only []
        rw [if_pos (by rcases hty with h | h <;> simp [h])]
  | cons p0 ps' =>
      match p0 with
      | .mk k o v =>
      rw [show propsToks (Property.mk k o v :: ps')
          = ((.Identifier : TokenType), k) ::
            ((opTokType o, o) :: (valueToks v ++ propsToks ps'))
          by simp [propsToks, propToks]] at hmap
      cases ts with
      | nil => simp at hmap
      | cons tK ts1 =>
      cases ts1 with
      | nil => simp at hmap
      | cons tO ts2 =>
      simp only [List.map_cons, List.cons.injEq] at hmap
      obtain ⟨hK, hO, hmap2⟩ := hmap
      obtain ⟨hKty, hKval⟩ := strip_parts hK
      rw [WfProps, Bool.and_eq_true] at hwf
      obtain ⟨hwp, hwps'⟩ := hwf
      rw [SafeProps, Bool.and_eq_true] at hsf
      obtain ⟨hsfp, hsfps'⟩ := hsf
      simp only [WfProp, Bool.and_eq_true, Bool.not_eq_true', beq_eq_false_iff_ne] at hwp
      obtain ⟨⟨⟨⟨hkid, hkyes⟩, hkno⟩, hop⟩, hwv⟩ := hwp
      simp only [SafeProp] at hsfp
      obtain ⟨tsv, tsP', hts2, hmv, hmP⟩ := List.append_eq_map_iff.mp hmap2.symm
      subst hts2
      simp only [List.length_cons, List.length_append] at hfuel
      show parseProperties (f + 1) (tK :: tO :: ((tsv ++ tsP') ++ rest)) = _
      unfold parseProperties
      simp only []
      rw [if_neg (by simp [hKty]), if_pos hKty]
      rw [opOf_canon hop hO]
      rw [show (tsv ++ tsP') ++ rest = tsv ++ (tsP' ++ rest) by simp]
      rw [parseValue_canon v hwv hsfp tsv (tsP' ++ rest) f hmv (by omega)]
      simp only []
      rw [parseProperties_canon ps' hwps' hsfps' tsP' rest f hmP hstop (by omega)]
      rw [hKval]

end

/-! ## Tokenizer output invariants (for C1 and C10) -/

/-- Shape facts guaranteed for every token the tokenizer produces. -/
def TokWf (t : Token) : Bool :=
  match t.type with
  | .Identifier => isIdentText t.value.data && !(t.value == "yes") && !(t.value == "no")
  | .String => !(t.value.data.getLast? == some '\\')
  | .NotEqual => t.value == "!=" || t.value == "<>"
  | _ => true

theorem scanStringBody_empty_val {cs : List Char} {l c : Nat} {r : List Char} {l' c' : Nat}
    (h : scanStringBody cs l c = some ([], r, l', c')) : ∃ r2, cs = '"' :: r2 := by
  induction cs, l, c using scanStringBody.induct with
  | case1 => simp [scanStringBody] at h
  | case2 rest l c => exact ⟨rest, rfl⟩
  | case3 rest l c ih =>
      simp only [scanStringBody, Option.map_eq_some'] at h
      obtain ⟨⟨v0, r0, l0, c0⟩, h0, h1⟩ := h
      simp at h1
  | case4 rest l c ih =>
      simp only [scanStringBody, Option.map_eq_some'] at h
      obtain ⟨⟨v0, r0, l0, c0⟩, h0, h1⟩ := h
      simp at h1
  | case5 ch rest l c hne1 hne2 hne3 ih =>
      simp only [scanStringBody, Option.map_eq_some'] at h
      obtain ⟨⟨v0, r0, l0, c0⟩, h0, h1⟩ := h
      simp at h1

theorem scanStringBody_wf {cs : List Char} {l c : Nat} {v r : List Char} {l' c' : Nat}
    (h : scanStringBody cs l c = some (v, r, l', c')) : v.getLast? ≠ some '\\' := by
  induction cs, l, c using scanStringBody.induct generalizing v r l' c' with
  | case1 => simp [scanStringBody] at h
  | case2 rest l c =>
      simp only [scanStringBody, Option.some.injEq] at h
      cases h
      simp
  | case3 rest l c ih =>
      simp only [scanStringBody, Option.map_eq_some'] at h
      obtain ⟨⟨v0, r0, l0, c0⟩, h0, h1⟩ := h
      cases h1
      cases v0 with
      | nil => simp
      | cons a t =>
          rw [List.getLast?_cons_cons]
          exact ih h0
  | case4 rest l c ih =>
      simp only [scanStringBody, Option.map_eq_some'] at h
      obtain ⟨⟨v0, r0, l0, c0⟩, h0, h1⟩ := h
      cases h1
      cases v0 with
      | nil => simp
      | cons a t =>
          rw [List.getLast?_cons_cons]
          exact ih h0
  | case5 ch rest l c hne1 hne2 hne3 ih =>
      simp only [scanStringBody, Option.map_eq_some'] at h
      obtain ⟨⟨v0, r0, l0, c0⟩, h0, h1⟩ := h
      cases h1
      cases v0 with
      | nil =>
          obtain ⟨r2, hr⟩ := scanStringBody_empty_val h0
          subst hr
          intro hch
          have hbs : ch = '\\' := by simpa using hch
          exact hne3 r2 hbs rfl
      | cons a t =>
          rw [List.getLast?_cons_cons]
          exact ih h0

theorem scanToken_wf {cs : List Char} {l c : Nat} {t : Token} {r : List Char} {l' c' : Nat}
    (h : scanToken cs l c = .ok (t, r, l', c')) : TokWf t = true := by
  match cs with
  | [] => simp [scanToken] at h
  | ch :: rest =>
      unfold scanToken at h
      by_cases h1 : ch = '#'
      · rcases hcb : commentBody rest with ⟨v, r0⟩
        simp only [h1, if_true, hcb] at h
        cases h
        rfl
      · simp only [h1, if_false] at h
        by_cases h2 : ch = '"'
        · subst h2
          simp only [if_true] at h
          rcases hsb : scanStringBody rest l (c + 1) with _ | ⟨v, r0, l0, c0⟩ <;>
            simp only [hsb] at h
          · cases h
          · cases h
            have hwf := scanStringBody_wf hsb
            simp only [TokWf, Bool.not_eq_true', beq_eq_false_iff_ne]
            exact hwf
        · simp only [h2, if_false] at h
          split at h
          · rcases hnt : scanNumberText (ch :: rest) with ⟨txt, r0⟩
            simp only [hnt] at h
            cases h
            rfl
          · by_cases h4 : ch = '='
            · subst h4
              simp only [if_true] at h
              cases h
              rfl
            simp only [h4, if_false] at h
            by_cases h5 : ch = '{'
            · subst h5
              simp only [if_true] at h
              cases h
              rfl
            simp only [h5, if_false] at h
            by_cases h6 : ch = '\x7d'
            · subst h6
              simp only [if_true] at h
              cases h
              rfl
            simp only [h6, if_false] at h
            by_cases h7 : ch = '<'
            · subst h7
              simp only [if_true] at h
              split at h
              · cases h
                rfl
              · cases h
                rfl
              · cases h
                rfl
            simp only [h7, if_false] at h
            by_cases h8 : ch = '>'
            · subst h8
              simp only [if_true] at h
              split at h
              · cases h
                rfl
              · cases h
                rfl
            simp only [h8, if_false] at h
            split at h
            · rename_i h9
              simp only [Bool.and_eq_true, decide_eq_true_eq] at h9
              obtain ⟨rfl, h9b⟩ := h9
              rcases rest with _ | ⟨c2, t2⟩
              · simp at h9b
              · by_cases hc2 : c2 = '='
                · subst hc2
                  cases h
                  rfl
                · exfalso
                  split at h9b
                  · next heq => exact hc2 (by injection heq)
                  · exact absurd h9b (by simp)
            · by_cases h10 : isIdentStartCh ch = true
              · rw [if_pos h10] at h
                split at h
                · cases h
                  rfl
                · rename_i hyn
                  cases h
                  simp only [Bool.or_eq_true, decide_eq_true_eq, not_or] at hyn
                  obtain ⟨hy1, hy2⟩ := hyn
                  have hw : (ch :: rest).takeWhile isIdentCh
                      = ch :: rest.takeWhile isIdentCh :=
                    List.takeWhile_cons_of_pos (isIdentStartCh_isIdentCh h10)
                  simp only [TokWf, Bool.and_eq_true]
                  refine ⟨⟨?_, ?_⟩, ?_⟩
                  · show isIdentText ((ch :: rest).takeWhile isIdentCh) = true
                    rw [hw]
                    simp only [isIdentText, h10, Bool.true_and]
                    simp only [List.all_eq_true]
                    intro x hx
                    exact mem_takeWhile_pred hx
                  · simp only [Bool.not_eq_true', beq_eq_false_iff_ne]
                    intro hx
                    exact hy1 (congrArg String.data hx)
                  · simp only [Bool.not_eq_true', beq_eq_false_iff_ne]
                    intro hx
                    exact hy2 (congrArg String.data hx)
              · rw [if_neg h10] at h
                cases h

theorem tokenizeLoop_wf : ∀ (fuel : Nat) (cs : List Char) (l c : Nat) (ts : List Token),
    tokenizeLoop fuel cs l c = .ok ts → ∀ t ∈ ts, TokWf t = true := by
  intro fuel
  induction fuel with
  | zero =>
      intro cs l c ts h
      simp [tokenizeLoop] at h
  | succ fuel ih =>
      intro cs l c ts h
      unfold tokenizeLoop at h
      rcases hsw : skipWs cs l c with ⟨cs1, l1, c1⟩
      simp only [hsw] at h
      cases cs1 with
      | nil =>
          simp only [Except.ok.injEq] at h
          subst h
          intro t ht
          simp only [List.mem_singleton] at ht
          subst ht
          rfl
      | cons ch rest =>
          rcases hst : scanToken (ch :: rest) l1 c1 with e | ⟨t0, cs2, l2, c2⟩ <;>
            simp only [hst] at h
          · cases h
          · rcases htl : tokenizeLoop fuel cs2 l2 c2 with e | ts0 <;>
              simp only [htl] at h
            · cases h
            · injection h with h2
              subst h2
              intro t ht
              rcases List.mem_cons.mp ht with rfl | ht2
              · exact scanToken_wf hst
              · exact ih cs2 l2 c2 ts0 htl t ht2

theorem tokenize_wf {input : String} {ts : List Token}
    (h : (tokenize input).tokens = some ts) : ∀ t ∈ ts, TokWf t = true := by
  unfold tokenize at h
  split at h
  · simp at h
  · split at h
    · next ts0 heq =>
        simp only [Option.some.injEq] at h
        subst h
        exact tokenizeLoop_wf _ _ _ _ _ heq
    · simp at h

/-! ## Parser output invariants (for C1 and C10) -/

theorem headPrimNumBool_numberValue (s : String) :
    headPrimNumBool (numberValue s) = true := by
  unfold numberValue
  rcases hr : roundDbl (parseFloatDec s).1 (parseFloatDec s).2 with ⟨m, e⟩ | ng
  · simp only []
    by_cases he : e = 0
    · rw [if_pos he]
      rcases hr2 : roundDbl (parseIntM s) 0 with ⟨m', e'⟩ | ng2
      · rfl
      · rfl
    · rw [if_neg he]
      rfl
  · rfl

theorem WfPrim_numberValue (s : String) : WfPrim (numberValue s) = true := by
  unfold numberValue
  rcases hr : roundDbl (parseFloatDec s).1 (parseFloatDec s).2 with ⟨m, e⟩ | ng
  · simp only []
    by_cases he : e = 0
    · rw [if_pos he]
      rcases hr2 : roundDbl (parseIntM s) 0 with ⟨m', e'⟩ | ng2
      · have he' : e' = 0 := roundDbl_int_e0 hr2
        have hfix2 := roundDbl_fix hr2
        subst he'
        show (roundDbl m' 0 == Dbl.fin m' 0) = true
        rw [beq_iff_eq]
        exact hfix2
      · rfl
    · rw [if_neg he]
      show (decide (1 ≤ e) && (roundDbl m e == Dbl.fin m e)) = true
      rw [Bool.and_eq_true, decide_eq_true_eq, beq_iff_eq]
      exact ⟨by omega, roundDbl_fix hr⟩
  · rfl

theorem isIdentCh_ne_backslash {x : Char} (h : isIdentCh x = true) : x ≠ '\\' := by
  rintro rfl
  exact absurd h (by decide)

theorem identText_no_backslash {w : List Char} (h : isIdentText w = true) :
    w.getLast? ≠ some '\\' := by
  match w with
  | [] => simp [isIdentText] at h
  | c :: rest =>
      simp only [isIdentText, Bool.and_eq_true] at h
      intro hl
      have hmem : '\\' ∈ c :: rest := List.mem_of_mem_getLast? hl
      rcases List.mem_cons.mp hmem with heq | hm
      · rw [← heq] at h
        exact absurd h.1 (by decide)
      · have := List.all_eq_true.mp h.2 _ hm
        exact absurd this (by decide)

theorem WfPrim_str_of_tokWf_ident {t : Token} (hwf : TokWf t = true)
    (hty : t.type = .Identifier) : WfPrim (.str t.value) = true := by
  rw [TokWf, hty] at hwf
  simp only [Bool.and_eq_true] at hwf
  simp only [WfPrim, Bool.not_eq_true', beq_eq_false_iff_ne]
  exact identText_no_backslash hwf.1.1

theorem WfPrim_str_of_tokWf_string {t : Token} (hwf : TokWf t = true)
    (hty : t.type = .String) : WfPrim (.str t.value) = true := by
  rw [TokWf, hty] at hwf
  simp only [Bool.not_eq_true', beq_eq_false_iff_ne] at hwf
  simp only [WfPrim, Bool.not_eq_true', beq_eq_false_iff_ne]
  exact hwf

theorem opOf_lit {o : Token} {op : String} (h : opOf o = some op) (hwf : TokWf o = true) :
    isOpLit op = true := by
  unfold opOf at h
  split at h
  · injection h with h2
    subst h2
    rfl
  · split at h
    · injection h with h2
      subst h2
      rfl
    · split at h
      · injection h with h2
        subst h2
        rfl
      · split at h
        · injection h with h2
          subst h2
          rfl
        · split at h
          · injection h with h2
            subst h2
            rfl
          · split at h
            · next hne =>
                injection h with h2
                subst h2
                rw [TokWf, hne] at hwf
                simp only [Bool.or_eq_true, beq_iff_eq] at hwf
                rcases hwf with h3 | h3 <;> rw [h3] <;> rfl
            · cases h

theorem parseValueArray_wf : ∀ (ts : List Token) (vs : List Prim) (r : List Token),
    parseValueArray ts = (vs, r) → (∀ t ∈ ts, TokWf t = true) →
    vs.all WfPrim = true ∧ ∀ t ∈ r, t ∈ ts := by
  intro ts
  induction ts with
  | nil =>
      intro vs r h hts
      simp only [parseValueArray] at h
      cases h
      exact ⟨rfl, by simp⟩
  | cons t rest ih =>
      intro vs r h hts
      have hrest : ∀ x ∈ rest, TokWf x = true := fun x hx => hts x (by simp [hx])
      unfold parseValueArray at h
      split at h
      · cases h
        exact ⟨rfl, fun x hx => hx⟩
      · split at h
        · next hnum =>
            rcases hpa : parseValueArray rest with ⟨vs0, r0⟩
            simp only [hpa] at h
            cases h
            obtain ⟨hall, hsub⟩ := ih vs0 r hpa hrest
            refine ⟨?_, fun x hx => by simp [hsub x hx]⟩
            simp only [List.all_cons, Bool.and_eq_true]
            exact ⟨WfPrim_numberValue _, hall⟩
        · split at h
          · next hstr =>
              rcases hpa : parseValueArray rest with ⟨vs0, r0⟩
              simp only [hpa] at h
              cases h
              obtain ⟨hall, hsub⟩ := ih vs0 r hpa hrest
              refine ⟨?_, fun x hx => by simp [hsub x hx]⟩
              simp only [List.all_cons, Bool.and_eq_true]
              exact ⟨WfPrim_str_of_tokWf_string (hts t (by simp)) hstr, hall⟩
          · split at h
            · rcases hpa : parseValueArray rest with ⟨vs0, r0⟩
              simp only [hpa] at h
              cases h
              obtain ⟨hall, hsub⟩ := ih vs0 r hpa hrest
              refine ⟨?_, fun x hx => by simp [hsub x hx]⟩
              simp only [List.all_cons, Bool.and_eq_true]
              exact ⟨rfl, hall⟩
            · split at h
              · next hident =>
                  rcases hpa : parseValueArray rest with ⟨vs0, r0⟩
                  simp only [hpa] at h
                  cases h
                  obtain ⟨hall, hsub⟩ := ih vs0 r hpa hrest
                  refine ⟨?_, fun x hx => by simp [hsub x hx]⟩
                  simp only [List.all_cons, Bool.and_eq_true]
                  exact ⟨WfPrim_str_of_tokWf_ident (hts t (by simp)) hident, hall⟩
              · cases h
                exact ⟨rfl, fun x hx => hx⟩

theorem isValueArray_first {t1 : Token} {rest : List Token}
    (hva : isValueArray (t1 :: rest) = true) :
    t1.type = .Number ∨ t1.type = .Boolean := by
  unfold isValueArray at hva
  simp only [] at hva
  by_cases hrb : t1.type = .RightBrace
  · rw [if_pos hrb] at hva
    cases hva
  · rw [if_neg hrb] at hva
    by_cases hnb : t1.type = .Number ∨ t1.type = .Boolean
    · exact hnb
    · rw [if_neg (by
        simp only [Bool.or_eq_true, decide_eq_true_eq]
        exact hnb)] at hva
      cases hva

theorem parseValueArray_head {t1 : Token} {rest : List Token}
    (hnb : t1.type = .Number ∨ t1.type = .Boolean)
    {vs : List Prim} {r : List Token} (h : parseValueArray (t1 :: rest) = (vs, r)) :
    ∃ p vs2, vs = p :: vs2 ∧ headPrimNumBool p = true := by
  unfold parseValueArray at h
  rw [if_neg (by rcases hnb with h1 | h1 <;> simp [h1])] at h
  rcases hnb with hN | hB
  · rw [if_pos hN] at h
    rcases hpa : parseValueArray rest with ⟨vs0, r0⟩
    simp only [hpa] at h
    cases h
    exact ⟨_, _, rfl, headPrimNumBool_numberValue _⟩
  · rw [if_neg (by simp [hB]), if_neg (by simp [hB]), if_pos hB] at h
    rcases hpa : parseValueArray rest with ⟨vs0, r0⟩
    simp only [hpa] at h
    cases h
    exact ⟨_, _, rfl, rfl⟩

theorem parser_wf : ∀ fuel : Nat,
    (∀ ts v r, parseValue fuel ts = .ok (v, r) → (∀ t ∈ ts, TokWf t = true) →
      WfValue v = true ∧ ∀ t ∈ r, t ∈ ts) ∧
    (∀ ts v r, parseBlockOrArray fuel ts = .ok (v, r) → (∀ t ∈ ts, TokWf t = true) →
      WfValue v = true ∧ ∀ t ∈ r, t ∈ ts) ∧
    (∀ ts ps r, parseProperties fuel ts = .ok (ps, r) → (∀ t ∈ ts, TokWf t = true) →
      WfProps ps = true ∧ ∀ t ∈ r, t ∈ ts) := by
  intro fuel
  induction fuel with
  | zero =>
      refine ⟨?_, ?_, ?_⟩ <;> intro ts x r h hts <;>
        simp [parseValue, parseBlockOrArray, parseProperties] at h
  | succ fuel ih =>
      obtain ⟨ihv, ihb, ihp⟩ := ih
      refine ⟨?_, ?_, ?_⟩
      · -- parseValue
        intro ts v r h hts
        unfold parseValue at h
        cases ts with
        | nil => cases h
        | cons t rest =>
            have hrest : ∀ x ∈ rest, TokWf x = true := fun x hx => hts x (by simp [hx])
            simp only [] at h
            split at h
            · rcases hb : parseBlockOrArray fuel rest with e | ⟨v0, r0⟩ <;>
                simp only [hb] at h
              · cases h
              · cases h
                obtain ⟨hwv, hsub⟩ := ihb rest v r hb hrest
                exact ⟨hwv, fun x hx => by simp [hsub x hx]⟩
            · split at h
              · next hstr =>
                  cases h
                  refine ⟨?_, fun x hx => by simp [hx]⟩
                  show WfPrim (.str t.value) = true
                  exact WfPrim_str_of_tokWf_string (hts t (by simp)) hstr
              · split at h
                · cases h
                  refine ⟨?_, fun x hx => by simp [hx]⟩
                  show WfPrim (numberValue t.value) = true
                  exact WfPrim_numberValue _
                · split at h
                  · cases h
                    exact ⟨rfl, fun x hx => by simp [hx]⟩
                  · split at h
                    · next hident =>
                        cases h
                        refine ⟨?_, fun x hx => by simp [hx]⟩
                        show WfPrim (.str t.value) = true
                        exact WfPrim_str_of_tokWf_ident (hts t (by simp)) hident
                    · cases h
      · -- parseBlockOrArray
        intro ts v r h hts
        unfold parseBlockOrArray at h
        split at h
        · next hva =>
            rcases hpa : parseValueArray ts with ⟨vs, r1⟩
            simp only [hpa] at h
            cases r1 with
            | nil =>
                simp only [] at h
                cases h
            | cons rb r2 =>
                simp only [] at h
                split at h
                · next hrb =>
                    cases h
                    obtain ⟨hall, hsub⟩ := parseValueArray_wf ts vs (rb :: r) hpa hts
                    refine ⟨?_, fun x hx => hsub x (by simp [hx])⟩
                    cases ts with
                    | nil => simp [isValueArray] at hva
                    | cons t1 rest =>
                        obtain ⟨p, vs2, rfl, hhead⟩ :=
                          parseValueArray_head (isValueArray_first hva) hpa
                        simp only [WfValue, Bool.and_eq_true]
                        exact ⟨hhead, hall⟩
                · cases h
        · rcases hpp : parseProperties fuel ts with e | ⟨ps, r1⟩ <;>
            simp only [hpp] at h
          · cases h
          · cases r1 with
            | nil =>
                simp only [] at h
                cases h
            | cons rb r2 =>
                simp only [] at h
                split at h
                · cases h
                  obtain ⟨hwps, hsub⟩ := ihp ts ps (rb :: r) hpp hts
                  exact ⟨by simpa [WfValue] using hwps, fun x hx => hsub x (by simp [hx])⟩
                · cases h
      · -- parseProperties
        intro ts ps r h hts
        unfold parseProperties at h
        cases ts with
        | nil =>
            simp only [Except.ok.injEq] at h
            cases h
            exact ⟨rfl, fun x hx => hx⟩
        | cons t rest =>
            have hrest : ∀ x ∈ rest, TokWf x = true := fun x hx => hts x (by simp [hx])
            simp only [] at h
            split at h
            · cases h
              exact ⟨rfl, fun x hx => hx⟩
            · split at h
              · next hid =>
                  cases rest with
                  | nil => cases h
                  | cons o rest2 =>
                      have hrest2 : ∀ x ∈ rest2, TokWf x = true :=
                        fun x hx => hrest x (by simp [hx])
                      rcases hop : opOf o with _ | op <;> simp only [hop] at h
                      · cases h
                      · rcases hpv : parseValue fuel rest2 with e | ⟨v, rest3⟩ <;>
                          simp only [hpv] at h
                        · cases h
                        · obtain ⟨hwv, hsub3⟩ := ihv rest2 v rest3 hpv hrest2
                          rcases hpp : parseProperties fuel rest3 with e | ⟨ps0, r0⟩ <;>
                            simp only [hpp] at h
                          · cases h
                          · cases h
                            obtain ⟨hwps0, hsub0⟩ := ihp rest3 ps0 r hpp
                              (fun x hx => hrest2 x (hsub3 x hx))
                            refine ⟨?_, fun x hx => by
                              have := hsub3 x (hsub0 x hx)
                              simp [this]⟩
                            rw [WfProps, Bool.and_eq_true]
                            refine ⟨?_, hwps0⟩
                            have hkwf := hts t (by simp)
                            rw [TokWf, hid] at hkwf
                            simp only [Bool.and_eq_true] at hkwf
                            simp only [WfProp, Bool.and_eq_true]
                            exact ⟨⟨⟨⟨hkwf.1.1, hkwf.1.2⟩, hkwf.2⟩,
                              opOf_lit hop (hrest o (by simp))⟩, hwv⟩
              · rcases hpp : parseProperties fuel rest with e | ⟨ps0, r0⟩ <;>
                  simp only [hpp] at h
                · cases h
                · cases h
                  obtain ⟨hw, hs⟩ := ihp rest ps r hpp hrest
                  exact ⟨hw, fun x hx => by simp [hs x hx]⟩

/-! ## Assembling the round trip (C1) -/

theorem opTokType_ne_comment (o : String) : opTokType o ≠ .Comment := by
  unfold opTokType
  split
  · decide
  · split
    · decide
    · split
      · decide
      · split
        · decide
        · split
          · decide
          · decide

theorem primTok_ne_comment (p : Prim) : (primTok p).1 ≠ .Comment := by
  cases p with
  | str s =>
      by_cases h : isIdentText s.data = true <;> simp [primTok, h]
  | int n => simp [primTok]
  | float m e => simp [primTok]
  | inf ng => simp [primTok]
  | bool b => simp [primTok]

mutual

theorem valueToks_no_comment (v : Value) :
    ∀ x ∈ valueToks v, x.1 ≠ TokenType.Comment := by
  cases v with
  | prim p =>
      intro x hx
      rw [show valueToks (.prim p) = [primTok p] by simp [valueToks]] at hx
      simp only [List.mem_singleton] at hx
      subst hx
      exact primTok_ne_comment p
  | arr vs =>
      intro x hx
      rw [show valueToks (.arr vs)
          = ((.LeftBrace : TokenType), ("\x7b" : String)) ::
            (vs.map primTok ++ [((.RightBrace : TokenType), ("\x7d" : String))])
          by simp [valueToks]] at hx
      simp only [List.mem_cons, List.mem_append, List.mem_map,
        List.mem_singleton] at hx
      rcases hx with rfl | ⟨p, hp, rfl⟩ | rfl | hemp
      · decide
      · exact primTok_ne_comment p
      · decide
      · simp at hemp
  | block ps =>
      intro x hx
      rw [show valueToks (.block ps)
          = ((.LeftBrace : TokenType), ("\x7b" : String)) ::
            (propsToks ps ++ [((.RightBrace : TokenType), ("\x7d" : String))])
          by simp [valueToks]] at hx
      simp only [List.mem_cons, List.mem_append, List.mem_singleton] at hx
      rcases hx with rfl | hx | rfl | hemp
      · decide
      · exact propsToks_no_comment ps x hx
      · decide
      · simp at hemp

theorem propToks_no_comment (p : Property) :
    ∀ x ∈ propToks p, x.1 ≠ TokenType.Comment := by
  match p with
  | .mk k o v =>
      intro x hx
      rw [show propToks (.mk k o v)
          = ((.Identifier : TokenType), k) :: ((opTokType o, o) :: valueToks v)
          by simp [propToks]] at hx
      simp only [List.mem_cons] at hx
      rcases hx with rfl | rfl | hx
      · simp
      · exact opTokType_ne_comment o
      · exact valueToks_no_comment v x hx

theorem propsToks_no_comment (ps : List Property) :
    ∀ x ∈ propsToks ps, x.1 ≠ TokenType.Comment := by
  match ps with
  | [] =>
      intro x hx
      rw [show propsToks [] = [] by simp [propsToks]] at hx
      simp at hx
  | p :: ps' =>
      intro x hx
      rw [show propsToks (p :: ps') = propToks p ++ propsToks ps' by simp [propsToks]] at hx
      simp only [List.mem_append] at hx
      rcases hx with hx | hx
      · exact propToks_no_comment p x hx
      · exact propsToks_no_comment ps' x hx

end

theorem renderProp_head {ind : List Char} {depth : Nat} {k o : String} {v : Value}
    (hk : isIdentText k.data = true) :
    ∃ c0 t', renderProp ind depth (.mk k o v) = c0 :: t' ∧ isIdentStartCh c0 = true := by
  rcases hkd : k.data with _ | ⟨c0, kt⟩
  · rw [hkd] at hk
    simp [isIdentText] at hk
  · rw [hkd] at hk
    simp only [isIdentText, Bool.and_eq_true] at hk
    refine ⟨c0, kt ++ (' ' :: (o.data ++ ' ' :: renderValue ind depth v)), ?_, hk.1⟩
    rw [show renderProp ind depth (.mk k o v)
        = k.data ++ ' ' :: (o.data ++ ' ' :: renderValue ind depth v) by simp [renderProp]]
    rw [hkd]
    simp

theorem jsTrimCh_cases {c : Char} (h : isJsTrimCh c = true) :
    c = ' ' ∨ c = '\t' ∨ c = '\r' ∨ c = '\n' ∨ c = '\x0b' ∨ c = '\x0c' ∨
      c = ' ' ∨ c = '﻿' := by
  simp only [isJsTrimCh, isWsCh, Bool.or_eq_true, decide_eq_true_eq] at h
  tauto

theorem identStart_not_trim {c : Char} (h : isIdentStartCh c = true) :
    isJsTrimCh c = false := by
  by_contra hx
  simp only [Bool.not_eq_false] at hx
  rcases jsTrimCh_cases hx with rfl|rfl|rfl|rfl|rfl|rfl|rfl|rfl <;> exact absurd h (by decide)

theorem emptyOrWs_false_of_identStart {c0 : Char} {t' : List Char} {input : String}
    (hdata : input.data = c0 :: t') (h : isIdentStartCh c0 = true) :
    emptyOrWsInput input = false := by
  unfold emptyOrWsInput
  rw [hdata]
  simp only [List.isEmpty_cons, Bool.false_or]
  unfold jsTrim
  rw [List.dropWhile_cons_of_neg (by simp [identStart_not_trim h])]
  have hne : (c0 :: t').reverse.dropWhile isJsTrimCh ≠ [] := by
    rw [Ne, List.dropWhile_eq_nil_iff]
    intro hall
    have := hall c0 (by simp)
    rw [identStart_not_trim h] at this
    cases this
  have hne2 : ((c0 :: t').reverse.dropWhile isJsTrimCh).reverse ≠ [] := by
    simpa using hne
  rcases hd : ((c0 :: t').reverse.dropWhile isJsTrimCh).reverse with _ | ⟨a, b⟩
  · exact absurd hd hne2
  · simp [hd]

theorem emits_props_top (ind : List Char) (hind : ∀ x ∈ ind, isWsCh x = true)
    (ps : List Property) (hwf : WfProps ps = true) (hyn : noYNProps ps = true)
    (hsf : SafeProps ps = true) :
    Emits (joinSep ['\n'] (ps.map (renderProp ind 0))) (propsToks ps) := by
  induction ps with
  | nil => exact Emits.nil
  | cons p ps' ih =>
      rw [WfProps, Bool.and_eq_true] at hwf
      rw [noYNProps, Bool.and_eq_true] at hyn
      rw [SafeProps, Bool.and_eq_true] at hsf
      cases ps' with
      | nil =>
          rw [show joinSep ['\n'] ([p].map (renderProp ind 0)) = renderProp ind 0 p by
            rw [List.map_cons, List.map_nil]
            simp [joinSep]]
          rw [show propsToks [p] = propToks p by simp [propsToks]]
          exact emits_prop ind hind 0 p hwf.1 hyn.1 hsf.1
      | cons q qs =>
          rw [show joinSep ['\n'] ((p :: q :: qs).map (renderProp ind 0))
              = renderProp ind 0 p ++
                ('\n' :: joinSep ['\n'] ((q :: qs).map (renderProp ind 0))) by
            rw [List.map_cons, List.map_cons]
            simp [joinSep]]
          rw [show propsToks (p :: q :: qs) = propToks p ++ propsToks (q :: qs) by
            simp [propsToks]]
          exact Emits.append (emits_prop ind hind 0 p hwf.1 hyn.1 hsf.1)
            (Emits.wsCons (by decide) (ih hwf.2 hyn.2 hsf.2))
            (.inr ⟨'\n', _, rfl, by decide⟩)

theorem tokenize_of_emits {input : String} {ks : List TokS} (hem : Emits input.data ks)
    {c0 : Char} {t' : List Char} (hhead : input.data = c0 :: t')
    (hid : isIdentStartCh c0 = true) :
    ∃ ts0 l2 c2, tokenize input
        = ⟨true, some (ts0 ++ [⟨.EOF, "", l2, c2⟩]), none, none, none⟩ ∧
      ts0.map strip = ks := by
  have hne : emptyOrWsInput input = false := emptyOrWs_false_of_identStart hhead hid
  obtain ⟨ts0, l2, c2, fuel2, heq, hstrip, hlen, hle⟩ :=
    hem (input.data.length + 1) [] 1 1 (.inl rfl) (by simp)
  rw [List.append_nil] at heq
  have hfe : tokenizeLoop fuel2 [] l2 c2 = .ok [⟨.EOF, "", l2, c2⟩] := by
    cases fuel2 with
    | zero => simp at hlen
    | succ g => rfl
  refine ⟨ts0, l2, c2, ?_, hstrip⟩
  unfold tokenize
  rw [if_neg (by rw [hne]; exact Bool.false_ne_true)]
  rw [heq, hfe]
  rfl

theorem runParse_canon {ts0 : List Token} {ps : List Property} {eofT : Token}
    (heof : eofT.type = .EOF) (hmap : ts0.map strip = propsToks ps)
    (hwf : WfProps ps = true) (hsf : SafeProps ps = true) :
    runParse (ts0 ++ [eofT]) = ⟨true, some ⟨ps⟩, none, none, none⟩ := by
  have hnc : ∀ t ∈ ts0, t.type ≠ TokenType.Comment := by
    intro t ht
    have hmem : strip t ∈ propsToks ps := by
      rw [← hmap]
      exact List.mem_map_of_mem strip ht
    exact propsToks_no_comment ps (strip t) hmem
  have hfil : (ts0 ++ [eofT]).filter (fun t => decide (t.type ≠ TokenType.Comment))
      = ts0 ++ [eofT] := by
    rw [List.filter_eq_self]
    intro t ht
    simp only [List.mem_append, List.mem_singleton] at ht
    rcases ht with ht | rfl
    · simp [hnc t ht]
    · simp [heof]
  unfold runParse
  simp only [hfil]
  rw [parseProperties_canon ps hwf hsf ts0 [eofT] (parserFuel (ts0 ++ [eofT])) hmap
    (.inr ⟨eofT, [], rfl, .inl heof⟩)
    (by simp [parserFuel, List.length_append])]

theorem parse_doc_wf {input : String} {doc : Document}
    (h : (parse input).document = some doc) : WfProps doc.properties = true := by
  simp only [parse] at h
  split at h
  · simp at h
  · split at h
    · simp at h
    · next tokens heq =>
        split at h
        · have hwfall : ∀ t ∈ tokens, TokWf t = true := tokenize_wf heq
          simp only [runParse] at h
          split at h
          · next props r hpp =>
              simp only [Option.some.injEq] at h
              subst h
              have hfilwf : ∀ t ∈ tokens.filter (fun t => decide (t.type ≠ TokenType.Comment)),
                  TokWf t = true := by
                intro t ht
                exact hwfall t (List.mem_of_mem_filter ht)
              exact ((parser_wf _).2.2 _ props r hpp hfilwf).1
          · simp at h
        · simp at h

theorem stringify_data_default (doc : Document) :
    (stringify doc defaultOptions).data
      = joinSep ['\n'] (doc.properties.map (renderProp ['\t'] 0)) := rfl

/-- C1 (amended): for every Document produced by a successful `parse` whose
property list is non-empty, which contains no string primitive spelled
`yes` or `no`, and all of whose numeric values render positionally under
`String()` (no `Infinity` and no exponential form such as `1e-7`/`1e+23`),
`parse (stringify doc)` (default options) succeeds and returns exactly
`doc` — hence `get`/`getAll` agree on every path. The excluded cases
genuinely fail: an empty document stringifies to `""`, which `parse`
rejects as empty input; a string primitive `yes`/`no` is rendered unquoted
and re-parses as a Boolean; and an exponentially rendered number re-parses
as a Number followed by stray tokens, so the reparse errors out. -/
theorem C1_round_trip_amended (input : String) (doc : Document)
    (h : (parse input).document = some doc)
    (hne : doc.properties ≠ [])
    (hyn : noYNProps doc.properties = true)
    (hsf : SafeProps doc.properties = true) :
    parse (stringify doc defaultOptions) = ⟨true, some doc, none, none, none⟩ := by
  have hwf : WfProps doc.properties = true := parse_doc_wf h
  rcases hps : doc.properties with _ | ⟨p0, ps'⟩
  · exact absurd hps hne
  · rw [hps] at hwf hyn hsf
    have htext : (stringify doc defaultOptions).data
        = joinSep ['\n'] ((p0 :: ps').map (renderProp ['\t'] 0)) := by
      rw [stringify_data_default, hps]
    obtain ⟨k, o, v⟩ := p0
    have hp0wf : WfProp (.mk k o v) = true := by
      rw [WfProps, Bool.and_eq_true] at hwf
      exact hwf.1
    have hkid : isIdentText k.data = true := by
      simp only [WfProp, Bool.and_eq_true] at hp0wf
      exact hp0wf.1.1.1.1
    obtain ⟨c0, t0, hrp, hc0⟩ := @renderProp_head ['\t'] 0 k o v hkid
    have hhead : ∃ t', (stringify doc defaultOptions).data = c0 :: t' := by
      rw [htext]
      cases ps' with
      | nil =>
          refine ⟨t0, ?_⟩
          rw [List.map_cons, List.map_nil]
          rw [show joinSep ['\n'] [renderProp ['\t'] 0 (.mk k o v)]
              = renderProp ['\t'] 0 (.mk k o v) by simp [joinSep]]
          exact hrp
      | cons q qs =>
          refine ⟨t0 ++ ('\n' :: joinSep ['\n'] ((q :: qs).map (renderProp ['\t'] 0))), ?_⟩
          rw [List.map_cons, List.map_cons]
          rw [show joinSep ['\n'] (renderProp ['\t'] 0 (.mk k o v) ::
                renderProp ['\t'] 0 q :: qs.map (renderProp ['\t'] 0))
              = renderProp ['\t'] 0 (.mk k o v) ++
                ('\n' :: joinSep ['\n'] (renderProp ['\t'] 0 q ::
                  qs.map (renderProp ['\t'] 0))) by simp [joinSep]]
          rw [hrp]
          simp
    obtain ⟨t', hsdata⟩ := hhead
    have hem : Emits (stringify doc defaultOptions).data (propsToks (.mk k o v :: ps')) := by
      rw [htext]
      exact emits_props_top ['	']
        (by
          intro x hx
          simp only [List.mem_singleton] at hx
          subst hx
          rfl)
        (Property.mk k o v :: ps') hwf hyn hsf
    obtain ⟨ts0, l2, c2, htok, hstrip⟩ := tokenize_of_emits hem hsdata hc0
    have hrun := @runParse_canon ts0 (Property.mk k o v :: ps') ⟨.EOF, "", l2, c2⟩
      rfl hstrip hwf hsf
    simp only [parse]
    rw [if_neg (by
      rw [emptyOrWs_false_of_identStart hsdata hc0]
      exact Bool.false_ne_true)]
    rw [htok]
    simp only []
    rw [if_pos trivial]
    rw [hrun, ← hps]

set_option maxRecDepth 16000 in
/-- C1 counterexample to the original claim: (1) `parse "}"` succeeds with an
empty document, whose stringification `""` is rejected by `parse` — the round
trip does not even succeed; (2) `parse "a = \"yes\""` succeeds with the string
primitive `"yes"`, which stringify renders unquoted, so the reparse yields the
Boolean `true` and `get "a"` disagrees between the two documents;
(3) `parse "x = 0.0000001"` succeeds, but `String()` renders the value in
exponential notation, so the document stringifies to `"x = 1e-7"`, which does
not re-parse (the tokenizer splits `1e-7` at the `e` and the parser then
fails expecting an operator) — the round trip does not succeed. -/
theorem C1_counterexample :
    (parse "\x7d").success = true ∧
    (parse "\x7d").document = some ⟨[]⟩ ∧
    stringify ⟨[]⟩ defaultOptions = "" ∧
    (parse (stringify ⟨[]⟩ defaultOptions)).success = false ∧
    (parse "a = \"yes\"").success = true ∧
    (parse "a = \"yes\"").document = some ⟨[⟨"a", "=", .prim (.str "yes")⟩]⟩ ∧
    (parse (stringify ⟨[⟨"a", "=", .prim (.str "yes")⟩]⟩ defaultOptions)).document
      = some ⟨[⟨"a", "=", .prim (.bool true)⟩]⟩ ∧
    ClausewitzDocument.get ⟨[⟨"a", "=", .prim (.str "yes")⟩]⟩ "a" ≠
      ClausewitzDocument.get ⟨[⟨"a", "=", .prim (.bool true)⟩]⟩ "a" ∧
    (parse "x = 0.0000001").success = true ∧
    ((parse "x = 0.0000001").document.map (fun d => stringify d defaultOptions))
      = some "x = 1e-7" ∧
    (parse "x = 1e-7").success = false := by
  refine ⟨rfl, rfl, rfl, rfl, rfl, rfl, rfl, ?_, rfl, rfl, rfl⟩
  intro hx
  rw [show ClausewitzDocument.get ⟨[⟨"a", "=", .prim (.str "yes")⟩]⟩ "a"
      = some (.prim (.str "yes")) from rfl] at hx
  rw [show ClausewitzDocument.get ⟨[⟨"a", "=", .prim (.bool true)⟩]⟩ "a"
      = some (.prim (.bool true)) from rfl] at hx
  injection hx with h1
  injection h1 with h2
  cases h2

/-- C1 witness: the amended round trip applied to the concrete document
parsed from `a = 1` (whose single value `1` renders positionally). -/
theorem C1_round_trip_amended_witness :
    (parse "a = 1").document = some ⟨[⟨"a", "=", .prim (.int 1)⟩]⟩ ∧
    (⟨[⟨"a", "=", .prim (.int 1)⟩]⟩ : Document).properties ≠ [] ∧
    noYNProps (⟨[⟨"a", "=", .prim (.int 1)⟩]⟩ : Document).properties = true ∧
    SafeProps (⟨[⟨"a", "=", .prim (.int 1)⟩]⟩ : Document).properties = true ∧
    parse (stringify ⟨[⟨"a", "=", .prim (.int 1)⟩]⟩ defaultOptions)
      = ⟨true, some ⟨[⟨"a", "=", .prim (.int 1)⟩]⟩, none, none, none⟩ :=
  ⟨rfl, by simp, rfl, rfl,
    C1_round_trip_amended "a = 1" ⟨[⟨"a", "=", .prim (.int 1)⟩]⟩ rfl (by simp) rfl rfl⟩

/-! ## C10: the empty path in the accessors -/

theorem WfProps_mem {ps : List Property} (h : WfProps ps = true) :
    ∀ p ∈ ps, WfProp p = true := by
  induction ps with
  | nil =>
      intro p hp
      simp at hp
  | cons q qs ih =>
      rw [WfProps, Bool.and_eq_true] at h
      intro p hp
      rcases List.mem_cons.mp hp with rfl | hp2
      · exact h.1
      · exact ih h.2 p hp2

theorem WfProp_key_ne_empty {p : Property} (h : WfProp p = true) : p.key ≠ "" := by
  match p with
  | .mk k o v =>
      simp only [WfProp, Bool.and_eq_true] at h
      have hk := h.1.1.1.1
      intro hke
      rw [show Property.key (.mk k o v) = k from rfl] at hke
      subst hke
      simp [isIdentText] at hk

theorem find_empty_key_none {ps : List Property} (h : ∀ p ∈ ps, p.key ≠ "") :
    ps.find? (fun p => p.key == "") = none := by
  rw [List.find?_eq_none]
  intro p hp
  simp [h p hp]

theorem setLast_empty {ps : List Property} (h : ∀ p ∈ ps, p.key ≠ "") (v : Value) :
    setLast ps "" v = (false, ps) := by
  induction ps with
  | nil => rfl
  | cons q qs ih =>
      unfold setLast
      rw [if_neg (by simp [h q (by simp)])]
      rw [ih (fun p hp => h p (by simp [hp]))]

/-- C10: on every document produced by a successful `parse`, the empty path is
asymmetric across the accessors: `get ""` is a lookup for the single key `""`
(which no parser-produced property has) and returns `none`; `set "" v` fails
with the document unchanged; while `add` at `""` treats the empty path as the
root and always succeeds by appending, and `removeAll` at `""` filters the
root properties, returning the removed count. -/
theorem C10_empty_path_asymmetry (input : String) (doc : Document)
    (h : (parse input).document = some doc) (v : Value) (key op : String) :
    ClausewitzDocument.get doc "" = none ∧
    ClausewitzDocument.set doc "" v = (false, doc) ∧
    ClausewitzDocument.add doc "" key v op
      = (true, ⟨doc.properties ++ [Property.mk key op v]⟩) ∧
    ClausewitzDocument.removeAll doc "" key
      = (removedCount doc.properties key,
         ⟨doc.properties.filter (fun p => p.key != key)⟩) := by
  have hwf := parse_doc_wf h
  have hkeys : ∀ p ∈ doc.properties, p.key ≠ "" :=
    fun p hp => WfProp_key_ne_empty (WfProps_mem hwf p hp)
  refine ⟨?_, ?_, rfl, rfl⟩
  · show getAux doc.properties (splitDot "") = none
    rw [show splitDot "" = [""] from rfl]
    show (doc.properties.find? (fun p => p.key == "")).map (·.value) = none
    rw [find_empty_key_none hkeys]
    rfl
  · unfold ClausewitzDocument.set
    rw [show splitDot "" = [""] from rfl]
    rw [show setAux [""] doc.properties v = setLast doc.properties "" v from rfl]
    rw [setLast_empty hkeys]

/-- C10 witness: the empty-path behaviors on the concrete document parsed
from `a = 1`. -/
theorem C10_empty_path_asymmetry_witness :
    (parse "a = 1").document = some ⟨[⟨"a", "=", .prim (.int 1)⟩]⟩ ∧
    (ClausewitzDocument.get ⟨[⟨"a", "=", .prim (.int 1)⟩]⟩ "" = none ∧
     ClausewitzDocument.set ⟨[⟨"a", "=", .prim (.int 1)⟩]⟩ "" (.prim (.int 2))
       = (false, ⟨[⟨"a", "=", .prim (.int 1)⟩]⟩) ∧
     ClausewitzDocument.add ⟨[⟨"a", "=", .prim (.int 1)⟩]⟩ "" "b" (.prim (.int 2)) "="
       = (true, ⟨(⟨[⟨"a", "=", .prim (.int 1)⟩]⟩ : Document).properties
           ++ [Property.mk "b" "=" (.prim (.int 2))]⟩) ∧
     ClausewitzDocument.removeAll ⟨[⟨"a", "=", .prim (.int 1)⟩]⟩ "" "b"
       = (removedCount (⟨[⟨"a", "=", .prim (.int 1)⟩]⟩ : Document).properties "b",
          ⟨(⟨[⟨"a", "=", .prim (.int 1)⟩]⟩ : Document).properties.filter
            (fun p => p.key != "b")⟩)) :=
  ⟨rfl, C10_empty_path_asymmetry "a = 1" ⟨[⟨"a", "=", .prim (.int 1)⟩]⟩ rfl
    (.prim (.int 2)) "b" "="⟩
